import Mathlib

/-!
Forward HTTP proxy: message model, loop detection, blocklist, request handler, cache and
tunnel bridge (namespace `Proxy`); the Unix V6 file system reader (namespace `FileDir`); and
the breadth-first search for the shortest path between two actors (namespace `SixDegrees`).

A shallow embedding of the request-servicing core of the proxy
(`src/proxy/request-handler.cc`, `payload.cc`, `response.cc`, `strike-set.cc`), of
`src/file_dir/inode.c`, `file.c`, `directory.c` and `pathname.c`, and of `BFS` and
`printShortestPath` of `src/imdb/search.cc`. The definitions of all three come first, then
the theorems.

Conventions of the embedding:

* a `std::string` / `std::vector<char>` is a `List Char` (`Str`);
* `std::string::npos` is `none`, a found position is `some pos`;
* a C++ `while` loop whose termination rests on a shrinking string or stream is a
  function with an explicit iteration budget, started with a budget that the
  accompanying lemmas show is never exhausted;
* `size_t` / `unsigned long` are naturals reduced modulo `2 ^ 64`, `int` is an integer
  clamped or reduced to 32 bits where the library does so;
* a member function with effects is a function to a `Run`: the events it causes in order
  (mutex, cache, origin, bytes to the client), the cache afterwards, and the exception that
  leaves it, if any; what it meets outside the code under `src/` is a `World`.
-/

namespace Proxy

/-- A byte string: `std::string` and `std::vector<char>` alike. -/
abbrev Str := List Char

/-! ## `std::string` primitives -/

/-- Embeds `hay.find(needle)`: the least position at which `needle` occurs in `hay`,
`none` standing for `std::string::npos`. -/
def find (needle : Str) : Str → Option Nat
  | [] => if needle = [] then some 0 else none
  | c :: cs =>
    if needle.isPrefixOf (c :: cs) then some 0
    else (find needle cs).map (· + 1)

/-- Embeds `s.substr(0, pos)`. -/
def substr0 (s : Str) (pos : Nat) : Str := s.take pos

/-- Embeds `s.substr(pos)`: the tail of `s` from position `pos`. -/
def substrFrom (s : Str) (pos : Nat) : Str := s.drop pos

/-- Embeds `s.erase(0, count)`. -/
def erase0 (s : Str) (count : Nat) : Str := s.drop count

/-- Embeds `isspace` of the C locale. -/
def isspace (c : Char) : Bool :=
  c = ' ' || c = '\t' || c = '\n' || c = '\x0b' || c = '\x0c' || c = '\r'

/-- Modelled from the spec: `trim` of `string-utils.h`, which is not under `src/`.
It removes the leading and the trailing whitespace of a string. -/
def trim (s : Str) : Str := ((s.dropWhile isspace).reverse.dropWhile isspace).reverse

/-- Lower-case letter of an ASCII upper-case letter, any other character unchanged. -/
def toLowerAscii (c : Char) : Char :=
  if 'A' ≤ c ∧ c ≤ 'Z' then Char.ofNat (c.toNat + 32) else c

/-! ## Header collection -/

/-- Modelled from the spec: the header collection (`header.h`, `header.cc` are not under
`src/`). A mapping from case-insensitive name to value, kept in insertion order. -/
structure HTTPHeader where
  headers : List (Str × Str)
deriving DecidableEq

/-- Case-insensitive equality of two header names. -/
def sameName (a b : Str) : Bool := a.map toLowerAscii == b.map toLowerAscii

/-- Modelled from the spec: `HTTPHeader::containsName`. -/
def HTTPHeader.containsName (h : HTTPHeader) (name : Str) : Bool :=
  h.headers.any (fun e => sameName e.1 name)

/-- Modelled from the spec: `HTTPHeader::getValueAsString`, the exact-string get. The value
stored under the name, the empty string when the name is absent. -/
def HTTPHeader.getValueAsString (h : HTTPHeader) (name : Str) : Str :=
  match h.headers.find? (fun e => sameName e.1 name) with
  | some e => e.2
  | none => []

/-- Modelled from the spec: `HTTPHeader::addHeader`, the upsert. An existing entry of the
name gets the new value in place, otherwise the pair is appended. -/
def HTTPHeader.addHeader (h : HTTPHeader) (name value : Str) : HTTPHeader :=
  if h.containsName name then
    ⟨h.headers.map (fun e => if sameName e.1 name then (e.1, value) else e)⟩
  else ⟨h.headers ++ [(name, value)]⟩

/-! ## Requests and loop detection (`request-handler.cc`) -/

/-- Modelled from the spec: the parts of `HTTPRequest` (`request.h` is not under `src/`)
that the request handler reads: method, target host, header collection and the address of
the originating client. -/
structure HTTPRequest where
  method : Str
  server : Str
  requestHeader : HTTPHeader
  ip : Str
  port : Nat := 80
  path : Str := ['/']
deriving DecidableEq

/-- Embeds `HTTPRequest::containsName`. -/
def HTTPRequest.containsName (r : HTTPRequest) (name : Str) : Bool :=
  r.requestHeader.containsName name

/-- Embeds `HTTPRequest::getHeader`. -/
def HTTPRequest.getHeader (r : HTTPRequest) : HTTPHeader := r.requestHeader

/-- Embeds `HTTPRequest::getip`. -/
def HTTPRequest.getip (r : HTTPRequest) : Str := r.ip

/-- Embeds `static const string comma = ", "`. -/
def comma : Str := ", ".toList

/-- Embeds `static const string ff = "x-forwarded-for"`. -/
def ff : Str := "x-forwarded-for".toList

/-- The `while ((pos = ips.find(comma)) != npos)` loop of `containsLoop`, one unit of
budget per iteration. -/
def containsLoopScan (clientip : Str) : Nat → Str → Bool
  | 0, _ => false
  | fuel + 1, ips =>
    match find comma ips with
    | none => false
    | some pos =>
      let pip := substr0 ips pos
      if clientip = pip then true
      else containsLoopScan clientip fuel (erase0 ips (pos + comma.length))

/-- Embeds `HTTPRequestHandler::containsLoop`. -/
def containsLoop (request : HTTPRequest) : Bool :=
  if !request.containsName ff then false
  else
    let clientip := request.getip
    let ips := request.getHeader.getValueAsString ff
    containsLoopScan clientip (ips.length + 1) ips

/-- The elements of a forwarding chain: the value read as a list separated by `", "`,
split at each separator from left to right. -/
def chainElements : Str → List Str
  | [] => [[]]
  | [c] => [[c]]
  | c :: d :: rest =>
    if c = ',' ∧ d = ' ' then [] :: chainElements rest
    else
      match chainElements (d :: rest) with
      | [] => [[c]]
      | e :: es => (c :: e) :: es

/-- A request with the given forwarding chain and client address. -/
def chainRequest (chain clientip : Str) : HTTPRequest :=
  { method := "GET".toList, server := "origin.example".toList,
    requestHeader := ⟨[(ff, chain)]⟩, ip := clientip }

/-- A request without a forwarding chain. -/
def plainRequest (clientip : Str) : HTTPRequest :=
  { method := "GET".toList, server := "origin.example".toList,
    requestHeader := ⟨[("Host".toList, "origin.example".toList)]⟩, ip := clientip }

/-! ## Input streams -/

/-- A `std::istream`: the bytes not yet extracted, and whether the stream is still `good()`
(neither `eofbit` nor `failbit` set). An input operation on a stream that is not good
extracts nothing. -/
structure IStream where
  buf : Str
  good : Bool
deriving DecidableEq

/-- Embeds `getline(instream, str)` into a fresh empty string: the characters up to the next
`'\n'`, which is extracted and discarded. Reaching the end of the stream first sets
`eofbit` (and `failbit` when nothing was extracted). -/
def getline (is : IStream) : Str × IStream :=
  if !is.good then ([], is)
  else
    match is.buf.span (fun c => c != '\n') with
    | (line, []) => (line, ⟨[], false⟩)
    | (line, _ :: rest) => (line, ⟨rest, true⟩)

/-- The two statements `vector<char> content(n); instream.read(&*content.begin(), n);`:
the vector starts as `n` zero bytes and the extracted bytes overwrite its front. A stream
holding fewer than `n` bytes gives what it has and sets `eofbit | failbit`. The allocation is
taken to succeed: the `std::length_error` that the constructor of the vector throws for an
`n` above `max_size()` is not part of the model, which therefore describes the code only at
sizes that can be allocated. -/
def read (is : IStream) (n : Nat) : Str × IStream :=
  if !is.good then (List.replicate n '\x00', is)
  else if n ≤ is.buf.length then (is.buf.take n, ⟨is.buf.drop n, true⟩)
  else (is.buf ++ List.replicate (n - is.buf.length) '\x00', ⟨[], false⟩)

/-! ## `strtoul` -/

/-- Embeds `ULONG_MAX` of a 64-bit `unsigned long`. -/
def kULongMax : Nat := 2 ^ 64 - 1

/-- Value of a hexadecimal digit, `none` for any other character. -/
def hexDigitValue (c : Char) : Option Nat :=
  if '0' ≤ c ∧ c ≤ '9' then some (c.toNat - '0'.toNat)
  else if 'a' ≤ c ∧ c ≤ 'f' then some (c.toNat - 'a'.toNat + 10)
  else if 'A' ≤ c ∧ c ≤ 'F' then some (c.toNat - 'A'.toNat + 10)
  else none

/-- Embeds `isxdigit`. -/
def isxdigit (c : Char) : Bool := (hexDigitValue c).isSome

/-- Value of a run of hexadecimal digits, most significant first. -/
def hexValue (ds : Str) : Nat :=
  ds.foldl (fun v c => 16 * v + (hexDigitValue c).getD 0) 0

/-- Embeds `strtoul(s, NULL, 16)`: leading whitespace, an optional sign, an optional `0x` / `0X`
(taken only when a hexadecimal digit follows it), then the longest run of hexadecimal
digits. No digit gives 0, a value that does not fit gives `ULONG_MAX`, a minus sign
negates modulo `2 ^ 64`. -/
def strtoul16 (s : Str) : Nat :=
  let s1 := s.dropWhile isspace
  let signed : Bool × Str :=
    match s1 with
    | '-' :: r => (true, r)
    | '+' :: r => (false, r)
    | _ => (false, s1)
  let s3 : Str :=
    match signed.2 with
    | '0' :: x :: d :: r => if (x = 'x' ∨ x = 'X') ∧ isxdigit d = true then d :: r else signed.2
    | _ => signed.2
  let v := hexValue (s3.takeWhile isxdigit)
  if kULongMax < v then kULongMax
  else if signed.1 then (2 ^ 64 - v) % 2 ^ 64
  else v

/-! ## Payload (`payload.cc`) -/

/-- The exceptions of `proxy-exception.h` that the request handler distinguishes. -/
inductive ProxyException where
  | badRequest (what : Str)
  | unsupportedMethod (what : Str)
  | requestFailure (what : Str)
  | responseFailure (what : Str)
  | proxyFailure (what : Str)
deriving DecidableEq

/-- Modelled from the spec: `HTTPHeader::getValueAsNumber`, the numeric get, which fails
if the name is absent or its value is not a number. -/
def HTTPHeader.getValueAsNumber (h : HTTPHeader) (name : Str) : Except ProxyException Nat :=
  if h.containsName name then
    let v := h.getValueAsString name
    if v ≠ [] ∧ v.all Char.isDigit then
      .ok (v.foldl (fun n c => 10 * n + (c.toNat - '0'.toNat)) 0)
    else .error (.badRequest name)
  else .error (.badRequest name)

/-- Embeds `HTTPPayload`: its one data member, `std::vector<char> payload`. -/
structure HTTPPayload where
  payload : Str
deriving DecidableEq

/-- Embeds `HTTPPayload::appendData`, both overloads. -/
def HTTPPayload.appendData (p : HTTPPayload) (data : Str) : HTTPPayload :=
  ⟨p.payload ++ data⟩

/-- Embeds `"\r\n"`. -/
def crlf : Str := ['\r', '\n']

/-- Embeds `HTTPPayload::isChunkedPayload`. -/
def isChunkedPayload (header : HTTPHeader) : Bool :=
  header.getValueAsString "Transfer-Encoding".toList = "chunked".toList

/-- The `while (true)` loop of `HTTPPayload::ingestChunkedPayload` with the
`appendData("\r\n")` that follows it, one unit of budget per iteration. The third component
records the value of the local `chunkSize` in each iteration. -/
def ingestChunkedLoop : Nat → HTTPPayload → IStream → List Nat → HTTPPayload × IStream × List Nat
  | 0, p, is, sizes => (p, is, sizes)
  | fuel + 1, p, is, sizes =>
    let line := getline is
    let chunkSizeStr := trim line.1
    let p1 := p.appendData (chunkSizeStr ++ crlf)
    let chunkSize := strtoul16 ("0x".toList ++ chunkSizeStr)
    let content := read line.2 ((chunkSize + 2) % 2 ^ 64)
    if chunkSize = 0 then (p1.appendData crlf, content.2, sizes ++ [chunkSize])
    else ingestChunkedLoop fuel (p1.appendData content.1) content.2 (sizes ++ [chunkSize])

/-- The run of `ingestChunkedPayload` on a stream, with the chunk sizes it parsed. Every
iteration but the last extracts at least one byte, so the budget is never used up. -/
def ingestChunkedTrace (p : HTTPPayload) (is : IStream) : HTTPPayload × IStream × List Nat :=
  ingestChunkedLoop (is.buf.length + 1) p is []

/-- Embeds `HTTPPayload::ingestChunkedPayload`: the payload and the stream afterwards. -/
def HTTPPayload.ingestChunkedPayload (p : HTTPPayload) (is : IStream) : HTTPPayload × IStream :=
  ((ingestChunkedTrace p is).1, (ingestChunkedTrace p is).2.1)

/-- The chunk sizes parsed by `ingestChunkedPayload`, in order, the final zero included. -/
def chunkSizes (p : HTTPPayload) (is : IStream) : List Nat := (ingestChunkedTrace p is).2.2

/-- Embeds `HTTPPayload::ingestCompletePayload`. -/
def HTTPPayload.ingestCompletePayload (p : HTTPPayload) (is : IStream) (contentLength : Nat) :
    HTTPPayload × IStream :=
  let content := read is contentLength
  (p.appendData content.1, content.2)

/-- Embeds `HTTPPayload::ingestPayload`. The number read from the header becomes a `size_t`. -/
def HTTPPayload.ingestPayload (p : HTTPPayload) (header : HTTPHeader) (is : IStream) :
    Except ProxyException (HTTPPayload × IStream) :=
  if isChunkedPayload header then .ok (p.ingestChunkedPayload is)
  else
    match header.getValueAsNumber "Content-Length".toList with
    | .error e => .error e
    | .ok contentLength => .ok (p.ingestCompletePayload is (contentLength % 2 ^ 64))

/-- Embeds `operator<<(ostream&, const HTTPPayload&)`: the payload bytes appended to the output. -/
def HTTPPayload.write (os : Str) (hp : HTTPPayload) : Str := os ++ hp.payload

/-! ## Chunked bodies on the wire -/

/-- One chunk as it stands on the wire: the text of its chunk-size line (without the line
end) and its data bytes. -/
structure WireChunk where
  sizeLine : Str
  data : Str
deriving DecidableEq

/-- The bytes of a chunk: chunk-size line, CRLF, data, CRLF. -/
def WireChunk.wire (c : WireChunk) : Str := c.sizeLine ++ crlf ++ c.data ++ crlf

/-- The bytes of a sequence of chunks. -/
def wireChunks : List WireChunk → Str
  | [] => []
  | c :: cs => c.wire ++ wireChunks cs

/-- A complete chunked body: the chunks, the zero-size chunk line `last`, CRLF, and the
final CRLF. -/
def chunkedBody (cs : List WireChunk) (last : Str) : Str :=
  wireChunks cs ++ (last ++ crlf ++ crlf)

/-- A chunk-size line that announces `n` bytes to `ingestChunkedPayload`: it holds no line
feed, and the number parsed from it after trimming is `n`. -/
def AnnouncesSize (line : Str) (n : Nat) : Prop :=
  '\n' ∉ line ∧ strtoul16 ("0x".toList ++ trim (line ++ ['\r'])) = n

instance (line : Str) (n : Nat) : Decidable (AnnouncesSize line n) :=
  inferInstanceAs (Decidable ('\n' ∉ line ∧ strtoul16 ("0x".toList ++ trim (line ++ ['\r'])) = n))

/-- A chunk whose chunk-size line announces the length of its data, which is not empty and
fits a `size_t` together with its CRLF. -/
def WireChunk.Framed (c : WireChunk) : Prop :=
  AnnouncesSize c.sizeLine c.data.length ∧ c.data ≠ [] ∧ c.data.length + 2 < 2 ^ 64

instance (c : WireChunk) : Decidable c.Framed :=
  inferInstanceAs
    (Decidable (AnnouncesSize c.sizeLine c.data.length ∧ c.data ≠ [] ∧ c.data.length + 2 < 2 ^ 64))

/-- Whether the first character of a string is whitespace. -/
def startsWithSpace (s : Str) : Bool :=
  match s.head? with
  | some c => isspace c
  | none => false

/-- Whether the last character of a string is whitespace. -/
def endsWithSpace (s : Str) : Bool :=
  match s.getLast? with
  | some c => isspace c
  | none => false

/-- A chunk-size line spelled without whitespace before or after it. -/
def Unpadded (line : Str) : Prop := startsWithSpace line = false ∧ endsWithSpace line = false

instance (line : Str) : Decidable (Unpadded line) :=
  inferInstanceAs (Decidable (startsWithSpace line = false ∧ endsWithSpace line = false))

/-- What `ingestChunkedPayload` stores for a chunk: the trimmed chunk-size line, CRLF, the
data and the two bytes after it. -/
def WireChunk.stored (c : WireChunk) : Str := trim (c.sizeLine ++ ['\r']) ++ crlf ++ c.data ++ crlf

/-- What `ingestChunkedPayload` stores for a sequence of chunks. -/
def storedChunks : List WireChunk → Str
  | [] => []
  | c :: cs => c.stored ++ storedChunks cs

/-- The bytes extracted between two states of a stream. -/
def consumed (before after : IStream) : Str :=
  before.buf.take (before.buf.length - after.buf.length)

/-- Canonical chunk-size line of a length: its hexadecimal digits, lower case, no leading
zero. -/
def hex (n : Nat) : Str := Nat.toDigits 16 n

/-- The chunk that carries the data `d` under its canonical chunk-size line. -/
def canonicalChunk (d : Str) : WireChunk := ⟨hex d.length, d⟩

/-- Canonical chunked encoding of a list of chunks: `hex(|c|) CRLF c CRLF` for each, then
`0 CRLF CRLF`. -/
def canonicalEncoding (chunks : List Str) : Str :=
  chunkedBody (chunks.map canonicalChunk) ['0']

/-- A header collection that marks the message as chunked. -/
def chunkedHeader : HTTPHeader := ⟨[("Transfer-Encoding".toList, "chunked".toList)]⟩

/-- A header collection that declares a content length. -/
def lengthHeader (n : Str) : HTTPHeader := ⟨[("Content-Length".toList, n)]⟩

/-- A complete chunked body whose first chunk-size line carries a trailing blank:
`"4 \r\nWiki\r\n0\r\n\r\n"`. -/
def paddedBody : Str := chunkedBody [⟨"4 ".toList, "Wiki".toList⟩] "0".toList

/-- A complete chunked body with chunk-size lines in several spellings: leading zeros,
an upper-case digit, a chunk extension. -/
def spelledChunks : List WireChunk :=
  [⟨"004".toList, "Wiki".toList⟩, ⟨"A".toList, "0123456789".toList⟩,
   ⟨"5;name=value".toList, "pedia".toList⟩]

/-! ## Responses (`response.h`, `response.cc`) -/

/-- Embeds `enum class HTTPStatus`: a status is its integer value. -/
abbrev HTTPStatus := Int

/-- Embeds `HTTPStatus::UnknownStatus`, the enumerator that follows `GeneralProxyFailure = 510`. -/
def HTTPStatus.UnknownStatus : HTTPStatus := 511

/-- Embeds `HTTPResponse::kStatusMessages`. -/
def kStatusMessages : List (HTTPStatus × Str) :=
  [ (100, "Continue".toList),
    (101, "Switching Protocols".toList),
    (200, "OK".toList),
    (201, "Created".toList),
    (202, "Accepted".toList),
    (203, "Non-Authoritative Information".toList),
    (204, "No Content".toList),
    (205, "Reset Content".toList),
    (206, "Partial Content".toList),
    (300, "Multiple Choices".toList),
    (301, "Permanently Moved".toList),
    (302, "Found".toList),
    (303, "See Other".toList),
    (304, "Not Modified".toList),
    (305, "Use Proxy".toList),
    (307, "Temporary Redirect".toList),
    (400, "Bad Request".toList),
    (401, "Unauthorized".toList),
    (402, "Payment Required".toList),
    (403, "Forbidden".toList),
    (404, "Not Found".toList),
    (405, "Method Not Allowed".toList),
    (406, "Not Acceptable".toList),
    (407, "Proxy Authentication Required".toList),
    (408, "Request Timeout".toList),
    (409, "Conflict".toList),
    (410, "Gone".toList),
    (500, "Internal Server Error".toList),
    (501, "Not Implemented".toList),
    (502, "Bad Gateway".toList),
    (504, "Gateway Timeout".toList),
    (505, "HTTP Version Not Supported".toList),
    (510, "General Proxy Failure".toList) ]

/-- Embeds `std::map::contains`. -/
def mapContains (m : List (HTTPStatus × Str)) (key : HTTPStatus) : Bool :=
  m.any (fun e => e.1 = key)

/-- The failure of `std::map::at` on a key that is absent. -/
inductive StdException where
  | outOfRange
deriving DecidableEq

/-- Embeds `std::map::at`: the mapped value, `std::out_of_range` thrown for an absent key. -/
def mapAt (m : List (HTTPStatus × Str)) (key : HTTPStatus) : Except StdException Str :=
  match m.find? (fun e => e.1 = key) with
  | some e => .ok e.2
  | none => .error .outOfRange

/-- Embeds `HTTPResponse`: its four data members. -/
structure HTTPResponse where
  code : Int
  protocol : Str
  responseHeader : HTTPHeader
  payload : HTTPPayload
deriving DecidableEq

/-- Embeds `HTTPResponse::getResponseCode`. -/
def HTTPResponse.getResponseCode (hr : HTTPResponse) : HTTPStatus :=
  if mapContains kStatusMessages hr.code then hr.code
  else HTTPStatus.UnknownStatus

/-- Embeds `HTTPResponse::getStatusMessage`. -/
def HTTPResponse.getStatusMessage (hr : HTTPResponse) : Except StdException Str :=
  if hr.getResponseCode = HTTPStatus.UnknownStatus then .ok "Unknown Code".toList
  else mapAt kStatusMessages hr.getResponseCode

/-- The reason phrase of a status code: the phrase `kStatusMessages` gives it, and
`Unknown Code` when the code is not a key of the table. -/
def reasonPhrase (code : Int) : Str :=
  match kStatusMessages.lookup code with
  | some phrase => phrase
  | none => "Unknown Code".toList

/-- Embeds `os << n` for an `int`: the decimal digits, a minus sign before a negative number. -/
def decimal : Int → Str
  | .ofNat n => Nat.toDigits 10 n
  | .negSucc n => '-' :: Nat.toDigits 10 (n + 1)

/-- Modelled from the spec: `operator<<(ostream&, const HTTPHeader&)`, which is not under
`src/`. Each header is written as `<name>: <value>\r\n`, in insertion order. -/
def HTTPHeader.write (os : Str) (h : HTTPHeader) : Str :=
  h.headers.foldl (fun out e => out ++ e.1 ++ ": ".toList ++ e.2 ++ crlf) os

/-- Embeds `operator<<(ostream&, const HTTPResponse&)`: the output after the response is written
to an output holding `os`, one step per `<<`. -/
def HTTPResponse.write (os : Str) (hr : HTTPResponse) : Except StdException Str :=
  let os1 := os ++ hr.protocol
  let os2 := os1 ++ " ".toList
  let os3 := os2 ++ decimal hr.code
  let os4 := os3 ++ " ".toList
  match hr.getStatusMessage with
  | .error e => .error e
  | .ok statusMessage =>
    let os5 := os4 ++ statusMessage
    let os6 := os5 ++ "\r\n".toList
    let os7 := hr.responseHeader.write os6
    let os8 := os7 ++ "\r\n".toList
    .ok (hr.payload.write os8)

/-- Embeds `HTTPResponse::setProtocol`. -/
def HTTPResponse.setProtocol (hr : HTTPResponse) (protocol : Str) : HTTPResponse :=
  { hr with protocol := protocol }

/-- Embeds `HTTPResponse::setResponseCode`, both overloads. -/
def HTTPResponse.setResponseCode (hr : HTTPResponse) (code : Int) : HTTPResponse :=
  { hr with code := code }

/-- Embeds `INT_MAX`. -/
def kIntMax : Int := 2 ^ 31 - 1

/-- Embeds `INT_MIN`. -/
def kIntMin : Int := -(2 ^ 31)

/-- Value of a run of decimal digits. -/
def decimalValue (ds : Str) : Nat :=
  ds.foldl (fun v c => 10 * v + (c.toNat - '0'.toNat)) 0

/-- The two statements `istringstream iss(s); iss >> v;` for an `int v` that holds `v0`
before: leading whitespace is skipped; when the text ends there, the extraction does not
start and `v` keeps `v0`; otherwise an optional sign and the longest run of decimal digits
are converted, no digit giving 0 and a value outside `int` the nearest of `INT_MIN` and
`INT_MAX`. -/
def istreamReadInt (s : Str) (v0 : Int) : Int :=
  let s1 := s.dropWhile isspace
  if s1 = [] then v0
  else
    let signed : Bool × Str :=
      if s1.head? = some '-' then (true, s1.tail)
      else if s1.head? = some '+' then (false, s1.tail)
      else (false, s1)
    let ds := signed.2.takeWhile Char.isDigit
    if ds = [] then 0
    else
      let v : Int := if signed.1 then -(decimalValue ds : Int) else (decimalValue ds : Int)
      if v < kIntMin then kIntMin else if kIntMax < v then kIntMax else v

/-- Embeds `"Cache-Control"`. -/
def kCacheControl : Str := "Cache-Control".toList

/-- Embeds `"max-age="`. -/
def kMaxAge : Str := "max-age=".toList

/-- Embeds `HTTPResponse::getTTL`. The local `int maxAge` is declared without an initial value;
`uninit` is the value it holds before `iss >> maxAge`. -/
def HTTPResponse.getTTL (uninit : Int) (hr : HTTPResponse) : Int :=
  if !hr.responseHeader.containsName kCacheControl then 0
  else
    let cacheControlValue := hr.responseHeader.getValueAsString kCacheControl
    match find kMaxAge cacheControlValue with
    | none => 0
    | some pos =>
      let maxAgeValue := substrFrom cacheControlValue (pos + kMaxAge.length)
      istreamReadInt maxAgeValue uninit

/-- Embeds `HTTPResponse::permitsCaching`. -/
def HTTPResponse.permitsCaching (uninit : Int) (hr : HTTPResponse) : Bool :=
  if !hr.responseHeader.containsName kCacheControl then false
  else
    let cacheControlValue := hr.responseHeader.getValueAsString kCacheControl
    if (find "private".toList cacheControlValue).isSome then false
    else if (find "no-cache".toList cacheControlValue).isSome then false
    else if (find "no-store".toList cacheControlValue).isSome then false
    else decide (hr.getTTL uninit > 0)

/-- A response whose only header is `Cache-Control` with the given value. -/
def cacheControlResponse (value : Str) : HTTPResponse :=
  { code := 200, protocol := "HTTP/1.1".toList,
    responseHeader := ⟨[(kCacheControl, value)]⟩, payload := ⟨[]⟩ }

/-! ## Blocklist (`strike-set.h`, `strike-set.cc`) -/

/-- A compiled `std::regex`: the regular constructs of the ECMAScript grammar. A capture
group `( )` is the expression inside it. -/
inductive Regex where
  | nothing
  | epsilon
  | char (c : Char)
  | any
  | seq (r s : Regex)
  | alt (r s : Regex)
  | star (r : Regex)
deriving DecidableEq

/-- The characters `.` stands for: all but the line terminators. -/
def isDotChar (c : Char) : Bool := !(c = '\n' || c = '\r')

/-- The strings a pattern denotes. -/
inductive Regex.Matches : Regex → Str → Prop where
  | epsilon : Regex.Matches .epsilon []
  | char (c : Char) : Regex.Matches (.char c) [c]
  | any (c : Char) : isDotChar c = true → Regex.Matches .any [c]
  | seq {r s : Regex} {u v : Str} :
      Regex.Matches r u → Regex.Matches s v → Regex.Matches (.seq r s) (u ++ v)
  | altLeft {r s : Regex} {u : Str} : Regex.Matches r u → Regex.Matches (.alt r s) u
  | altRight {r s : Regex} {u : Str} : Regex.Matches s u → Regex.Matches (.alt r s) u
  | starNil {r : Regex} : Regex.Matches (.star r) []
  | starCons {r : Regex} {u v : Str} :
      Regex.Matches r u → Regex.Matches (.star r) v → Regex.Matches (.star r) (u ++ v)

/-- Whether a pattern denotes the empty string. -/
def Regex.nullable : Regex → Bool
  | .nothing => false
  | .epsilon => true
  | .char _ => false
  | .any => false
  | .seq r s => r.nullable && s.nullable
  | .alt r s => r.nullable || s.nullable
  | .star _ => true

/-- The pattern for what may follow a first character `c`. -/
def Regex.deriv : Regex → Char → Regex
  | .nothing, _ => .nothing
  | .epsilon, _ => .nothing
  | .char d, c => if d = c then .epsilon else .nothing
  | .any, c => if isDotChar c then .epsilon else .nothing
  | .seq r s, c =>
    if r.nullable then .alt (.seq (r.deriv c) s) (s.deriv c) else .seq (r.deriv c) s
  | .alt r s, c => .alt (r.deriv c) (s.deriv c)
  | .star r, c => .seq (r.deriv c) (.star r)

/-- Embeds `std::regex_match(server, re)`: whether the pattern matches the whole string. -/
def regex_match (server : Str) (re : Regex) : Bool :=
  (server.foldl Regex.deriv re).nullable

/-- The pattern that matches exactly the string `s`. -/
def Regex.literal : Str → Regex
  | [] => .epsilon
  | c :: cs => .seq (.char c) (Regex.literal cs)

/-- Embeds `StrikeSet`: its one data member, `std::vector<std::regex> blocked`. -/
structure StrikeSet where
  blocked : List Regex

/-- The `for (const regex& re: blocked)` loop of `StrikeSet::contains`. -/
def containsFrom (server : Str) : List Regex → Bool
  | [] => false
  | re :: rest => if regex_match server re then true else containsFrom server rest

/-- Embeds `StrikeSet::contains`. -/
def StrikeSet.contains (s : StrikeSet) (server : Str) : Bool :=
  containsFrom server s.blocked

/-- The compiled pattern `(.*)\.evil\.example`. -/
def evilPattern : Regex := .seq (.star .any) (Regex.literal ".evil.example".toList)

/-! ## Forwarding headers (`request-handler.cc`) -/

/-- Embeds `HTTPRequest::addHeader`: the upsert on the header collection of the request. -/
def HTTPRequest.addHeader (r : HTTPRequest) (name value : Str) : HTTPRequest :=
  { r with requestHeader := r.requestHeader.addHeader name value }

/-- Embeds `HTTPRequestHandler::addHeaders`. -/
def addHeaders (request : HTTPRequest) : HTTPRequest :=
  let request1 := request.addHeader "x-forwarded-proto".toList "http".toList
  if request1.containsName ff then
    let oldips := request1.getHeader.getValueAsString ff
    let clientip := request1.getip
    let newips := oldips ++ comma ++ clientip
    request1.addHeader ff newips
  else request1.addHeader ff request1.getip

/-! ## Synthesized responses (`payload.cc`, `response.cc`, `request-handler.cc`) -/

/-- The conversion `int(n)` of a `size_t`: the value modulo `2 ^ 32`, read as a signed
32-bit number. -/
def toInt32 (n : Nat) : Int :=
  if n % 2 ^ 32 < 2 ^ 31 then (n % 2 ^ 32 : Nat) else (n % 2 ^ 32 : Nat) - 2 ^ 32

/-- Modelled from the spec: the overload `HTTPHeader::addHeader(name, int)`, which is not
under `src/`: the upsert of the decimal digits of the number. -/
def HTTPHeader.addHeaderInt (h : HTTPHeader) (name : Str) (value : Int) : HTTPHeader :=
  h.addHeader name (decimal value)

/-- Embeds `HTTPPayload::setPayload`: the payload and the header collection afterwards. -/
def HTTPPayload.setPayload (p : HTTPPayload) (header : HTTPHeader) (payload : Str) :
    HTTPPayload × HTTPHeader :=
  let cleared : HTTPPayload := { p with payload := [] }
  let filled := cleared.appendData payload
  (filled, header.addHeaderInt "Content-Length".toList (toInt32 payload.length))

/-- Embeds `HTTPResponse::setPayload`. -/
def HTTPResponse.setPayload (hr : HTTPResponse) (payload : Str) : HTTPResponse :=
  { hr with
    payload := (hr.payload.setPayload hr.responseHeader payload).1,
    responseHeader := (hr.payload.setPayload hr.responseHeader payload).2 }

/-- A default-constructed `HTTPResponse`: no protocol, no header, no payload, and a status
code that holds whatever value `code0` the memory held. -/
def HTTPResponse.fresh (code0 : Int) : HTTPResponse :=
  { code := code0, protocol := [], responseHeader := ⟨[]⟩, payload := ⟨[]⟩ }

/-- Embeds `static const string kDefaultProtocol = "HTTP/1.0"`. -/
def kDefaultProtocol : Str := "HTTP/1.0".toList

/-- Embeds `HTTPStatus::OK`. -/
def HTTPStatus.OK : HTTPStatus := 200

/-- Embeds `HTTPStatus::BadRequest`. -/
def HTTPStatus.BadRequest : HTTPStatus := 400

/-- Embeds `HTTPStatus::Forbidden`. -/
def HTTPStatus.Forbidden : HTTPStatus := 403

/-- Embeds `HTTPStatus::MethodNotAllowed`. -/
def HTTPStatus.MethodNotAllowed : HTTPStatus := 405

/-- Embeds `HTTPStatus::GeneralProxyFailure`. -/
def HTTPStatus.GeneralProxyFailure : HTTPStatus := 510

/-- The response object that `HTTPRequestHandler::handleError` builds before writing it. -/
def errorResponse (code0 : Int) (protocol : Str) (responseCode : HTTPStatus) (message : Str) :
    HTTPResponse :=
  (((HTTPResponse.fresh code0).setProtocol protocol).setResponseCode responseCode).setPayload
    message

/-- The bytes of a response on the wire: status line, rendered headers, blank line,
payload. -/
def HTTPResponse.bytes (hr : HTTPResponse) : Str :=
  hr.protocol ++ " ".toList ++ decimal hr.code ++ " ".toList ++ reasonPhrase hr.code
    ++ "\r\n".toList ++ hr.responseHeader.write [] ++ "\r\n".toList ++ hr.payload.payload

/-! ## Cache -/

/-- Modelled from the spec: the fingerprint of a request (`cache.h`, `cache.cc` are not
under `src/`), a function of method, target host, port and path, not of headers or body. -/
structure Fingerprint where
  method : Str
  server : Str
  port : Nat
  path : Str
deriving DecidableEq

/-- Modelled from the spec: the fingerprint of a request. -/
def HTTPRequest.fingerprint (r : HTTPRequest) : Fingerprint :=
  { method := r.method, server := r.server, port := r.port, path := r.path }

/-- Modelled from the spec: a cache entry: fingerprint, snapshot copy of the response,
insertion timestamp and time-to-live, both in seconds. -/
structure CacheEntry where
  fingerprint : Fingerprint
  response : HTTPResponse
  inserted : Nat
  ttl : Int
deriving DecidableEq

/-- Modelled from the spec: `HTTPCache`, the entries it owns and the ceiling installed by
`setMaxAge`, if any. -/
structure HTTPCache where
  entries : List CacheEntry
  maxAge : Option Int
deriving DecidableEq

/-- Modelled from the spec: `HTTPCache::setMaxAge`, which installs the administrator
ceiling. -/
def HTTPCache.setMaxAge (c : HTTPCache) (seconds : Int) : HTTPCache :=
  { c with maxAge := some seconds }

/-- Modelled from the spec: `HTTPCache::clear`, which evicts everything. -/
def HTTPCache.clear (c : HTTPCache) : HTTPCache := { c with entries := [] }

/-- Modelled from the spec: the effective time-to-live of a response, the minimum of its
own max-age and the ceiling. -/
def HTTPCache.effectiveTTL (c : HTTPCache) (uninit : Int) (response : HTTPResponse) : Int :=
  match c.maxAge with
  | none => response.getTTL uninit
  | some ceiling => min (response.getTTL uninit) ceiling

/-- Modelled from the spec: `HTTPCache::shouldCache`: the response carries cache-control
metadata, does not mark itself private, no-cache or no-store, and has a positive effective
time-to-live. -/
def HTTPCache.shouldCache (c : HTTPCache) (uninit : Int) (_request : HTTPRequest)
    (response : HTTPResponse) : Bool :=
  response.permitsCaching uninit && decide (0 < c.effectiveTTL uninit response)

/-- Modelled from the spec: `HTTPCache::cacheEntry`, the insert: a snapshot of the response
stored under the fingerprint of the request at time `now`, in place of any earlier entry of
that fingerprint. -/
def HTTPCache.cacheEntry (c : HTTPCache) (uninit : Int) (now : Nat) (request : HTTPRequest)
    (response : HTTPResponse) : HTTPCache :=
  { c with entries :=
      { fingerprint := request.fingerprint, response := response, inserted := now,
        ttl := c.effectiveTTL uninit response }
        :: c.entries.filter (fun e => e.fingerprint ≠ request.fingerprint) }

/-- Modelled from the spec: `HTTPCache::containsCacheEntry`, the lookup at time `now`: a
copy of the stored response when the fingerprint has an entry whose time-to-live has not
elapsed since its insertion, a miss otherwise. -/
def HTTPCache.containsCacheEntry (c : HTTPCache) (now : Nat) (request : HTTPRequest) :
    Option HTTPResponse :=
  match c.entries.find? (fun e => e.fingerprint = request.fingerprint) with
  | some e => if (now : Int) - (e.inserted : Int) < e.ttl then some e.response else none
  | none => none

/-- Modelled from the spec: `HTTPCache::hashRequest`, a hash of the fingerprint. -/
def HTTPCache.hashRequest (_c : HTTPCache) (request : HTTPRequest) : Nat :=
  ((request.method ++ request.server ++ request.path).foldl
    (fun hash ch => (31 * hash + ch.toNat) % 2 ^ 64) request.port) % 2 ^ 64

/-! ## The request handler (`request-handler.h`, `request-handler.cc`) -/

/-- Modelled from the spec: what a `catch` clause can meet (`proxy-exception.h` is not
under `src/`): an exception of the proxy, all of whose classes derive from
`HTTPProxyException`, or any other exception. -/
inductive Exn where
  | proxy (e : ProxyException)
  | other (what : Str)
deriving DecidableEq

/-- Modelled from the spec: `what()` of an exception of the proxy, the message it was
built with. -/
def ProxyException.what : ProxyException → Str
  | .badRequest what => what
  | .unsupportedMethod what => what
  | .requestFailure what => what
  | .responseFailure what => what
  | .proxyFailure what => what

/-- What one call of `serviceRequest` does that can be seen from outside: operations on the
stripe mutex, on the cache, on the connection to the origin, and bytes written to the
client. -/
inductive Event where
  | lock (index : Nat)
  | unlock (index : Nat)
  | containsCacheEntry
  | shouldCache
  | cacheEntry
  | createClientSocket (server : Str) (port : Nat)
  | sendRequest (request : HTTPRequest)
  | ingestResponseHeader
  | ingestPayload
  | write (bytes : Str)
  | bridge (serverfd : Int)
deriving DecidableEq

/-- Modelled from the spec: the failure value of the origin connector
(`client-socket.h` is not under `src/`), which returns a live connection or a failure. -/
def kClientSocketError : Int := -1

/-- What one call of `serviceRequest` meets outside the code under `src/`: the outcome of
ingesting the request from the client (`request.cc`), of `createClientSocket`, of writing
the request to the origin, of `HTTPHeader::ingestHeader` inside `ingestResponseHeader` (the
response afterwards and the exception raised, if any), the bytes of the origin that follow
the response header, the clock at the cache lookup and at the insert, and the values held
by an `int` that is read before it was assigned. -/
structure World where
  ingest : Except Exn HTTPRequest
  createClientSocket : Except Exn Int
  send : Option Exn
  replyHeader : HTTPResponse → HTTPResponse × Option Exn
  replyBody : IStream
  lookupClock : Nat
  insertClock : Nat
  code0 : Int
  maxAge0 : Int

/-- Embeds `HTTPRequestHandler`: its cache and its blocklist. -/
structure HTTPRequestHandler where
  cache : HTTPCache
  strikeSet : StrikeSet

/-- Embeds `static const int mnum = 997`, the number of stripe mutexes. -/
def mnum : Nat := 997

/-- Embeds `HTTPRequestHandler::clearCache`. -/
def HTTPRequestHandler.clearCache (h : HTTPRequestHandler) : HTTPRequestHandler :=
  { h with cache := h.cache.clear }

/-- Embeds `HTTPRequestHandler::setCacheMaxAge`. -/
def HTTPRequestHandler.setCacheMaxAge (h : HTTPRequestHandler) (maxAge : Int) :
    HTTPRequestHandler :=
  { h with cache := h.cache.setMaxAge maxAge }

/-- The two member functions a method name can be bound to. -/
inductive handlerMethod where
  | handleRequest
  | handleConnectRequest
deriving DecidableEq

/-- Embeds `HTTPRequestHandler::handlers` as the constructor fills it. -/
def handlers : List (Str × handlerMethod) :=
  [ ("GET".toList, .handleRequest),
    ("POST".toList, .handleRequest),
    ("HEAD".toList, .handleRequest),
    ("CONNECT".toList, .handleConnectRequest) ]

/-- The run of a member function: what it did, the cache afterwards, and the exception that
leaves it, if any. -/
structure Run where
  trace : List Event
  cache : HTTPCache
  raised : Option Exn

/-- Embeds `ss << response << flush` on the stream to the client. -/
def sendResponse (response : HTTPResponse) : List Event × Option Exn :=
  match response.write [] with
  | .ok bytes => ([.write bytes], none)
  | .error _ => ([], some (.other "out_of_range".toList))

/-- Embeds `HTTPRequestHandler::handleError`. -/
def handleError (code0 : Int) (protocol : Str) (responseCode : HTTPStatus) (message : Str) :
    List Event × Option Exn :=
  sendResponse (errorResponse code0 protocol responseCode message)

/-- Embeds `HTTPRequestHandler::handleBadRequestError`. -/
def handleBadRequestError (code0 : Int) (message : Str) : List Event × Option Exn :=
  handleError code0 kDefaultProtocol HTTPStatus.BadRequest message

/-- Embeds `HTTPRequestHandler::handleUnsupportedMethodError`. -/
def handleUnsupportedMethodError (code0 : Int) (message : Str) : List Event × Option Exn :=
  handleError code0 kDefaultProtocol HTTPStatus.MethodNotAllowed message

/-- The outcome of `forwardRequest`: what it did, the request and the response as it leaves
them (both are passed by reference), and the exception that leaves it, if any. -/
structure Forwarded where
  trace : List Event
  request : HTTPRequest
  response : HTTPResponse
  raised : Option Exn

/-- Embeds `HTTPRequestHandler::forwardRequest`, with `configClientSocket` inlined. -/
def forwardRequest (w : World) (request : HTTPRequest) (response : HTTPResponse) : Forwarded :=
  let connect : List Event := [.createClientSocket request.server request.port]
  match w.createClientSocket with
  | .error e => ⟨connect, request, response, some e⟩
  | .ok _ =>
    let request1 := addHeaders request
    let sent : List Event := connect ++ [.sendRequest request1]
    match w.send with
    | some e => ⟨sent, request1, response, some e⟩
    | none =>
      let header := w.replyHeader response
      let headed : List Event := sent ++ [.ingestResponseHeader]
      match header.2 with
      | some e => ⟨headed, request1, header.1, some e⟩
      | none =>
        if request1.method ≠ "HEAD".toList then
          match header.1.payload.ingestPayload header.1.responseHeader w.replyBody with
          | .error e => ⟨headed ++ [.ingestPayload], request1, header.1, some (.proxy e)⟩
          | .ok ingested =>
            ⟨headed ++ [.ingestPayload], request1, { header.1 with payload := ingested.1 }, none⟩
        else ⟨headed, request1, header.1, none⟩

/-- The part of `HTTPRequestHandler::handleRequest` from the first `ul.unlock()` on: the
origin fetch, the insert under the stripe mutex, and the final write to the client. -/
def handleRequestAfterLookup (h : HTTPRequestHandler) (w : World) (request : HTTPRequest)
    (response : HTTPResponse) (index : Nat) : Run :=
  let f := forwardRequest w request response
  let fetched : List Event := [.unlock index] ++ f.trace
  let caught : List Event × Option Exn :=
    match f.raised with
    | none => ([], none)
    | some (.proxy (.requestFailure what)) =>
      handleError w.code0 kDefaultProtocol HTTPStatus.GeneralProxyFailure what
    | some e => ([], some e)
  match caught.2 with
  | some e => ⟨fetched ++ caught.1, h.cache, some e⟩
  | none =>
    let should := h.cache.shouldCache w.maxAge0 f.request f.response
    let cache1 :=
      if should then h.cache.cacheEntry w.maxAge0 w.insertClock f.request f.response
      else h.cache
    let inserted : List Event :=
      [.lock index, .shouldCache] ++ (if should then [.cacheEntry] else []) ++ [.unlock index]
    let sent := sendResponse f.response
    let final : List Event × Option Exn :=
      match sent.2 with
      | some (.proxy (.responseFailure what)) =>
        let handled := handleError w.code0 kDefaultProtocol HTTPStatus.GeneralProxyFailure what
        (sent.1 ++ handled.1, handled.2)
      | _ => sent
    ⟨fetched ++ caught.1 ++ inserted ++ final.1, cache1, final.2⟩

/-- Embeds `HTTPRequestHandler::handleRequest`. The `unique_lock` releases the mutex when
the function is left while it owns it. -/
def handleRequest (h : HTTPRequestHandler) (w : World) (request : HTTPRequest) : Run :=
  let index := h.cache.hashRequest request % mnum
  let start : List Event := [.lock index, .containsCacheEntry]
  match h.cache.containsCacheEntry w.lookupClock request with
  | some cached =>
    let sent := sendResponse cached
    match sent.2 with
    | none => ⟨start ++ sent.1 ++ [.unlock index], h.cache, none⟩
    | some (.proxy (.responseFailure what)) =>
      let handled := handleError w.code0 kDefaultProtocol HTTPStatus.GeneralProxyFailure what
      match handled.2 with
      | some e => ⟨start ++ sent.1 ++ handled.1 ++ [.unlock index], h.cache, some e⟩
      | none =>
        let rest := handleRequestAfterLookup h w request cached index
        ⟨start ++ sent.1 ++ handled.1 ++ rest.trace, rest.cache, rest.raised⟩
    | some e => ⟨start ++ sent.1 ++ [.unlock index], h.cache, some e⟩
  | none =>
    let rest := handleRequestAfterLookup h w request (HTTPResponse.fresh w.code0) index
    ⟨start ++ rest.trace, rest.cache, rest.raised⟩

/-- Embeds `HTTPRequestHandler::handleConnectRequest`, with `configClientSocket` inlined.
The bridge runs on whatever descriptor `createClientSocket` returned. -/
def handleConnectRequest (h : HTTPRequestHandler) (w : World) (request : HTTPRequest) : Run :=
  let connect : List Event := [.createClientSocket request.server request.port]
  let tried : List Event × Option Exn :=
    match w.createClientSocket with
    | .error e => (connect, some e)
    | .ok serverfd =>
      let established := handleError w.code0 kDefaultProtocol HTTPStatus.OK "OK".toList
      match established.2 with
      | some e => (connect ++ established.1, some e)
      | none => (connect ++ established.1 ++ [.bridge serverfd], none)
  match tried.2 with
  | some (.proxy pe) =>
    let handled := handleError w.code0 kDefaultProtocol HTTPStatus.GeneralProxyFailure pe.what
    ⟨tried.1 ++ handled.1, h.cache, handled.2⟩
  | other => ⟨tried.1, h.cache, other⟩

/-- The `try` block of `HTTPRequestHandler::serviceRequest`. -/
def serviceBody (h : HTTPRequestHandler) (w : World) : Run :=
  match w.ingest with
  | .error e => ⟨[], h.cache, some e⟩
  | .ok request =>
    if h.strikeSet.contains request.server then
      let handled :=
        handleError w.code0 kDefaultProtocol HTTPStatus.Forbidden "Forbidden Content".toList
      ⟨handled.1, h.cache, handled.2⟩
    else if containsLoop request then
      let handled :=
        handleError w.code0 kDefaultProtocol HTTPStatus.BadRequest "Loop Detected".toList
      ⟨handled.1, h.cache, handled.2⟩
    else
      match handlers.lookup request.method with
      | none => ⟨[], h.cache, some (.proxy (.unsupportedMethod request.method))⟩
      | some .handleRequest => handleRequest h w request
      | some .handleConnectRequest => handleConnectRequest h w request

/-- Embeds `HTTPRequestHandler::serviceRequest`: the `try` block and its three `catch`
clauses. -/
def serviceRequest (h : HTTPRequestHandler) (w : World) : Run :=
  let body := serviceBody h w
  match body.raised with
  | some (.proxy (.badRequest what)) =>
    let handled := handleBadRequestError w.code0 what
    ⟨body.trace ++ handled.1, body.cache, handled.2⟩
  | some (.proxy (.unsupportedMethod what)) =>
    let handled := handleUnsupportedMethodError w.code0 what
    ⟨body.trace ++ handled.1, body.cache, handled.2⟩
  | _ => ⟨body.trace, body.cache, none⟩

/-- The bytes written to the client in a run, in order. -/
def clientBytes : List Event → Str
  | [] => []
  | .write bytes :: rest => bytes ++ clientBytes rest
  | _ :: rest => clientBytes rest

/-- Whether an event is an operation on the connection to the origin. -/
def Event.isOrigin : Event → Bool
  | .createClientSocket _ _ => true
  | .sendRequest _ => true
  | .ingestResponseHeader => true
  | .ingestPayload => true
  | _ => false

/-- Whether an event is an operation on the cache. -/
def Event.isCache : Event → Bool
  | .containsCacheEntry => true
  | .shouldCache => true
  | .cacheEntry => true
  | _ => false

/-- Whether a run keeps the lock discipline, given whether the stripe mutex is held at its
start: the mutex is locked only while free and unlocked only while held, no operation on the
origin happens while it is held, and every operation on the cache happens while it is
held. -/
def lockDiscipline : Bool → List Event → Bool
  | _, [] => true
  | held, .lock _ :: rest => !held && lockDiscipline true rest
  | held, .unlock _ :: rest => held && lockDiscipline false rest
  | held, e :: rest =>
    !(held && e.isOrigin) && (held || !e.isCache) && lockDiscipline held rest

/-- A handler with an empty cache, no ceiling, and the blocklist `(.*)\.evil\.example`. -/
def freshHandler : HTTPRequestHandler := ⟨⟨[], none⟩, ⟨[evilPattern]⟩⟩

/-- A world in which the client sends `request`, `createClientSocket` has the outcome
`socket`, and the origin answers `HTTP/1.1 200` with the header `Content-Length: 2` and the
body `hi`. -/
def worldOf (request : HTTPRequest) (socket : Except Exn Int) : World :=
  { ingest := .ok request,
    createClientSocket := socket,
    send := none,
    replyHeader := fun r =>
      ({ r with code := 200, protocol := "HTTP/1.1".toList,
                responseHeader := ⟨[("Content-Length".toList, "2".toList)]⟩ }, none),
    replyBody := ⟨"hi".toList, true⟩,
    lookupClock := 100,
    insertClock := 101,
    code0 := 0,
    maxAge0 := 0 }

/-- A world in which ingesting the request from the client raises `e`. -/
def brokenClient (e : Exn) : World :=
  { worldOf (plainRequest []) (.ok 7) with ingest := .error e }

/-- A request with the given method for the host `origin.example`. -/
def methodRequest (method : Str) : HTTPRequest :=
  { plainRequest "10.0.0.5".toList with method := method }

/-- A request with the given method for the blocked host `www.evil.example`, arriving with
a forwarding chain that names its own client. -/
def blockedRequest (method : Str) : HTTPRequest :=
  { chainRequest "10.0.0.5, 203.0.113.9".toList "10.0.0.5".toList with
    method := method, server := "www.evil.example".toList }

/-- A `GET` request for `origin.example` from the client `10.0.0.5`. -/
def getRequest : HTTPRequest := methodRequest "GET".toList

/-- A world in which the client sends `getRequest` and the origin answers on descriptor 7. -/
def getWorld : World := worldOf getRequest (.ok 7)

/-- A world in which the client sends `getRequest` and the attempt to reach the origin
raises an `HTTPRequestException` with the message `unreachable`. -/
def unreachableWorld : World :=
  worldOf getRequest (.error (.proxy (.requestFailure "unreachable".toList)))

/-- A `CONNECT` request for `origin.example` from the client `10.0.0.5`. -/
def connectRequest : HTTPRequest := methodRequest "CONNECT".toList

/-- A world in which the client sends `connectRequest` and the origin connector returns its
failure value. -/
def refusedWorld : World := worldOf connectRequest (.ok kClientSocketError)

/-- The number of calls of the origin connector in a run. -/
def connectCount : List Event → Nat
  | [] => 0
  | .createClientSocket _ _ :: rest => connectCount rest + 1
  | _ :: rest => connectCount rest

/-- The status line of the responses that `handleError` writes under `kDefaultProtocol`. -/
def statusLine (responseCode : HTTPStatus) : Str :=
  kDefaultProtocol ++ " ".toList ++ decimal responseCode ++ " ".toList
    ++ reasonPhrase responseCode ++ "\r\n".toList

/-- A world in which the client sends `getRequest` and the origin answers `HTTP/1.1 200`
with the headers `Cache-Control: max-age=60` and `Content-Length: 2` and the body `hi`; the
cache is looked up at second 100 and the insert happens at second 101. -/
def cacheableWorld : World :=
  { getWorld with
    replyHeader := fun r =>
      ({ r with code := 200, protocol := "HTTP/1.1".toList,
                responseHeader := ⟨[(kCacheControl, "max-age=60".toList),
                                    ("Content-Length".toList, "2".toList)]⟩ }, none) }

/-- The world of a later call for `getRequest`, with the cache looked up at the given
second. -/
def laterWorld (second : Nat) : World := { cacheableWorld with lookupClock := second }

/-- An empty cache without a ceiling. -/
def emptyCache : HTTPCache := ⟨[], none⟩

/-! ## The tunnel bridge (`request-handler.cc`) -/

/-- The two streams of a tunnel. -/
inductive Side where
  | client
  | server
deriving DecidableEq

/-- Modelled from the spec: `ProxyWatchset` (`watchset.h` is not under `src/`), the set of
descriptors registered with the readiness multiplexer. -/
structure ProxyWatchset where
  fds : List Int
deriving DecidableEq

/-- Modelled from the spec: `ProxyWatchset::add`, which registers a descriptor. -/
def ProxyWatchset.add (watchset : ProxyWatchset) (fd : Int) : ProxyWatchset :=
  if fd ∈ watchset.fds then watchset else ⟨watchset.fds ++ [fd]⟩

/-- Modelled from the spec: `ProxyWatchset::remove`, which deregisters a descriptor. -/
def ProxyWatchset.remove (watchset : ProxyWatchset) (fd : Int) : ProxyWatchset :=
  ⟨watchset.fds.filter (fun watched => watched ≠ fd)⟩

/-- What the code sees of the stream it reads once its descriptor was reported ready: the
byte that `from.read(buffer, 1)` extracts, `none` when `from.eof() || from.fail() ||
from.gcount() == 0` holds after it; what the calls of `from.readsome` extract one after the
other; and whether the call after these sets `eof` or `fail` (it extracts nothing
otherwise). -/
structure Reads where
  probe : Option Char
  drained : List Str
  closed : Bool
deriving DecidableEq

/-- What happens next outside the bridge: the idle timeout passes, or a descriptor becomes
ready. -/
inductive Readiness where
  | timeout
  | ready (fd : Int) (reads : Reads)
deriving DecidableEq

/-- The outcome of `ProxyWatchset::wait`: a timeout, for which it returns -1, or a
descriptor that is ready, with what is still to happen afterwards. -/
inductive Waited where
  | timedOut (rest : List Readiness)
  | ready (fd : Int) (reads : Reads) (rest : List Readiness)

/-- Modelled from the spec: `ProxyWatchset::wait`, which blocks until one of the registered
descriptors is ready and returns it, or returns -1 when the timeout passes first. A
descriptor that is not registered is not waited for, and when nothing more happens the
timeout passes. -/
def ProxyWatchset.wait (watchset : ProxyWatchset) : List Readiness → Waited
  | [] => .timedOut []
  | .timeout :: rest => .timedOut rest
  | .ready fd reads :: rest =>
    if fd ∈ watchset.fds then .ready fd reads rest else watchset.wait rest

/-- Embeds `streams[fd] = value` on `map<int, pair<iosockstream *, iosockstream *>>`. -/
def streamsSet (streams : List (Int × Side × Side)) (fd : Int) (value : Side × Side) :
    List (Int × Side × Side) :=
  (fd, value) :: streams.filter (fun entry => entry.1 ≠ fd)

/-- Embeds `streams.erase(fd)`. -/
def streamsErase (streams : List (Int × Side × Side)) (fd : Int) : List (Int × Side × Side) :=
  streams.filter (fun entry => entry.1 ≠ fd)

/-- The locals `watchset` and `streams` of `manageClientServerBridge`, and which of the two
streams it was passed are no longer in good state (`eofbit`, `failbit` or `badbit` set). -/
structure Bridge where
  watchset : ProxyWatchset
  streams : List (Int × Side × Side)
  failed : List Side
deriving DecidableEq

/-- Embeds the two statements that drop a descriptor: `watchset.remove(fd)` and
`streams.erase(fd)`. -/
def Bridge.drop (bridge : Bridge) (fd : Int) : Bridge :=
  { bridge with watchset := bridge.watchset.remove fd,
                streams := streamsErase bridge.streams fd }

/-- The state after an extraction that sets `eofbit` or `failbit` on a stream. -/
def Bridge.fail (bridge : Bridge) (side : Side) : Bridge :=
  { bridge with failed := side :: bridge.failed }

/-- Embeds `from.read(buffer, 1)`: the byte it extracts, `none` when `from.eof() ||
from.fail() || from.gcount() == 0` holds after it. A stream that is not in good state
extracts nothing. -/
def Bridge.probe (bridge : Bridge) (origin : Side) (reads : Reads) : Option Char :=
  if origin ∈ bridge.failed then none else reads.probe

/-- Embeds `to.write(buffer, n)`: the bytes that the stream takes. A stream that is not in
good state takes none; a write to a stream in good state is taken to succeed. -/
def Bridge.write (bridge : Bridge) (peer : Side) (bytes : Str) : Str :=
  if peer ∈ bridge.failed then [] else bytes

/-- One iteration of the relay loop past its two exits: the descriptor that `wait` returned,
what the reads on its stream would extract, what is still to happen afterwards, the stream
read from and the stream written to, whether the probe extracted a byte, the bytes that the
stream written to took, whether the descriptor was dropped, and the state at the next test
of the loop condition. -/
structure Relayed where
  fd : Int
  reads : Reads
  rest : List Readiness
  origin : Side
  peer : Side
  probed : Bool
  bytes : Str
  dropped : Bool
  next : Bridge
deriving DecidableEq

/-- How the relay loop ends: the active map is empty, `wait` returned -1, the map has no
streams for the descriptor that `wait` returned, or the budget of the model is used up. -/
inductive Exit where
  | empty
  | timeout
  | noStreams (fd : Int)
  | budget
deriving DecidableEq

/-- The inner `while (true)` loop of `manageClientServerBridge`: the bytes it passes to
`to.write`, and whether it drops the descriptor, which it does when `from.readsome` sets
`eof` or `fail`. -/
def drain : List Str → Bool → Str × Bool
  | [], closed => ([], closed)
  | chunk :: rest, closed =>
    if chunk = [] then ([], false)
    else ((chunk ++ (drain rest closed).1), (drain rest closed).2)

/-- The body of the relay loop after `wait` returned `fd` and `streams[fd]` gave the two
streams. A failed probe and a `readsome` that sets `eof` or `fail` leave the stream read
from out of good state. -/
def relay (bridge : Bridge) (fd : Int) (origin peer : Side) (reads : Reads)
    (rest : List Readiness) : Relayed :=
  match bridge.probe origin reads with
  | none => ⟨fd, reads, rest, origin, peer, false, [], true, (bridge.fail origin).drop fd⟩
  | some byte =>
    let drained := drain reads.drained reads.closed
    ⟨fd, reads, rest, origin, peer, true, bridge.write peer (byte :: drained.1), drained.2,
      if drained.2 then (bridge.fail origin).drop fd else bridge⟩

/-- The `while (!streams.empty())` loop of `manageClientServerBridge`, one unit of budget
per iteration. -/
def relayLoop : Nat → List Readiness → Bridge → List Relayed × Exit
  | 0, _, _ => ([], .budget)
  | budget + 1, events, bridge =>
    if bridge.streams = [] then ([], .empty)
    else
      match bridge.watchset.wait events with
      | .timedOut _ => ([], .timeout)
      | .ready fd reads rest =>
        if fd = -1 then ([], .timeout)
        else
          match bridge.streams.lookup fd with
          | none => ([], .noStreams fd)
          | some (origin, peer) =>
            let relayed := relay bridge fd origin peer reads rest
            let later := relayLoop budget rest relayed.next
            (relayed :: later.1, later.2)

/-- The state when `manageClientServerBridge` enters its loop, given which of the two
streams are not in good state at the call. -/
def Bridge.start (clientfd serverfd : Int) (failed : List Side) : Bridge :=
  ⟨((ProxyWatchset.mk []).add clientfd).add serverfd,
    streamsSet (streamsSet [] clientfd (.client, .server)) serverfd (.server, .client),
    failed⟩

/-- Embeds `HTTPRequestHandler::manageClientServerBridge`: the iterations of its loop and
how the loop ends. Every iteration takes at least one of the things that happen outside, so
the budget is never used up. -/
def manageClientServerBridge (clientfd serverfd : Int) (failed : List Side)
    (events : List Readiness) : List Relayed × Exit :=
  relayLoop (events.length + 1) events (Bridge.start clientfd serverfd failed)

/-- The value that `ProxyWatchset::wait` returns. -/
def Waited.fd : Waited → Int
  | .timedOut _ => -1
  | .ready fd _ _ => fd

/-- The state, and what is still to happen, at the last test of the loop condition. -/
def lastTest : Bridge → List Readiness → List Relayed → Bridge × List Readiness
  | start, events, [] => (start, events)
  | _, _, relayed :: run => lastTest relayed.next relayed.rest run

/-- The bytes that the reads of an iteration extract when the stream is in good state: the
byte of the probe and what the calls of `readsome` give after it. -/
def Reads.extracted (reads : Reads) : Str :=
  match reads.probe with
  | none => []
  | some byte => byte :: (drain reads.drained reads.closed).1

/-- Whether the iterations are those of a relay loop whose first test of the loop condition
finds the given state, with the given things still to happen. Each iteration follows a test
that finds the active map not empty and a `wait` that returns the descriptor of the
iteration, which is not -1 and for which the map holds the two streams of the iteration. Its
probe extracts a byte exactly when the stream read from is in good state and has one. After
a failed probe nothing is forwarded and the descriptor is dropped; otherwise the stream
written to takes the extracted bytes, or none when it is not in good state, and the
descriptor is dropped exactly when `readsome` sets `eof` or `fail`. An iteration that drops
its descriptor removes it from the watchset and from the active map and leaves the stream
read from out of good state; one that does not leaves the state as it is. The next test
finds the state the iteration leaves. -/
def loopRun : Bridge → List Readiness → List Relayed → Prop
  | _, _, [] => True
  | bridge, events, relayed :: later =>
    bridge.streams ≠ []
      ∧ bridge.watchset.wait events = .ready relayed.fd relayed.reads relayed.rest
      ∧ relayed.fd ≠ -1
      ∧ bridge.streams.lookup relayed.fd = some (relayed.origin, relayed.peer)
      ∧ (relayed.probed = true
          ↔ relayed.origin ∉ bridge.failed ∧ relayed.reads.probe.isSome = true)
      ∧ (relayed.probed = false → relayed.bytes = [] ∧ relayed.dropped = true)
      ∧ (relayed.probed = true →
          relayed.bytes
              = (if relayed.peer ∈ bridge.failed then [] else relayed.reads.extracted)
            ∧ relayed.dropped = (drain relayed.reads.drained relayed.reads.closed).2)
      ∧ (relayed.dropped = true →
          relayed.next.watchset = bridge.watchset.remove relayed.fd
            ∧ relayed.next.streams = streamsErase bridge.streams relayed.fd
            ∧ relayed.next.failed = relayed.origin :: bridge.failed)
      ∧ (relayed.dropped = false → relayed.next = bridge)
      ∧ loopRun relayed.next relayed.rest later

/-- Whether the watched descriptors are the keys of the active map. -/
def Bridge.consistent (bridge : Bridge) : Prop :=
  ∀ fd : Int, fd ∈ bridge.watchset.fds ↔ fd ∈ bridge.streams.map Prod.fst

/-- A world in which the client sends `getRequest`, the origin answers `HTTP/1.1 200` with
the header `Cache-Control: max-age=60`, and the ingestion of the response header then
raises an `HTTPRequestException` with the message `truncated`. -/
def truncatedWorld : World :=
  { getWorld with
    replyHeader := fun r =>
      ({ r with code := 200, protocol := "HTTP/1.1".toList,
                responseHeader := ⟨[(kCacheControl, "max-age=60".toList)]⟩ },
       some (.proxy (.requestFailure "truncated".toList))) }

/-- A header block that names the transfer coding with the given spelling and declares a
content length of 3. -/
def codingHeader (coding : Str) : HTTPHeader :=
  ⟨[("Transfer-Encoding".toList, coding), ("Content-Length".toList, "3".toList)]⟩

end Proxy

namespace FileDir

/-! ## The Unix V6 file system reader (`inode.c`, `file.c`, `directory.c`, `pathname.c`)

A C string is the list of its characters before the terminator. A function that returns an
`int` and fills an object of its caller returns a record of both; the object is `none` when
the function did not write it. Behaviour the C standard leaves undefined is an explicit
`Fault`. -/

/-- Behaviour that C leaves undefined: an array read or written outside its bounds, or an
object read before it was written. -/
inductive Fault where
  | outOfBounds (array : String) (index : Int)
  | uninitialised (object : String)
deriving DecidableEq

/-- The element of an array of `n` elements at an `int` index. -/
def index {α : Type} {n : Nat} (array : String) (a : Fin n → α) (i : Int) : Except Fault α :=
  if h : 0 ≤ i ∧ i.toNat < n then .ok (a ⟨i.toNat, h.2⟩)
  else .error (.outOfBounds array i)

/-- The value of an object that its owner may not have written yet. -/
def initialised {α : Type} (object : String) : Option α → Except Fault α
  | some a => .ok a
  | none => .error (.uninitialised object)

/-- Conversion of an `int` to `size_t`, which an arithmetic operator applies to an `int`
operand when the other operand is a `size_t`. -/
def toSizeT (x : Int) : Nat := (x % 2 ^ 64).toNat

/-- Conversion of a `size_t` to `int`. -/
def toInt (n : Nat) : Int :=
  if n % 2 ^ 32 < 2 ^ 31 then ((n % 2 ^ 32 : Nat) : Int) else ((n % 2 ^ 32 : Nat) : Int) - 2 ^ 32

/-- Modelled from the spec: `DISKIMG_SECTOR_SIZE` (`diskimg.h` is not under `src/`), the
512 bytes of a sector. -/
def DISKIMG_SECTOR_SIZE : Int := 512

/-- Modelled from the spec: `sizeof(struct inode)` (`ino.h` is not under `src/`), the 32
bytes of a Unix V6 inode. -/
def sizeofInode : Nat := 32

/-- Modelled from the spec: `sizeof(struct direntv6)` (`direntv6.h` is not under `src/`): a
16-bit inode number and a name of 14 characters. -/
def sizeofDirentv6 : Nat := 16

/-- Embeds `INO_PER_BLOCK`, a `size_t`. -/
def INO_PER_BLOCK : Nat := DISKIMG_SECTOR_SIZE.toNat / sizeofInode

/-- Embeds `BNUMS_PER_BLOCK`, a `size_t`. -/
def BNUMS_PER_BLOCK : Nat := DISKIMG_SECTOR_SIZE.toNat / 2

/-- Embeds `DIR_PER_BLOCK`, a `size_t`. -/
def DIR_PER_BLOCK : Nat := DISKIMG_SECTOR_SIZE.toNat / sizeofDirentv6

/-- Embeds `INDIR_ADDR`. -/
def INDIR_ADDR : Int := 7

/-- Embeds `DIRNAME_MAX_LEN`. -/
def DIRNAME_MAX_LEN : Nat := 14

/-- Modelled from the spec: `ROOT_INUMBER` (`unixfilesystem.h` is not under `src/`), the
inode number of the root directory. -/
def ROOT_INUMBER : Int := 1

/-- Modelled from the spec: `INODE_START_SECTOR` (`unixfilesystem.h` is not under `src/`),
the first sector of the inode table. -/
def INODE_START_SECTOR : Int := 2

/-- Modelled from the spec: `IFMT` (`ino.h` is not under `src/`), the bits of `i_mode` that
hold the type of the file. -/
def IFMT : Nat := 0o60000

/-- Modelled from the spec: `IFDIR` (`ino.h` is not under `src/`), the type of a
directory. -/
def IFDIR : Nat := 0o40000

/-- Modelled from the spec: `ILARG` (`ino.h` is not under `src/`), the bit of `i_mode` that
selects the large-file addressing scheme. -/
def ILARG : Nat := 0o10000

/-- Modelled from the spec: the members of `struct inode` (`ino.h` is not under `src/`)
that the code reads: `uint16_t i_mode`, `uint8_t i_size0`, `uint16_t i_size1` and
`uint16_t i_addr[8]`. -/
structure inode where
  i_mode : Nat
  i_size0 : Nat
  i_size1 : Nat
  i_addr : Fin 8 → Nat

/-- Modelled from the spec: `struct direntv6` (`direntv6.h` is not under `src/`):
`uint16_t d_inumber` and `char d_name[14]`. -/
structure direntv6 where
  d_inumber : Nat
  d_name : Fin 14 → Char

/-- The 512 bytes of a sector as the three array types the code reads a sector into:
`struct inode[INO_PER_BLOCK]`, `uint16_t[BNUMS_PER_BLOCK]` and
`struct direntv6[DIR_PER_BLOCK]`. -/
structure Sector where
  inodes : Fin 16 → inode
  bnums : Fin 256 → Nat
  direntries : Fin 32 → direntv6

/-- Modelled from the spec: what the code reads of `struct unixfilesystem`
(`unixfilesystem.h`, `diskimg.h` are not under `src/`): `superblock.s_isize`, and the disk
behind `dfd` as the outcome of `diskimg_readsector(fs->dfd, sectorNum, buf)`, `none` when
it returns a negative number and the sector it stores in `buf` otherwise. -/
structure unixfilesystem where
  s_isize : Nat
  diskimg_readsector : Int → Option Sector

/-- The return value of `inode_iget` and the inode it stores in `*inp`. -/
structure Fetched where
  ret : Int
  inp : Option inode

/-- Embeds `inode_iget`. -/
def inode_iget (fs : unixfilesystem) (inumber : Int) : Except Fault Fetched :=
  let inumber := inumber - 1
  let sector_index := toInt (toSizeT inumber / INO_PER_BLOCK)
  let inode_index := toInt (toSizeT inumber % INO_PER_BLOCK)
  if inumber < 0 ∨ sector_index ≥ (fs.s_isize : Int) then .ok ⟨-1, none⟩
  else
    match fs.diskimg_readsector (INODE_START_SECTOR + sector_index) with
    | none => .ok ⟨-1, none⟩
    | some inodes =>
      match index "inodes" inodes.inodes inode_index with
      | .error fault => .error fault
      | .ok found => .ok ⟨0, some found⟩

/-- Embeds `inode_getsize`. The members are a `uint8_t` and a `uint16_t`. -/
def inode_getsize (inp : inode) : Int :=
  ((((inp.i_size0 % 2 ^ 8) <<< 16) ||| (inp.i_size1 % 2 ^ 16) : Nat) : Int)

/-- Embeds `inode_indexlookup`. -/
def inode_indexlookup (fs : unixfilesystem) (inp : inode) (fileBlockIndex : Int) :
    Except Fault Int :=
  let inode_size := inode_getsize inp
  if fileBlockIndex < 0 ∨ fileBlockIndex > (inode_size - 1).tdiv DISKIMG_SECTOR_SIZE then
    .ok (-1)
  else if inp.i_mode &&& ILARG = 0 then
    match index "i_addr" inp.i_addr fileBlockIndex with
    | .error fault => .error fault
    | .ok bnum => .ok bnum
  else
    let max_sindir_blocks_size := toInt (toSizeT INDIR_ADDR * BNUMS_PER_BLOCK % 2 ^ 64)
    if fileBlockIndex < max_sindir_blocks_size then
      let sindir_block_index := toInt (toSizeT fileBlockIndex / BNUMS_PER_BLOCK)
      let dir_block_index := toInt (toSizeT fileBlockIndex % BNUMS_PER_BLOCK)
      match index "i_addr" inp.i_addr sindir_block_index with
      | .error fault => .error fault
      | .ok sindir =>
        match fs.diskimg_readsector sindir with
        | none => .ok (-1)
        | some dir_bnums =>
          match index "dir_bnums" dir_bnums.bnums dir_block_index with
          | .error fault => .error fault
          | .ok bnum => .ok bnum
    else
      let total_dir_bnums := fileBlockIndex - max_sindir_blocks_size
      let sindir_block_index := toInt (toSizeT total_dir_bnums / BNUMS_PER_BLOCK)
      match index "i_addr" inp.i_addr INDIR_ADDR with
      | .error fault => .error fault
      | .ok dindir =>
        match fs.diskimg_readsector dindir with
        | none => .ok (-1)
        | some sindir_bnums =>
          let dir_block_index := toInt (toSizeT total_dir_bnums % BNUMS_PER_BLOCK)
          match index "sindir_bnums" sindir_bnums.bnums sindir_block_index with
          | .error fault => .error fault
          | .ok sindir =>
            match fs.diskimg_readsector sindir with
            | none => .ok (-1)
            | some dir_bnums =>
              match index "dir_bnums" dir_bnums.bnums dir_block_index with
              | .error fault => .error fault
              | .ok bnum => .ok bnum

/-- The return value of `file_getblock` and the sector it stores in `buf`. -/
structure Block where
  ret : Int
  buf : Option Sector

/-- Embeds `file_getblock`. -/
def file_getblock (fs : unixfilesystem) (inumber : Int) (fileBlockIndex : Int) :
    Except Fault Block :=
  match inode_iget fs inumber with
  | .error fault => .error fault
  | .ok fetched =>
    if fetched.ret < 0 then .ok ⟨-1, none⟩
    else
      match initialised "inp" fetched.inp with
      | .error fault => .error fault
      | .ok inp =>
        match inode_indexlookup fs inp fileBlockIndex with
        | .error fault => .error fault
        | .ok blockNum =>
          if blockNum < 0 then .ok ⟨-1, none⟩
          else
            match fs.diskimg_readsector blockNum with
            | none => .ok ⟨-1, none⟩
            | some sector =>
              let file_size := inode_getsize inp
              if file_size < 0 then .ok ⟨-1, some sector⟩
              else
                let max_block_index := (file_size - 1).tdiv DISKIMG_SECTOR_SIZE
                if fileBlockIndex = max_block_index then
                  .ok ⟨(file_size - 1).tmod DISKIMG_SECTOR_SIZE + 1, some sector⟩
                else .ok ⟨DISKIMG_SECTOR_SIZE, some sector⟩

/-- Embeds the terminator of a C string. -/
def NUL : Char := Char.ofNat 0

/-- Embeds `strncmp(s1, s2, n)` of the C library, for a C string `s1` and the array
`char s2[14]`, from position `k` on with `n` characters left to compare: the difference of
the first two characters that differ, and 0 when there is none before the end of `s1` or
among the `n` characters. -/
def strncmp (s1 : List Char) (s2 : Fin 14 → Char) : Nat → Nat → Except Fault Int
  | _, 0 => .ok 0
  | k, n + 1 =>
    match index "d_name" s2 k with
    | .error fault => .error fault
    | .ok c2 =>
      let c1 := s1.getD k NUL
      if c1 ≠ c2 then .ok ((c1.toNat : Int) - (c2.toNat : Int))
      else if c1 = NUL then .ok 0
      else strncmp s1 s2 (k + 1) n

/-- The return value of `directory_findname` and the entry it stores in `*dirEnt`. -/
structure Found where
  ret : Int
  dirEnt : Option direntv6

/-- The inner loop of `directory_findname`, over the entries `i` of one block: the first
entry that `strncmp` accepts, if any. -/
def findInBlock (name : List Char) (direntries : Fin 32 → direntv6) :
    List Nat → Except Fault (Option direntv6)
  | [] => .ok none
  | i :: rest =>
    match index "direntries" direntries i with
    | .error fault => .error fault
    | .ok entry =>
      match strncmp name entry.d_name 0 name.length with
      | .error fault => .error fault
      | .ok order => if order = 0 then .ok (some entry) else findInBlock name direntries rest

/-- The outer loop of `directory_findname`, over the blocks `b` of the directory. -/
def findInBlocks (fs : unixfilesystem) (name : List Char) (dirinumber : Int) :
    List Nat → Except Fault Found
  | [] => .ok ⟨-1, none⟩
  | b :: rest =>
    match file_getblock fs dirinumber b with
    | .error fault => .error fault
    | .ok block =>
      let block_size := block.ret
      if block_size < 0 then .ok ⟨-1, none⟩
      else
        match initialised "direntries" block.buf with
        | .error fault => .error fault
        | .ok direntries =>
          let total_direntries := toInt (toSizeT block_size / sizeofDirentv6)
          match findInBlock name direntries.direntries (List.range total_direntries.toNat) with
          | .error fault => .error fault
          | .ok (some entry) => .ok ⟨0, some entry⟩
          | .ok none => findInBlocks fs name dirinumber rest

/-- Embeds `directory_findname`. -/
def directory_findname (fs : unixfilesystem) (name : List Char) (dirinumber : Int) :
    Except Fault Found :=
  match inode_iget fs dirinumber with
  | .error fault => .error fault
  | .ok fetched =>
    if fetched.ret < 0 then .ok ⟨-1, none⟩
    else
      match initialised "inp" fetched.inp with
      | .error fault => .error fault
      | .ok inp =>
        if inp.i_mode &&& IFMT ≠ IFDIR then .ok ⟨-1, none⟩
        else
          let dir_size := inode_getsize inp
          if dir_size ≤ 0 then .ok ⟨-1, none⟩
          else
            let total_direct_blocks := (dir_size - 1).tdiv DISKIMG_SECTOR_SIZE + 1
            findInBlocks fs name dirinumber (List.range total_direct_blocks.toNat)

/-- Embeds `strchr(s, c)` of the C library for a character other than the terminator: the
position of the first `c` in `s`, `none` for `NULL`. -/
def strchr (s : List Char) (c : Char) : Option Nat :=
  if s.indexOf c < s.length then some (s.indexOf c) else none

/-- What `recursive_pathname_lookup` does with the entry that `directory_findname` found
for one path component: `next` is the rest of the function. -/
def withEntry (found : Except Fault Found) (next : Int → Except Fault Int) :
    Except Fault Int :=
  match found with
  | .error fault => .error fault
  | .ok found =>
    if found.ret < 0 then .ok (-1)
    else
      match initialised "direntry" found.dirEnt with
      | .error fault => .error fault
      | .ok direntry => next direntry.d_inumber

/-- The recursion of `recursive_pathname_lookup`, with a budget of calls. -/
def recursive_pathname_lookup_calls (fs : unixfilesystem) :
    Nat → Int → List Char → Except Fault Int
  | 0, _, _ => .ok (-1)
  | calls + 1, inumber, pathname =>
    match strchr pathname '/' with
    | none => withEntry (directory_findname fs pathname inumber) (fun found => .ok found)
    | some first_slash =>
      let new_pathname := pathname.drop (first_slash + 1)
      let direntry_len : Int := (pathname.length : Int) - (new_pathname.length : Int) - 1
      if direntry_len > DIRNAME_MAX_LEN then
        .error (.outOfBounds "direntry_name" DIRNAME_MAX_LEN)
      else if ¬ direntry_len < DIRNAME_MAX_LEN then
        .error (.outOfBounds "direntry_name" DIRNAME_MAX_LEN)
      else
        let direntry_name := pathname.take direntry_len.toNat
        withEntry (directory_findname fs direntry_name inumber)
          (fun found => recursive_pathname_lookup_calls fs calls found new_pathname)

/-- Embeds `recursive_pathname_lookup`. Every call but the last removes a slash from the
path, so the budget of calls is never used up. -/
def recursive_pathname_lookup (fs : unixfilesystem) (inumber : Int) (pathname : List Char) :
    Except Fault Int :=
  recursive_pathname_lookup_calls fs (pathname.length + 1) inumber pathname

/-- Embeds `pathname_lookup`. -/
def pathname_lookup (fs : unixfilesystem) (pathname : List Char) : Except Fault Int :=
  if pathname = ['/'] then .ok ROOT_INUMBER
  else
    match pathname with
    | [] => .error (.outOfBounds "pathname" 1)
    | _ :: new_pathname => recursive_pathname_lookup fs ROOT_INUMBER new_pathname

/-- The name an entry holds: the characters of `d_name` before the first terminator, all 14
when there is none. -/
def direntv6.name (entry : direntv6) : List Char :=
  ((List.finRange 14).map entry.d_name).takeWhile (fun c => c ≠ NUL)

/-- The lookup of the components of a path one after the other, as the claim words it: each
component is looked up with `directory_findname` in the directory found for the one before
it, and the first lookup that fails gives -1. -/
def lookupComponents (fs : unixfilesystem) : Int → List (List Char) → Except Fault Int
  | inumber, [] => .ok inumber
  | inumber, component :: rest =>
    match directory_findname fs component inumber with
    | .error fault => .error fault
    | .ok found =>
      if found.ret < 0 then .ok (-1)
      else
        match found.dirEnt with
        | none => .error (.uninitialised "direntry")
        | some entry => lookupComponents fs entry.d_inumber rest

/-- The path `/c1/c2/.../cn` of the components `c1`, ..., `cn`. -/
def absolutePath : List (List Char) → List Char
  | [] => []
  | component :: rest => '/' :: component ++ absolutePath rest

/-- Entry `k` of `i_addr`, if there is one. -/
def inode.addr (inp : inode) (k : Nat) : Option Nat :=
  if h : k < 8 then some (inp.i_addr ⟨k, h⟩) else none

/-- Entry `k` of a sector of block numbers, if there is one. -/
def Sector.entry (sector : Sector) (k : Nat) : Option Nat :=
  if h : k < 256 then some (sector.bnums ⟨k, h⟩) else none

/-- The block number that the V6 addressing scheme gives for block `idx` of a file, as the
claim words it: `i_addr[idx]` when `ILARG` is clear; when it is set and `idx < 7 * 256`,
entry `idx mod 256` of the indirect block `i_addr[idx / 256]`; otherwise, with
`j = idx - 7 * 256`, entry `j mod 256` of the indirect block named by entry `j / 256` of the
doubly indirect block `i_addr[7]`. It is `none` when a sector cannot be read or an entry
does not exist. -/
def v6BlockNumber (fs : unixfilesystem) (inp : inode) (idx : Nat) : Option Nat :=
  if inp.i_mode &&& ILARG = 0 then inp.addr idx
  else if idx < 7 * 256 then do
    let indirect ← fs.diskimg_readsector (← inp.addr (idx / 256))
    indirect.entry (idx % 256)
  else do
    let j := idx - 7 * 256
    let doubly ← fs.diskimg_readsector (← inp.addr 7)
    let indirect ← fs.diskimg_readsector (← doubly.entry (j / 256))
    indirect.entry (j % 256)

/-- The number of valid bytes of block `b` of a file of `size` bytes, as the claim words it:
512 for every block but the last, and `size - 512 * ((size - 1) / 512)` for the last. -/
def validBytes (size : Int) (b : Int) : Int :=
  if b = (size - 1) / 512 then size - 512 * ((size - 1) / 512) else 512

/-- The value that a call of `file_getblock` returned, 0 for a call that did not return. -/
def returned : Except Fault Block → Int
  | .ok block => block.ret
  | .error _ => 0

/-- The return value of `inode_indexlookup` for a block number, and -1 for none. -/
def blockOrError : Option Nat → Int
  | some bnum => bnum
  | none => -1

/-- The member `d_name` that holds `name`, filled up with terminators. -/
def nameField (name : List Char) : Fin 14 → Char := fun i => name.getD i NUL

/-- An inode with the given mode, size and block numbers; block numbers left out are 0. -/
def inodeOf (i_mode size : Nat) (addr : List Nat) : inode :=
  { i_mode := i_mode, i_size0 := size / 2 ^ 16, i_size1 := size % 2 ^ 16,
    i_addr := fun k => addr.getD k 0 }

/-- A sector of zero bytes. -/
def zeroSector : Sector :=
  { inodes := fun _ => inodeOf 0 0 [], bnums := fun _ => 0,
    direntries := fun _ => ⟨0, nameField []⟩ }

/-- A sector of the inode table that holds the given inodes. -/
def inodeSector (inodes : List inode) : Sector :=
  { zeroSector with inodes := fun k => inodes.getD k (inodeOf 0 0 []) }

/-- A sector of a directory that holds the given entries. -/
def directorySector (entries : List (List Char × Nat)) : Sector :=
  { zeroSector with
    direntries := fun k =>
      match entries.get? k with
      | some entry => ⟨entry.2, nameField entry.1⟩
      | none => ⟨0, nameField []⟩ }

/-- A sector of block numbers that holds `first`, `first + 1`, ... -/
def bnumSector (first : Nat) : Sector := { zeroSector with bnums := fun k => first + k }

/-- A disk with seven inodes. Inode 1 is the root directory, with the entries `foobar`
(inode 5), `foo` (inode 6) and `usr` (inode 2) in sector 10; inode 2 is the directory `usr`
with the entry `bin` (inode 3) in sector 11; inode 3 is a file of 1000 bytes in sectors 12
and 13; inode 4 is a large file of 2 ^ 20 bytes whose indirect blocks are the sectors 20 to
26 and whose doubly indirect block is sector 30, which names the indirect block 31; inodes 5
and 6 are files of 10 bytes; inode 7 has the large-file bit clear and the size 5000. -/
def exampleDisk : unixfilesystem :=
  { s_isize := 1,
    diskimg_readsector := fun sectorNum =>
      if sectorNum = 2 then
        some (inodeSector
          [ inodeOf 0o140000 48 [10],
            inodeOf 0o140000 16 [11],
            inodeOf 0o100000 1000 [12, 13],
            inodeOf 0o110000 (2 ^ 20) [20, 21, 22, 23, 24, 25, 26, 30],
            inodeOf 0o100000 10 [14],
            inodeOf 0o100000 10 [15],
            inodeOf 0o100000 5000 [40, 41, 42, 43, 44, 45, 46, 47] ])
      else if sectorNum = 10 then
        some (directorySector
          [("foobar".toList, 5), ("foo".toList, 6), ("usr".toList, 2)])
      else if sectorNum = 11 then some (directorySector [("bin".toList, 3)])
      else if 12 ≤ sectorNum ∧ sectorNum ≤ 15 then some zeroSector
      else if 20 ≤ sectorNum ∧ sectorNum ≤ 26 then some (bnumSector (1000 * sectorNum.toNat))
      else if sectorNum = 30 then some (bnumSector 31)
      else if sectorNum = 31 then some (bnumSector 40000)
      else if 40000 ≤ sectorNum then some zeroSector
      else none }

end FileDir

namespace SixDegrees

/-! ## Shortest paths between actors (`search.cc`)

A `std::map` that the code reads and writes with `operator[]` only is the function from keys
to values, with the value-initialised value at the keys it has no entry for; a `std::set` is
the list of its elements, newest first. -/

/-- An actor or actress: a `std::string`. -/
abbrev Actor : Type := List Char

/-- Modelled from the spec: `struct film` (`imdb-utils.h` is not under `src/`): a title and
a year, which together identify the film. -/
structure film where
  title : List Char
  year : Nat
deriving DecidableEq

/-- What `BFS` reads of the database: the films that `imdb::getCredits` appends to its empty
vector for a player, and the players that `imdb::getCast` appends for a film. -/
structure imdb where
  getCredits : Actor → List film
  getCast : film → List Actor

/-- The locals of `BFS` and the three maps it fills. -/
structure Search where
  queue : List Actor
  visited_actors : List Actor
  visited_films : List film
  pred_actor : Actor → Actor
  pred_film : Actor → film
  dist : Actor → Int

/-- The body of the innermost `if` of `BFS` up to the test for the target: `costar` has
just been inserted into `visited_actors`, and its distance, precedent actor and precedent
film are recorded. -/
def record (s : Search) (u : Actor) (movie : film) (costar : Actor) : Search :=
  { s with
    visited_actors := costar :: s.visited_actors,
    pred_actor := Function.update s.pred_actor costar u,
    pred_film := Function.update s.pred_film costar movie,
    dist := Function.update s.dist costar (s.dist u + 1) }

/-- The loop of `BFS` over the cast of `movie`. The first component tells whether the
function returned `true` from inside the loop. -/
def castLoop (target u : Actor) (movie : film) : List Actor → Search → Bool × Search
  | [], s => (false, s)
  | costar :: cast, s =>
    if costar ∉ s.visited_actors then
      let s1 := record s u movie costar
      if costar = target then (true, s1)
      else castLoop target u movie cast { s1 with queue := s1.queue ++ [costar] }
    else castLoop target u movie cast s

/-- The loop of `BFS` over the credits of `u`. -/
def creditsLoop (db : imdb) (target u : Actor) : List film → Search → Bool × Search
  | [], s => (false, s)
  | movie :: credits, s =>
    if movie ∉ s.visited_films then
      let found := castLoop target u movie (db.getCast movie)
        { s with visited_films := movie :: s.visited_films }
      if found.1 then found else creditsLoop db target u credits found.2
    else creditsLoop db target u credits s

/-- The `while` loop of `BFS` with the `return false` that follows it, one unit of budget
per test of the loop condition; `none` when the budget is used up. -/
def whileLoop (db : imdb) (target : Actor) (maxLength : Int) :
    Nat → Search → Option (Bool × Search)
  | 0, _ => none
  | budget + 1, s =>
    match s.queue with
    | [] => some (false, s)
    | u :: queue =>
      if s.dist u < maxLength then
        let found := creditsLoop db target u (db.getCredits u) { s with queue := queue }
        if found.1 then some found else whileLoop db target maxLength budget found.2
      else some (false, s)

/-- Embeds `BFS`: the value it returns and the three maps as it leaves them, given the maps
as the caller passes them and a budget of loop tests. -/
def BFS (db : imdb) (source target : Actor) (maxLength : Int) (pred_actor : Actor → Actor)
    (pred_film : Actor → film) (dist : Actor → Int) (budget : Nat) : Option (Bool × Search) :=
  whileLoop db target maxLength budget
    { queue := [source], visited_actors := [source], visited_films := [],
      pred_actor := pred_actor, pred_film := pred_film,
      dist := Function.update dist source 0 }

/-- The `for` loop of `printShortestPath`: the connections it adds to the path that starts
at `thisActor`, `length` of them. -/
def connections (pred_actor : Actor → Actor) (pred_film : Actor → film) :
    Nat → Actor → List (film × Actor)
  | 0, _ => []
  | length + 1, thisActor =>
    (pred_film thisActor, pred_actor thisActor)
      :: connections pred_actor pred_film length (pred_actor thisActor)

/-- Modelled from the spec: the value-initialised `film` (`imdb-utils.h` is not under
`src/`). -/
def film.empty : film := ⟨[], 0⟩

/-- Embeds `printShortestPath` up to the reversal and the printing of the path (`path.h` is
not under `src/`): `some none` when it prints that no path could be found, and otherwise the
path it has built, the target and the connections added to it; `none` when the budget of
`BFS` is used up. -/
def printShortestPath (db : imdb) (source target : Actor) (maxLength : Int) (budget : Nat) :
    Option (Option (Actor × List (film × Actor))) :=
  match BFS db source target maxLength (fun _ => []) (fun _ => film.empty) (fun _ => 0)
      budget with
  | none => none
  | some (false, _) => some none
  | some (true, maps) =>
    let length := maps.dist target
    some (some (target, connections maps.pred_actor maps.pred_film length.toNat target))

/-- A path in the co-star graph from one actor to another: a list of film links, each a film
among the credits of the actor reached so far and a member of the cast of that film. -/
def isPath (db : imdb) : Actor → List (film × Actor) → Actor → Prop
  | start, [], finish => start = finish
  | start, (movie, costar) :: links, finish =>
    movie ∈ db.getCredits start ∧ costar ∈ db.getCast movie ∧ isPath db costar links finish

/-- A path as `printShortestPath` builds it, from its end backwards: each connection names a
film in whose cast the actor reached so far appears and an actor who has that film among
their credits, and the last actor named is `source`. -/
def isChain (db : imdb) : Actor → List (film × Actor) → Actor → Prop
  | thisActor, [], source => thisActor = source
  | thisActor, (movie, previous) :: links, source =>
    movie ∈ db.getCredits previous ∧ thisActor ∈ db.getCast movie
      ∧ isChain db previous links source

/-- One film link of the co-star graph: `v` is in the cast of a film among the credits of
`u`. -/
def Linked (db : imdb) (u v : Actor) : Prop :=
  ∃ movie ∈ db.getCredits u, v ∈ db.getCast movie

/-- There are `n` film links that lead from `a` to `b`. -/
def Reach (db : imdb) : Nat → Actor → Actor → Prop
  | 0, a, b => a = b
  | n + 1, a, b => ∃ w, Reach db n a w ∧ Linked db w b

/-- What the three maps of `BFS` hold for the actors visited so far: the source is at
distance 0, and every other visited actor is one link, through its precedent film, after its
precedent actor, who was visited too. -/
structure Recorded (db : imdb) (source : Actor) (s : Search) : Prop where
  source_mem : source ∈ s.visited_actors
  source_dist : s.dist source = 0
  nonneg : ∀ v ∈ s.visited_actors, 0 ≤ s.dist v
  pred : ∀ v ∈ s.visited_actors, v ≠ source →
    s.pred_actor v ∈ s.visited_actors ∧ s.dist v = s.dist (s.pred_actor v) + 1
      ∧ s.pred_film v ∈ db.getCredits (s.pred_actor v) ∧ v ∈ db.getCast (s.pred_film v)

/-- The invariant of `BFS` at a test of the condition of its `while` loop. -/
structure AtTest (db : imdb) (source : Actor) (s : Search) : Prop where
  recorded : Recorded db source s
  queue_sub : ∀ q ∈ s.queue, q ∈ s.visited_actors
  level : ∀ v ∈ s.visited_actors, ∀ q ∈ s.queue, s.dist v ≤ s.dist q + 1
  sorted : s.queue.Pairwise (fun a b => s.dist a ≤ s.dist b)
  closed : ∀ v ∈ s.visited_actors, v ∉ s.queue →
    ∀ w, Linked db v w → w ∈ s.visited_actors ∧ s.dist w ≤ s.dist v + 1
  films : ∀ movie ∈ s.visited_films, ∀ w ∈ db.getCast movie, w ∈ s.visited_actors

/-- The invariant of `BFS` inside the body of its `while` loop, while the costars of `u` are
evaluated; `done` are the films whose whole cast has been evaluated. -/
structure Expanding (db : imdb) (source u : Actor) (done : List film) (s : Search) :
    Prop where
  recorded : Recorded db source s
  current_mem : u ∈ s.visited_actors
  queue_sub : ∀ q ∈ s.queue, q ∈ s.visited_actors
  level : ∀ v ∈ s.visited_actors, s.dist v ≤ s.dist u + 1
  queue_level : ∀ q ∈ s.queue, s.dist u ≤ s.dist q
  sorted : s.queue.Pairwise (fun a b => s.dist a ≤ s.dist b)
  closed : ∀ v ∈ s.visited_actors, v ∉ s.queue → v ≠ u →
    ∀ w, Linked db v w → w ∈ s.visited_actors ∧ s.dist w ≤ s.dist v + 1
  films : ∀ movie ∈ done, ∀ w ∈ db.getCast movie, w ∈ s.visited_actors
  far : ∀ (path : List (film × Actor)) (w : Actor), isPath db source path w →
    w ∉ s.visited_actors → s.dist u < path.length

/-- What holds when `BFS` returns `true`: the maps record a chain of precedents for every
visited actor, the target is visited, at a distance within the bound, and no path from the
source to the target is shorter than its distance. -/
structure Found (db : imdb) (source target : Actor) (maxLength : Int) (final : Search) :
    Prop where
  recorded : Recorded db source final
  target_mem : target ∈ final.visited_actors
  dist_le : final.dist target ≤ maxLength
  shortest : ∀ path : List (film × Actor), isPath db source path target →
    final.dist target ≤ path.length

/-- The visited actors are distinct members of a finite collection, which holds the actors
in the queue too. -/
structure Bounded (actors : List Actor) (s : Search) : Prop where
  nodup : s.visited_actors.Nodup
  sub : ∀ v ∈ s.visited_actors, v ∈ actors
  queue_sub : ∀ q ∈ s.queue, q ∈ actors

/-- A bound on the number of iterations of the `while` loop that are left: the actors in the
queue and the actors not visited yet. -/
def potential (actors : List Actor) (s : Search) : Nat :=
  s.queue.length + (actors.length - s.visited_actors.length)

/-- Whether the two actors of every connection of a path, as `printShortestPath` builds it,
both appear in the cast of the film of the connection. -/
def castsJoin (db : imdb) : Actor → List (film × Actor) → Prop
  | _, [] => True
  | thisActor, (movie, previous) :: links =>
    thisActor ∈ db.getCast movie ∧ previous ∈ db.getCast movie ∧ castsJoin db previous links

/-- Four films. -/
def filmOne : film := ⟨"One".toList, 2001⟩

/-- The second film. -/
def filmTwo : film := ⟨"Two".toList, 2002⟩

/-- The third film. -/
def filmThree : film := ⟨"Three".toList, 2003⟩

/-- A database of three films: Ann and Bob star in `filmOne`, Bob and Cy in `filmTwo`, Cy
and Dee in `filmThree`. -/
def exampleDb : imdb :=
  { getCredits := fun player =>
      if player = "Ann".toList then [filmOne]
      else if player = "Bob".toList then [filmOne, filmTwo]
      else if player = "Cy".toList then [filmTwo, filmThree]
      else if player = "Dee".toList then [filmThree]
      else [],
    getCast := fun movie =>
      if movie = filmOne then ["Ann".toList, "Bob".toList]
      else if movie = filmTwo then ["Bob".toList, "Cy".toList]
      else if movie = filmThree then ["Cy".toList, "Dee".toList]
      else [] }

/-- The players of `exampleDb`. -/
def examplePlayers : List Actor := ["Ann".toList, "Bob".toList, "Cy".toList, "Dee".toList]

end SixDegrees

namespace Proxy

/-! ## `find`: first occurrence of a substring -/

theorem find_isSome_iff (needle s : Str) : (find needle s).isSome = true ↔ needle <:+: s := by
  induction s with
  | nil =>
    by_cases h : needle = [] <;> simp [find, h]
  | cons c cs ih =>
    rw [find, List.infix_cons_iff]
    by_cases h : needle.isPrefixOf (c :: cs) = true
    · simp only [h, if_true, Option.isSome_some, true_iff]
      exact Or.inl (List.isPrefixOf_iff_prefix.mp h)
    · have h' : ¬ needle <+: c :: cs := fun hp => h (List.isPrefixOf_iff_prefix.mpr hp)
      simp only [h, Option.isSome_map', h', false_or]
      simpa using ih

theorem find_eq_none_iff (needle s : Str) : find needle s = none ↔ ¬ needle <:+: s := by
  rw [← find_isSome_iff]
  cases find needle s <;> simp

theorem find_some_split (needle : Str) :
    ∀ (s : Str) (pos : Nat), find needle s = some pos →
      s = s.take pos ++ needle ++ s.drop (pos + needle.length) := by
  intro s
  induction s with
  | nil =>
    intro pos h
    by_cases hn : needle = []
    · subst hn; simp
    · simp [find, hn] at h
  | cons c cs ih =>
    intro pos h
    rw [find] at h
    by_cases hp : needle.isPrefixOf (c :: cs) = true
    · simp only [hp, if_true, Option.some.injEq] at h
      subst h
      obtain ⟨t, ht⟩ := List.isPrefixOf_iff_prefix.mp hp
      simp only [List.take_zero, List.nil_append, Nat.zero_add]
      conv_lhs => rw [← ht]
      rw [← ht, List.drop_left]
    · simp only [hp, Bool.false_eq_true, if_false, Option.map_eq_some'] at h
      obtain ⟨p, hfind, rfl⟩ := h
      have := ih p hfind
      simp only [List.take_succ_cons, List.cons_append, Nat.add_right_comm p 1, List.drop_succ_cons]
      rw [List.cons_inj_right]
      simpa using this

/-! ## Loop detection -/

theorem comma_isPrefixOf_cons_cons (c d : Char) (rest : Str) :
    comma.isPrefixOf (c :: d :: rest) = true ↔ c = ',' ∧ d = ' ' := by
  have hc : comma = [',', ' '] := by decide
  rw [hc]
  simp only [List.isPrefixOf, Bool.and_true, Bool.and_eq_true, beq_iff_eq]
  constructor <;> rintro ⟨h1, h2⟩ <;> exact ⟨h1.symm, h2.symm⟩

theorem find_comma_nil : find comma [] = none := by decide

theorem find_comma_singleton (c : Char) : find comma [c] = none := by
  have hc : comma = [',', ' '] := by decide
  simp [find, hc, List.isPrefixOf]

theorem chainElements_ne_nil : ∀ s : Str, chainElements s ≠ [] := by
  intro s
  induction s using chainElements.induct with
  | case1 => simp [chainElements]
  | case2 c => simp [chainElements]
  | case3 c d rest hcd ih => simp [chainElements, hcd]
  | case4 c d rest hcd hnil ih => simp [chainElements, hcd, hnil]
  | case5 c d rest hcd e es hes ih => simp [chainElements, hcd, hes]

theorem chainElements_find_some :
    ∀ (s : Str) (pos : Nat), find comma s = some pos →
      chainElements s = s.take pos :: chainElements (s.drop (pos + comma.length)) := by
  intro s
  induction s using chainElements.induct with
  | case1 => intro pos h; simp [find_comma_nil] at h
  | case2 c => intro pos h; simp [find_comma_singleton] at h
  | case3 c d rest hcd ih =>
    intro pos h
    have hp := (comma_isPrefixOf_cons_cons c d rest).mpr hcd
    rw [find] at h
    simp only [hp, if_true, Option.some.injEq] at h
    subst h
    have hl : comma.length = 2 := by decide
    simp [chainElements, hcd, hl]
  | case4 c d rest hcd hnil ih =>
    exact absurd hnil (chainElements_ne_nil _)
  | case5 c d rest hcd e es hes ih =>
    intro pos h
    have hp : ¬ comma.isPrefixOf (c :: d :: rest) = true :=
      fun hp => hcd ((comma_isPrefixOf_cons_cons c d rest).mp hp)
    rw [find] at h
    simp only [hp, Bool.false_eq_true, if_false, Option.map_eq_some'] at h
    obtain ⟨p, hfind, rfl⟩ := h
    have := ih p hfind
    rw [hes] at this
    simp only [List.cons.injEq] at this
    obtain ⟨rfl, rfl⟩ := this
    rw [chainElements]
    simp only [hcd, if_false, hes]
    simp [Nat.add_right_comm p 1]

theorem chainElements_find_none :
    ∀ s : Str, find comma s = none → chainElements s = [s] := by
  intro s
  induction s using chainElements.induct with
  | case1 => intro _; rfl
  | case2 c => intro _; rfl
  | case3 c d rest hcd ih =>
    intro h
    have hp := (comma_isPrefixOf_cons_cons c d rest).mpr hcd
    rw [find] at h
    simp [hp] at h
  | case4 c d rest hcd hnil ih =>
    exact absurd hnil (chainElements_ne_nil _)
  | case5 c d rest hcd e es hes ih =>
    intro h
    have hp : ¬ comma.isPrefixOf (c :: d :: rest) = true :=
      fun hp => hcd ((comma_isPrefixOf_cons_cons c d rest).mp hp)
    rw [find] at h
    simp only [hp, Bool.false_eq_true, if_false, Option.map_eq_none'] at h
    have := ih h
    rw [hes] at this
    simp only [List.cons.injEq] at this
    rw [chainElements]
    simp [hcd, hes, this.1, this.2]

/-- What the scan of `containsLoop` computes: whether the client address is one of the
elements of the chain other than the last one. -/
theorem containsLoopScan_iff (clientip : Str) :
    ∀ (fuel : Nat) (ips : Str), ips.length < fuel →
      (containsLoopScan clientip fuel ips = true ↔ clientip ∈ (chainElements ips).dropLast) := by
  intro fuel
  induction fuel with
  | zero => intro ips h; omega
  | succ fuel ih =>
    intro ips hlen
    rw [containsLoopScan]
    cases hf : find comma ips with
    | none =>
      simp [chainElements_find_none ips hf]
    | some pos =>
      have hsplit := find_some_split comma ips pos hf
      have hl : comma.length = 2 := by decide
      have hlen' : (ips.drop (pos + comma.length)).length < fuel := by
        have := congrArg List.length hsplit
        simp only [List.length_append, hl] at this
        rw [hl]
        omega
      have hne := chainElements_ne_nil (ips.drop (pos + comma.length))
      simp only [chainElements_find_some ips pos hf, substr0, erase0,
        List.dropLast_cons_of_ne_nil hne, List.mem_cons]
      by_cases hc : clientip = List.take pos ips
      · simp [hc]
      · simp only [hc, if_false, false_or]
        exact ih _ hlen'

/-! ## Stream primitives -/

theorem span_ne_newline (line rest : Str) (h : '\n' ∉ line) :
    (line ++ '\n' :: rest).span (fun c => c != '\n') = (line, '\n' :: rest) := by
  rw [List.span_eq_take_drop]
  have hp : ∀ a ∈ line, (fun c => c != '\n') a = true := by
    intro a ha
    have : a ≠ '\n' := fun e => h (e ▸ ha)
    simpa using this
  rw [List.takeWhile_append_of_pos hp, List.dropWhile_append_of_pos hp]
  simp [List.takeWhile, List.dropWhile]

theorem getline_crlf (line rest : Str) (h : '\n' ∉ line) :
    getline ⟨line ++ crlf ++ rest, true⟩ = (line ++ ['\r'], ⟨rest, true⟩) := by
  have hl : '\n' ∉ line ++ ['\r'] := by simp [h]
  have e : line ++ crlf ++ rest = (line ++ ['\r']) ++ '\n' :: rest := by simp [crlf]
  simp only [getline, e, span_ne_newline _ rest hl]
  rfl

theorem read_exact (data rest : Str) (n : Nat) (h : n = data.length) :
    read ⟨data ++ rest, true⟩ n = (data, ⟨rest, true⟩) := by
  subst h
  simp [read]

/-! ## Chunked ingestion on a complete body -/

theorem length_le_wireChunks (cs : List WireChunk) : cs.length ≤ (wireChunks cs).length := by
  induction cs with
  | nil => simp
  | cons c cs ih =>
    simp only [wireChunks, WireChunk.wire, crlf, List.length_cons, List.length_append]
    omega

/-- The loop on a complete chunked body, whatever the spelling of its chunk-size lines:
each chunk-size line is stored trimmed and followed by CRLF, the data and its CRLF are
stored as read, and the whole body is extracted from the stream. -/
theorem ingestChunkedLoop_body (last rest : Str) (hlast : AnnouncesSize last 0) :
    ∀ (cs : List WireChunk) (fuel : Nat) (p : HTTPPayload) (sizes : List Nat),
      (∀ c ∈ cs, c.Framed) → cs.length < fuel →
      ingestChunkedLoop fuel p ⟨chunkedBody cs last ++ rest, true⟩ sizes
        = (⟨p.payload ++ (storedChunks cs ++ (trim (last ++ ['\r']) ++ crlf ++ crlf))⟩,
           ⟨rest, true⟩, sizes ++ (cs.map (fun c => c.data.length) ++ [0])) := by
  intro cs
  induction cs with
  | nil =>
    intro fuel p sizes _ hfuel
    obtain ⟨f, rfl⟩ : ∃ f, fuel = f + 1 := ⟨fuel - 1, by simp at hfuel; omega⟩
    have e : chunkedBody [] last ++ rest = last ++ crlf ++ (crlf ++ rest) := by
      simp [chunkedBody, wireChunks]
    have hr : read ⟨crlf ++ rest, true⟩ 2 = (crlf, ⟨rest, true⟩) := read_exact crlf rest 2 rfl
    rw [ingestChunkedLoop, e, getline_crlf _ _ hlast.1]
    simp only [hlast.2, if_true, hr]
    simp [HTTPPayload.appendData, storedChunks, hr]
  | cons c cs ih =>
    intro fuel p sizes hall hfuel
    obtain ⟨f, rfl⟩ : ∃ f, fuel = f + 1 := ⟨fuel - 1, by simp at hfuel; omega⟩
    have hc : c.Framed := hall c (by simp)
    have hcs : ∀ d ∈ cs, d.Framed := fun d hd => hall d (by simp [hd])
    have hf : cs.length < f := by simpa using hfuel
    obtain ⟨⟨hnl, hsize⟩, hne, hfit⟩ := hc
    have e : chunkedBody (c :: cs) last ++ rest
        = c.sizeLine ++ crlf ++ ((c.data ++ crlf) ++ (chunkedBody cs last ++ rest)) := by
      simp [chunkedBody, wireChunks, WireChunk.wire]
    have hpos : c.data.length ≠ 0 := by
      intro h0; exact hne (List.length_eq_zero.mp h0)
    have hmod : (c.data.length + 2) % 2 ^ 64 = (c.data ++ crlf).length := by
      rw [Nat.mod_eq_of_lt hfit]; simp [crlf]
    rw [ingestChunkedLoop, e, getline_crlf _ _ hnl]
    simp only [hsize, hpos, if_false, hmod, read_exact (c.data ++ crlf) _ _ rfl]
    rw [ih f _ _ hcs hf]
    simp [HTTPPayload.appendData, storedChunks, WireChunk.stored]

theorem ingestChunkedTrace_body (cs : List WireChunk) (last rest : Str) (p : HTTPPayload)
    (hcs : ∀ c ∈ cs, c.Framed) (hlast : AnnouncesSize last 0) :
    ingestChunkedTrace p ⟨chunkedBody cs last ++ rest, true⟩
      = (⟨p.payload ++ (storedChunks cs ++ (trim (last ++ ['\r']) ++ crlf ++ crlf))⟩,
         ⟨rest, true⟩, cs.map (fun c => c.data.length) ++ [0]) := by
  have hfuel : cs.length < (chunkedBody cs last ++ rest).length + 1 := by
    have := length_le_wireChunks cs
    simp only [chunkedBody, List.length_append]
    omega
  have := ingestChunkedLoop_body last rest hlast cs _ p [] hcs hfuel
  simpa [ingestChunkedTrace] using this

/-- A line without whitespace around it comes back unchanged from `getline` and `trim`:
the carriage return left by `getline` is all that `trim` removes. -/
theorem trim_of_unpadded (line : Str) (h : Unpadded line) : trim (line ++ ['\r']) = line := by
  cases line with
  | nil => decide
  | cons a t =>
    obtain ⟨hs, he⟩ := h
    have ha : isspace a = false := by simpa [startsWithSpace] using hs
    have h1 : (a :: t ++ ['\r']).dropWhile isspace = a :: t ++ ['\r'] := by
      simp [List.dropWhile, ha]
    have h2 : (a :: t ++ ['\r']).reverse = '\r' :: (a :: t).reverse := by simp
    have h3 : ('\r' :: (a :: t).reverse).dropWhile isspace = (a :: t).reverse := by
      have hr : isspace '\r' = true := by decide
      rw [List.dropWhile_cons_of_pos hr]
      cases hrev : (a :: t).reverse with
      | nil => simp
      | cons x xs =>
        have hx : (a :: t).getLast? = some x := by
          rw [← List.head?_reverse, hrev]; rfl
        have hxs : isspace x = false := by
          simpa [endsWithSpace, hx] using he
        simp [List.dropWhile, hxs]
    rw [trim, h1, h2, h3, List.reverse_reverse]

theorem storedChunks_of_unpadded (cs : List WireChunk) (h : ∀ c ∈ cs, Unpadded c.sizeLine) :
    storedChunks cs = wireChunks cs := by
  induction cs with
  | nil => rfl
  | cons c cs ih =>
    have hc : Unpadded c.sizeLine := h c (by simp)
    have hcs : ∀ d ∈ cs, Unpadded d.sizeLine := fun d hd => h d (by simp [hd])
    simp only [storedChunks, wireChunks, WireChunk.stored, WireChunk.wire, ih hcs]
    rw [trim_of_unpadded c.sizeLine hc]

/-! ## Canonical chunk-size lines -/

theorem toDigitsCore_append (b : Nat) :
    ∀ (fuel n : Nat) (ds : Str),
      Nat.toDigitsCore b fuel n ds = Nat.toDigitsCore b fuel n [] ++ ds := by
  intro fuel
  induction fuel with
  | zero => intro n ds; simp [Nat.toDigitsCore]
  | succ fuel ih =>
    intro n ds
    simp only [Nat.toDigitsCore]
    by_cases h : n / b = 0
    · simp [h]
    · simp only [h, if_false]
      rw [ih (n / b) (Nat.digitChar (n % b) :: ds), ih (n / b) [Nat.digitChar (n % b)]]
      simp

theorem digitChar_hex :
    ∀ d, d < 16 → hexDigitValue (Nat.digitChar d) = some d ∧ isspace (Nat.digitChar d) = false ∧
      Nat.digitChar d ≠ '\n' := by
  decide

theorem hexValue_append_singleton (s : Str) (c : Char) :
    hexValue (s ++ [c]) = 16 * hexValue s + (hexDigitValue c).getD 0 := by
  simp [hexValue, List.foldl_append]

/-- A non-empty run of hexadecimal digits of value `n`. -/
theorem toDigitsCore_hex :
    ∀ (fuel n : Nat), n < fuel →
      (∀ c ∈ Nat.toDigitsCore 16 fuel n [], isxdigit c = true ∧ isspace c = false ∧ c ≠ '\n') ∧
      hexValue (Nat.toDigitsCore 16 fuel n []) = n ∧ Nat.toDigitsCore 16 fuel n [] ≠ [] := by
  intro fuel
  induction fuel with
  | zero => intro n h; omega
  | succ fuel ih =>
    intro n hn
    have hd := digitChar_hex (n % 16) (Nat.mod_lt _ (by decide))
    simp only [Nat.toDigitsCore]
    by_cases h : n / 16 = 0
    · simp only [h, if_true]
      refine ⟨?_, ?_, by simp⟩
      · intro c hc
        simp only [List.mem_singleton] at hc
        subst hc
        exact ⟨by simp [isxdigit, hd.1], hd.2.1, hd.2.2⟩
      · have hmod : n % 16 = n := Nat.mod_eq_of_lt (by omega)
        have hd1 := hd.1
        rw [hmod] at hd1
        simp [hexValue, hd1, hmod]
    · simp only [h, if_false]
      rw [toDigitsCore_append]
      have hlt : n / 16 < fuel := by omega
      obtain ⟨h1, h2, _⟩ := ih (n / 16) hlt
      refine ⟨?_, ?_, by simp⟩
      · intro c hc
        simp only [List.mem_append, List.mem_singleton] at hc
        rcases hc with hc | hc
        · exact h1 c hc
        · subst hc
          exact ⟨by simp [isxdigit, hd.1], hd.2.1, hd.2.2⟩
      · rw [hexValue_append_singleton, h2, hd.1]
        simp only [Option.getD_some]
        omega

theorem hex_spec (n : Nat) :
    (∀ c ∈ hex n, isxdigit c = true ∧ isspace c = false ∧ c ≠ '\n') ∧
      hexValue (hex n) = n ∧ hex n ≠ [] :=
  toDigitsCore_hex (n + 1) n (Nat.lt_succ_self n)

theorem strtoul16_hexRun (s : Str) (hs : ∀ c ∈ s, isxdigit c = true) (hne : s ≠ [])
    (hfit : hexValue s ≤ kULongMax) : strtoul16 ("0x".toList ++ s) = hexValue s := by
  cases s with
  | nil => exact absurd rfl hne
  | cons d r =>
    have hd : isxdigit d = true := hs d (by simp)
    have e : "0x".toList ++ d :: r = '0' :: 'x' :: d :: r := rfl
    have h0 : isspace '0' = false := by decide
    have htw : (d :: r).takeWhile isxdigit = d :: r := by
      rw [List.takeWhile_eq_self_iff]
      intro c hc; exact hs c hc
    rw [e, strtoul16]
    simp only [List.dropWhile, h0]
    simp [hd, htw, Nat.not_lt.mpr hfit]

theorem unpadded_of_no_space (s : Str) (h : ∀ c ∈ s, isspace c = false) : Unpadded s := by
  constructor
  · unfold startsWithSpace
    cases hh : s.head? with
    | none => rfl
    | some c => exact h c (List.mem_of_mem_head? hh)
  · unfold endsWithSpace
    cases hl : s.getLast? with
    | none => rfl
    | some c => exact h c (List.mem_of_mem_getLast? hl)

theorem unpadded_hex (n : Nat) : Unpadded (hex n) :=
  unpadded_of_no_space (hex n) (fun c hc => ((hex_spec n).1 c hc).2.1)

theorem announcesSize_hex (n : Nat) (h : n < 2 ^ 64) : AnnouncesSize (hex n) n := by
  obtain ⟨h1, h2, h3⟩ := hex_spec n
  refine ⟨fun hmem => (h1 _ hmem).2.2 rfl, ?_⟩
  rw [trim_of_unpadded (hex n) (unpadded_hex n),
    strtoul16_hexRun (hex n) (fun c hc => (h1 c hc).1) h3 (by rw [h2, kULongMax]; omega), h2]

theorem canonicalChunk_framed (d : Str) (hne : d ≠ []) (hfit : d.length + 2 < 2 ^ 64) :
    (canonicalChunk d).Framed :=
  ⟨announcesSize_hex d.length (by omega), hne, hfit⟩

/-! ## The budget of the chunked loop is never used up -/

theorem getline_buf_length_le (is : IStream) : (getline is).2.buf.length ≤ is.buf.length := by
  unfold getline
  by_cases hg : is.good = true
  · simp only [hg, Bool.not_true, Bool.false_eq_true, if_false]
    have hspan := List.span_eq_take_drop (fun c => c != '\n') is.buf
    cases hs : is.buf.span (fun c => c != '\n') with
    | mk line rest =>
      rw [hs] at hspan
      cases rest with
      | nil => simp
      | cons a rest =>
        simp only [Prod.mk.injEq] at hspan
        have h1 := congrArg List.length (List.takeWhile_append_dropWhile (fun c => c != '\n') is.buf)
        rw [← hspan.2] at h1
        simp only [List.length_append, List.length_cons] at h1
        simp only
        omega
  · simp [hg]

theorem read_buf_length_le (is : IStream) (n : Nat) : (read is n).2.buf.length ≤ is.buf.length := by
  unfold read
  split
  · exact Nat.le_refl _
  · split
    · simp
    · simp

theorem getline_progress (is : IStream) (h : (getline is).1 ≠ []) :
    (getline is).2.buf.length < is.buf.length := by
  unfold getline at h ⊢
  by_cases hg : is.good = true
  · simp only [hg, Bool.not_true, Bool.false_eq_true, if_false] at h ⊢
    have hspan := List.span_eq_take_drop (fun c => c != '\n') is.buf
    have h1 := congrArg List.length (List.takeWhile_append_dropWhile (fun c => c != '\n') is.buf)
    cases hs : is.buf.span (fun c => c != '\n') with
    | mk line rest =>
      rw [hs] at hspan h
      simp only [Prod.mk.injEq] at hspan
      rw [← hspan.1, ← hspan.2] at h1
      simp only [List.length_append] at h1
      cases rest with
      | nil =>
        simp only at h ⊢
        have : 0 < line.length := List.length_pos.mpr h
        simp only [List.length_nil]
        omega
      | cons a rest =>
        simp only [List.length_cons] at h1
        simp only
        omega
  · simp [hg] at h

theorem strtoul16_empty_line : strtoul16 ("0x".toList ++ trim []) = 0 := by decide

/-- An iteration that does not end the loop extracts at least one byte. -/
theorem ingestChunked_step_progress (is : IStream)
    (h : strtoul16 ("0x".toList ++ trim (getline is).1) ≠ 0) (n : Nat) :
    (read (getline is).2 n).2.buf.length < is.buf.length := by
  have hline : (getline is).1 ≠ [] := by
    intro e
    rw [e] at h
    exact h strtoul16_empty_line
  exact Nat.lt_of_le_of_lt (read_buf_length_le _ _) (getline_progress is hline)

/-- Any budget above the number of bytes left in the stream gives the same run. -/
theorem ingestChunkedLoop_fuel_irrelevant :
    ∀ (fuel fuel' : Nat) (p : HTTPPayload) (is : IStream) (sizes : List Nat),
      is.buf.length < fuel → is.buf.length < fuel' →
      ingestChunkedLoop fuel p is sizes = ingestChunkedLoop fuel' p is sizes := by
  intro fuel
  induction fuel with
  | zero => intro fuel' p is sizes h; omega
  | succ fuel ih =>
    intro fuel' p is sizes h h'
    obtain ⟨f', rfl⟩ : ∃ f', fuel' = f' + 1 := ⟨fuel' - 1, by omega⟩
    rw [ingestChunkedLoop, ingestChunkedLoop]
    by_cases hz : strtoul16 ("0x".toList ++ trim (getline is).1) = 0
    · simp only [hz, if_true]
    · simp only [hz, if_false]
      have hprog := ingestChunked_step_progress is hz
        ((strtoul16 ("0x".toList ++ trim (getline is).1) + 2) % 2 ^ 64)
      exact ih f' _ _ _ (by omega) (by omega)

theorem strtoul16_not_hex (t : Str) (h : ∀ c, t.head? = some c → isxdigit c = false) :
    strtoul16 ("0x".toList ++ t) = 0 := by
  cases t with
  | nil => decide
  | cons c r =>
    have hc : isxdigit c = false := h c rfl
    have e : "0x".toList ++ c :: r = '0' :: 'x' :: c :: r := rfl
    have h0 : isspace '0' = false := by decide
    have hx : isxdigit 'x' = false := by decide
    have hz : isxdigit '0' = true := by decide
    rw [e, strtoul16]
    simp only [List.dropWhile, h0]
    simp [hc, List.takeWhile, hx, hz, hexValue, hexDigitValue]

theorem getline_lf (line rest : Str) (h : '\n' ∉ line) :
    getline ⟨line ++ '\n' :: rest, true⟩ = (line, ⟨rest, true⟩) := by
  simp only [getline, span_ne_newline _ rest h]
  rfl

/-! ## Claims on loop detection -/

/-- C1. `containsLoop` does not return true for every chain that holds the client's
address: at the chain `"203.0.113.9, 10.0.0.5"` and the client address `"10.0.0.5"` the
address is an element of the chain, namely the last one, and `containsLoop` returns false.
The scan compares only the elements that are followed by a separator. -/
theorem containsLoop_misses_last_element :
    "10.0.0.5".toList ∈ chainElements "203.0.113.9, 10.0.0.5".toList ∧
    (chainRequest "203.0.113.9, 10.0.0.5".toList "10.0.0.5".toList).containsName ff = true ∧
    containsLoop (chainRequest "203.0.113.9, 10.0.0.5".toList "10.0.0.5".toList) = false := by
  decide

/-- C2. `containsLoop` returns true only if the `x-forwarded-for` header is present and the
client's address is one of the `", "`-separated elements of its value; it returns false for
every request without the header, and false for the chain `"203.0.113.9, 10.0.0.5"` with
the client address `"10.0.0.6"`. -/
theorem containsLoop_true_only_if (request : HTTPRequest) :
    (containsLoop request = true →
      request.containsName ff = true ∧
      request.getip ∈ chainElements (request.getHeader.getValueAsString ff)) ∧
    (request.containsName ff = false → containsLoop request = false) ∧
    containsLoop (chainRequest "203.0.113.9, 10.0.0.5".toList "10.0.0.6".toList) = false := by
  refine ⟨?_, ?_, by decide⟩
  · intro h
    unfold containsLoop at h
    by_cases hn : request.containsName ff = true
    · refine ⟨hn, ?_⟩
      simp only [hn, Bool.not_true, Bool.false_eq_true, if_false] at h
      have := (containsLoopScan_iff request.getip _ _ (Nat.lt_succ_self _)).mp h
      exact List.mem_of_mem_dropLast this
    · simp [hn] at h
  · intro hn
    simp [containsLoop, hn]

/-- C2, at a request whose chain names the client before a separator, and at a request
without a chain. -/
theorem containsLoop_true_only_if_witness :
    (containsLoop (chainRequest "10.0.0.5, 203.0.113.9".toList "10.0.0.5".toList) = true ∧
      (chainRequest "10.0.0.5, 203.0.113.9".toList "10.0.0.5".toList).containsName ff = true ∧
      "10.0.0.5".toList ∈ chainElements "10.0.0.5, 203.0.113.9".toList) ∧
    ((plainRequest "10.0.0.5".toList).containsName ff = false ∧
      containsLoop (plainRequest "10.0.0.5".toList) = false) :=
  ⟨⟨by decide,
    (containsLoop_true_only_if
      (chainRequest "10.0.0.5, 203.0.113.9".toList "10.0.0.5".toList)).1 (by decide)⟩,
   ⟨by decide, (containsLoop_true_only_if (plainRequest "10.0.0.5".toList)).2.1 (by decide)⟩⟩

/-! ## Claims on payload ingestion -/

/-- C3, as stated, fails: `paddedBody` is a complete chunked body (its chunk-size lines
announce 4 and 0 bytes, and `ingestChunkedPayload` extracts all of it, parsing the sizes 4
and 0), but the payload stored is not the sequence of bytes extracted: the blank after the
`4` is dropped. -/
theorem ingestChunkedPayload_padded_not_verbatim :
    paddedBody = "4 \r\nWiki\r\n0\r\n\r\n".toList ∧
    (∀ c ∈ [(⟨"4 ".toList, "Wiki".toList⟩ : WireChunk)], c.Framed) ∧
    AnnouncesSize "0".toList 0 ∧
    chunkSizes ⟨[]⟩ ⟨paddedBody, true⟩ = [4, 0] ∧
    (HTTPPayload.ingestChunkedPayload ⟨[]⟩ ⟨paddedBody, true⟩).2 = ⟨[], true⟩ ∧
    consumed ⟨paddedBody, true⟩ (HTTPPayload.ingestChunkedPayload ⟨[]⟩ ⟨paddedBody, true⟩).2
      = paddedBody ∧
    (HTTPPayload.ingestChunkedPayload ⟨[]⟩ ⟨paddedBody, true⟩).1.payload
      = "4\r\nWiki\r\n0\r\n\r\n".toList ∧
    (HTTPPayload.ingestChunkedPayload ⟨[]⟩ ⟨paddedBody, true⟩).1.payload
      ≠ consumed ⟨paddedBody, true⟩ (HTTPPayload.ingestChunkedPayload ⟨[]⟩ ⟨paddedBody, true⟩).2 := by
  decide

/-- C3, amended. For every input stream that holds a complete chunked body whose chunk-size
lines carry no whitespace before or after them and end in CRLF, whatever their spelling
otherwise, `ingestChunkedPayload` extracts exactly the body and appends exactly the
extracted bytes to the payload, the zero-size chunk and final CRLF included; writing the
payload replays them. -/
theorem ingestChunkedPayload_stores_consumed (cs : List WireChunk) (last rest : Str)
    (p : HTTPPayload)
    (hcs : ∀ c ∈ cs, c.Framed ∧ Unpadded c.sizeLine)
    (hlast : AnnouncesSize last 0 ∧ Unpadded last) :
    (p.ingestChunkedPayload ⟨chunkedBody cs last ++ rest, true⟩).2 = ⟨rest, true⟩ ∧
    consumed ⟨chunkedBody cs last ++ rest, true⟩
        (p.ingestChunkedPayload ⟨chunkedBody cs last ++ rest, true⟩).2 = chunkedBody cs last ∧
    (p.ingestChunkedPayload ⟨chunkedBody cs last ++ rest, true⟩).1.payload
      = p.payload ++ consumed ⟨chunkedBody cs last ++ rest, true⟩
          (p.ingestChunkedPayload ⟨chunkedBody cs last ++ rest, true⟩).2 ∧
    HTTPPayload.write [] (p.ingestChunkedPayload ⟨chunkedBody cs last ++ rest, true⟩).1
      = p.payload ++ chunkedBody cs last := by
  have htrace := ingestChunkedTrace_body cs last rest p (fun c hc => (hcs c hc).1) hlast.1
  have hstored := storedChunks_of_unpadded cs (fun c hc => (hcs c hc).2)
  have hl : trim (last ++ ['\r']) = last := trim_of_unpadded last hlast.2
  have hcons : consumed ⟨chunkedBody cs last ++ rest, true⟩ ⟨rest, true⟩ = chunkedBody cs last := by
    simp [consumed]
  simp only [HTTPPayload.ingestChunkedPayload, htrace, hcons, hstored, hl, HTTPPayload.write]
  simp [chunkedBody]

/-- C3, amended, at a body with chunk-size lines `004`, `A` and `5;name=value`, followed by
further bytes in the stream. -/
theorem ingestChunkedPayload_stores_consumed_witness :
    (HTTPPayload.ingestChunkedPayload ⟨[]⟩
        ⟨chunkedBody spelledChunks "0".toList ++ "GET".toList, true⟩).2 = ⟨"GET".toList, true⟩ ∧
    consumed ⟨chunkedBody spelledChunks "0".toList ++ "GET".toList, true⟩
        (HTTPPayload.ingestChunkedPayload ⟨[]⟩
          ⟨chunkedBody spelledChunks "0".toList ++ "GET".toList, true⟩).2
      = chunkedBody spelledChunks "0".toList ∧
    (HTTPPayload.ingestChunkedPayload ⟨[]⟩
        ⟨chunkedBody spelledChunks "0".toList ++ "GET".toList, true⟩).1.payload
      = [] ++ consumed ⟨chunkedBody spelledChunks "0".toList ++ "GET".toList, true⟩
          (HTTPPayload.ingestChunkedPayload ⟨[]⟩
            ⟨chunkedBody spelledChunks "0".toList ++ "GET".toList, true⟩).2 ∧
    HTTPPayload.write [] (HTTPPayload.ingestChunkedPayload ⟨[]⟩
        ⟨chunkedBody spelledChunks "0".toList ++ "GET".toList, true⟩).1
      = [] ++ chunkedBody spelledChunks "0".toList :=
  ingestChunkedPayload_stores_consumed spelledChunks "0".toList "GET".toList ⟨[]⟩
    (by decide) (by decide)

theorem map_canonicalChunk_sizes (chunks : List Str) :
    (chunks.map canonicalChunk).map (fun c => c.data.length) = chunks.map List.length := by
  simp [canonicalChunk, Function.comp_def]

/-- C4. For every list of non-empty chunks (each fitting a `size_t` together with its
CRLF), ingesting the canonical encoding
`hex(|c1|) CRLF c1 CRLF ... hex(|cn|) CRLF cn CRLF "0" CRLF CRLF` with
`ingestChunkedPayload` stores exactly that encoding as the payload, writing the payload
replays the wire bytes, and the chunk sizes parsed sum to `|c1| + ... + |cn|`. -/
theorem ingestChunkedPayload_canonical (chunks : List Str) (rest : Str)
    (hne : ∀ c ∈ chunks, c ≠ [])
    (hfit : ∀ c ∈ chunks, c.length + 2 < 2 ^ 64) :
    HTTPPayload.ingestChunkedPayload ⟨[]⟩ ⟨canonicalEncoding chunks ++ rest, true⟩
      = (⟨canonicalEncoding chunks⟩, ⟨rest, true⟩) ∧
    HTTPPayload.write []
        (HTTPPayload.ingestChunkedPayload ⟨[]⟩ ⟨canonicalEncoding chunks ++ rest, true⟩).1
      = canonicalEncoding chunks ∧
    (chunkSizes ⟨[]⟩ ⟨canonicalEncoding chunks ++ rest, true⟩).sum
      = (chunks.map List.length).sum := by
  have hcs : ∀ c ∈ chunks.map canonicalChunk, c.Framed := by
    intro c hc
    obtain ⟨d, hd, rfl⟩ := List.mem_map.mp hc
    exact canonicalChunk_framed d (hne d hd) (hfit d hd)
  have hun : ∀ c ∈ chunks.map canonicalChunk, Unpadded c.sizeLine := by
    intro c hc
    obtain ⟨d, _, rfl⟩ := List.mem_map.mp hc
    exact unpadded_hex d.length
  have hlast : AnnouncesSize ['0'] 0 := by decide
  have hl : trim (['0'] ++ ['\r']) = ['0'] := by decide
  have htrace := ingestChunkedTrace_body (chunks.map canonicalChunk) ['0'] rest ⟨[]⟩ hcs hlast
  rw [storedChunks_of_unpadded _ hun, hl, map_canonicalChunk_sizes] at htrace
  have hbody : ([] : Str) ++ (wireChunks (chunks.map canonicalChunk) ++ (['0'] ++ crlf ++ crlf))
      = canonicalEncoding chunks := by
    simp [canonicalEncoding, chunkedBody]
  rw [hbody] at htrace
  have hpay : HTTPPayload.ingestChunkedPayload ⟨[]⟩ ⟨canonicalEncoding chunks ++ rest, true⟩
      = (⟨canonicalEncoding chunks⟩, ⟨rest, true⟩) := by
    simp only [HTTPPayload.ingestChunkedPayload, canonicalEncoding] at htrace ⊢
    rw [htrace]
  refine ⟨hpay, ?_, ?_⟩
  · rw [hpay]; simp [HTTPPayload.write]
  · simp only [chunkSizes, canonicalEncoding] at htrace ⊢
    rw [htrace]
    simp

/-- C4 at the chunks `Wiki` and `pedia`: `"4\r\nWiki\r\n5\r\npedia\r\n0\r\n\r\n"` is stored
unchanged and its chunk sizes sum to 9. -/
theorem ingestChunkedPayload_canonical_witness :
    canonicalEncoding ["Wiki".toList, "pedia".toList]
      = "4\r\nWiki\r\n5\r\npedia\r\n0\r\n\r\n".toList ∧
    (["Wiki".toList, "pedia".toList].map List.length).sum = 9 ∧
    (HTTPPayload.ingestChunkedPayload ⟨[]⟩
        ⟨canonicalEncoding ["Wiki".toList, "pedia".toList] ++ [], true⟩
      = (⟨canonicalEncoding ["Wiki".toList, "pedia".toList]⟩, ⟨[], true⟩) ∧
    HTTPPayload.write []
        (HTTPPayload.ingestChunkedPayload ⟨[]⟩
          ⟨canonicalEncoding ["Wiki".toList, "pedia".toList] ++ [], true⟩).1
      = canonicalEncoding ["Wiki".toList, "pedia".toList] ∧
    (chunkSizes ⟨[]⟩ ⟨canonicalEncoding ["Wiki".toList, "pedia".toList] ++ [], true⟩).sum
      = (["Wiki".toList, "pedia".toList].map List.length).sum) :=
  ⟨by decide, by decide,
    ingestChunkedPayload_canonical ["Wiki".toList, "pedia".toList] [] (by decide) (by decide)⟩

/-- C5. For every header that is not marked chunked and has Content-Length `N`, and every
readable input stream holding at least `N` bytes (`N` a `size_t`), `ingestPayload` appends
exactly the next `N` bytes of the stream to the payload and extracts exactly those `N`
bytes; on a fresh payload the payload is those `N` bytes and has length `N`. -/
theorem ingestPayload_content_length (header : HTTPHeader) (N : Nat) (is : IStream)
    (p : HTTPPayload)
    (hchunked : isChunkedPayload header = false)
    (hlen : header.getValueAsNumber "Content-Length".toList = .ok N)
    (hgood : is.good = true) (hholds : N ≤ is.buf.length) (hfit : N < 2 ^ 64) :
    p.ingestPayload header is = .ok (⟨p.payload ++ is.buf.take N⟩, ⟨is.buf.drop N, true⟩) ∧
    HTTPPayload.ingestPayload ⟨[]⟩ header is = .ok (⟨is.buf.take N⟩, ⟨is.buf.drop N, true⟩) ∧
    (is.buf.take N).length = N ∧
    consumed is ⟨is.buf.drop N, true⟩ = is.buf.take N := by
  have key : ∀ q : HTTPPayload,
      q.ingestPayload header is = .ok (⟨q.payload ++ is.buf.take N⟩, ⟨is.buf.drop N, true⟩) := by
    intro q
    simp only [HTTPPayload.ingestPayload, hchunked, Bool.false_eq_true, if_false, hlen,
      Nat.mod_eq_of_lt hfit, HTTPPayload.ingestCompletePayload, read, hgood, Bool.not_true,
      hholds, if_true, HTTPPayload.appendData]
  refine ⟨key p, by simpa using key ⟨[]⟩, by simp [hholds], ?_⟩
  simp only [consumed, List.length_drop]
  congr 1
  omega

/-- C5 at `Content-Length: 3` and a stream holding `abcde`. -/
theorem ingestPayload_content_length_witness :
    HTTPPayload.ingestPayload ⟨"x".toList⟩ (lengthHeader "3".toList) ⟨"abcde".toList, true⟩
      = .ok (⟨"x".toList ++ "abcde".toList.take 3⟩, ⟨"abcde".toList.drop 3, true⟩) ∧
    HTTPPayload.ingestPayload ⟨[]⟩ (lengthHeader "3".toList) ⟨"abcde".toList, true⟩
      = .ok (⟨"abcde".toList.take 3⟩, ⟨"abcde".toList.drop 3, true⟩) ∧
    ("abcde".toList.take 3).length = 3 ∧
    consumed ⟨"abcde".toList, true⟩ ⟨"abcde".toList.drop 3, true⟩ = "abcde".toList.take 3 :=
  ingestPayload_content_length (lengthHeader "3".toList) 3 ⟨"abcde".toList, true⟩ ⟨"x".toList⟩
    (by decide) rfl rfl (by decide) (by decide)

/-- C6, as stated, fails: with a chunked header, a stream whose first chunk-size line is
`zz` and a stream that ends in the middle of a chunk are both ingested without an error.
The line `zz` is read as size zero and ends the body; the missing bytes of the cut chunk
are stored as NUL bytes. -/
theorem ingestPayload_accepts_malformed_chunked :
    HTTPPayload.ingestPayload ⟨[]⟩ chunkedHeader ⟨"zz\r\nWiki\r\n0\r\n\r\n".toList, true⟩
      = .ok (⟨"zz\r\n\r\n".toList⟩, ⟨"ki\r\n0\r\n\r\n".toList, true⟩) ∧
    HTTPPayload.ingestPayload ⟨[]⟩ chunkedHeader ⟨"4\r\nWi".toList, true⟩
      = .ok (⟨"4\r\nWi\x00\x00\x00\x00\r\n\r\n".toList⟩, ⟨[], false⟩) :=
  ⟨rfl, rfl⟩

/-- C6, amended. Malformed chunked framing of these two kinds is accepted without a framing
error: for a message marked chunked, a first chunk-size line that does not begin with a
hexadecimal digit is read as size zero, so `ingestPayload` returns normally with the trimmed
line and two CRLF stored and the two bytes after the line consumed; and when the stream has
nothing left where a chunk-size line is expected, `ingestPayload` returns normally with two
CRLF stored. -/
theorem ingestChunkedPayload_reports_no_error (p : HTTPPayload) (header : HTTPHeader)
    (is : IStream) (hchunked : isChunkedPayload header = true) :
    (∀ line rest : Str, is = ⟨line ++ '\n' :: rest, true⟩ → '\n' ∉ line →
      (∀ c, (trim line).head? = some c → isxdigit c = false) →
      p.ingestPayload header is
        = .ok (⟨p.payload ++ trim line ++ crlf ++ crlf⟩, (read ⟨rest, true⟩ 2).2)) ∧
    (is.buf = [] →
      p.ingestPayload header is = .ok (⟨p.payload ++ crlf ++ crlf⟩, ⟨[], false⟩)) := by
  have hmode : p.ingestPayload header is = .ok (p.ingestChunkedPayload is) := by
    simp [HTTPPayload.ingestPayload, hchunked]
  rw [hmode]
  refine ⟨?_, ?_⟩
  · intro line rest his hnl hhex
    subst his
    have hz := strtoul16_not_hex (trim line) hhex
    simp only [HTTPPayload.ingestChunkedPayload, ingestChunkedTrace, ingestChunkedLoop,
      getline_lf line rest hnl, hz, if_true, HTTPPayload.appendData]
    simp
  · intro hbuf
    obtain ⟨buf, good⟩ := is
    simp only at hbuf
    subst hbuf
    cases good <;> rfl

/-- C6, amended, at the chunk-size line `zz` and at an empty stream. -/
theorem ingestChunkedPayload_reports_no_error_witness :
    HTTPPayload.ingestPayload ⟨[]⟩ chunkedHeader ⟨"zz\r".toList ++ '\n' :: "Wiki".toList, true⟩
        = .ok (⟨[] ++ trim "zz\r".toList ++ crlf ++ crlf⟩, (read ⟨"Wiki".toList, true⟩ 2).2) ∧
    HTTPPayload.ingestPayload ⟨[]⟩ chunkedHeader ⟨[], true⟩
        = .ok (⟨[] ++ crlf ++ crlf⟩, ⟨[], false⟩) :=
  ⟨(ingestChunkedPayload_reports_no_error ⟨[]⟩ chunkedHeader
        ⟨"zz\r".toList ++ '\n' :: "Wiki".toList, true⟩ (by decide)).1
      "zz\r".toList "Wiki".toList rfl (by decide) (by decide),
   (ingestChunkedPayload_reports_no_error ⟨[]⟩ chunkedHeader ⟨[], true⟩ (by decide)).2 rfl⟩

/-! ## Patterns: matching by derivatives decides membership in the language -/

theorem Regex.matches_nothing (s : Str) : ¬ Regex.Matches .nothing s := by
  intro h; cases h

theorem Regex.matches_epsilon (s : Str) : Regex.Matches .epsilon s ↔ s = [] := by
  constructor
  · intro h; cases h; rfl
  · rintro rfl; exact .epsilon

theorem Regex.matches_char (c : Char) (s : Str) : Regex.Matches (.char c) s ↔ s = [c] := by
  constructor
  · intro h; cases h; rfl
  · rintro rfl; exact .char c

theorem Regex.matches_any (s : Str) :
    Regex.Matches .any s ↔ ∃ c, isDotChar c = true ∧ s = [c] := by
  constructor
  · intro h; cases h with
    | any c hc => exact ⟨c, hc, rfl⟩
  · rintro ⟨c, hc, rfl⟩; exact .any c hc

theorem Regex.matches_seq (r t : Regex) (s : Str) :
    Regex.Matches (.seq r t) s ↔ ∃ u v, s = u ++ v ∧ Regex.Matches r u ∧ Regex.Matches t v := by
  constructor
  · intro h; cases h with
    | seq hu hv => exact ⟨_, _, rfl, hu, hv⟩
  · rintro ⟨u, v, rfl, hu, hv⟩; exact .seq hu hv

theorem Regex.matches_alt (r t : Regex) (s : Str) :
    Regex.Matches (.alt r t) s ↔ Regex.Matches r s ∨ Regex.Matches t s := by
  constructor
  · intro h; cases h with
    | altLeft h => exact Or.inl h
    | altRight h => exact Or.inr h
  · rintro (h | h)
    · exact .altLeft h
    · exact .altRight h

theorem Regex.matches_star_cons (r : Regex) (c : Char) (s : Str) :
    Regex.Matches (.star r) (c :: s) ↔
      ∃ u v, s = u ++ v ∧ Regex.Matches r (c :: u) ∧ Regex.Matches (.star r) v := by
  constructor
  · intro h
    generalize hq : Regex.star r = q at h
    generalize hw : c :: s = w at h
    induction h with
    | epsilon => cases hq
    | char => cases hq
    | any => cases hq
    | seq => cases hq
    | altLeft => cases hq
    | altRight => cases hq
    | starNil => cases hw
    | @starCons r' u v hu hv _ ihv =>
      cases hq
      cases u with
      | nil => exact ihv rfl (by simpa using hw)
      | cons a u =>
        simp only [List.cons_append, List.cons.injEq] at hw
        obtain ⟨rfl, rfl⟩ := hw
        exact ⟨u, v, rfl, hu, hv⟩
  · rintro ⟨u, v, rfl, hu, hv⟩
    exact .starCons hu hv

theorem Regex.nullable_iff (r : Regex) : r.nullable = true ↔ Regex.Matches r [] := by
  induction r with
  | nothing => simp [Regex.nullable, Regex.matches_nothing]
  | epsilon => simp [Regex.nullable, Regex.matches_epsilon]
  | char c => simp [Regex.nullable, Regex.matches_char]
  | any => simp [Regex.nullable, Regex.matches_any]
  | seq r t ihr iht =>
    simp only [Regex.nullable, Bool.and_eq_true, ihr, iht, Regex.matches_seq]
    constructor
    · rintro ⟨hr, ht⟩; exact ⟨[], [], rfl, hr, ht⟩
    · rintro ⟨u, v, huv, hr, ht⟩
      have huv' := huv.symm
      rw [List.append_eq_nil] at huv'
      obtain ⟨rfl, rfl⟩ := huv'
      exact ⟨hr, ht⟩
  | alt r t ihr iht =>
    simp only [Regex.nullable, Bool.or_eq_true, ihr, iht, Regex.matches_alt]
  | star r _ =>
    simp only [Regex.nullable, true_iff]
    exact .starNil

theorem Regex.deriv_iff (r : Regex) :
    ∀ (c : Char) (s : Str), Regex.Matches (r.deriv c) s ↔ Regex.Matches r (c :: s) := by
  induction r with
  | nothing => intro c s; simp [Regex.deriv, Regex.matches_nothing]
  | epsilon => intro c s; simp [Regex.deriv, Regex.matches_nothing, Regex.matches_epsilon]
  | char d =>
    intro c s
    by_cases h : d = c
    · subst h; simp [Regex.deriv, Regex.matches_epsilon, Regex.matches_char]
    · have h' : ¬ c = d := fun e => h e.symm
      simp [Regex.deriv, h, h', Regex.matches_nothing, Regex.matches_char]
  | any =>
    intro c s
    by_cases h : isDotChar c = true
    · simp only [Regex.deriv, h, if_true, Regex.matches_epsilon, Regex.matches_any]
      constructor
      · rintro rfl; exact ⟨c, h, rfl⟩
      · rintro ⟨d, _, hd⟩
        simp only [List.cons.injEq] at hd
        exact hd.2
    · simp only [Regex.deriv, h, Bool.false_eq_true, if_false, Regex.matches_nothing,
        Regex.matches_any, false_iff]
      rintro ⟨d, hd, hcd⟩
      simp only [List.cons.injEq] at hcd
      exact h (hcd.1 ▸ hd)
  | seq r t ihr iht =>
    intro c s
    have key : Regex.Matches (.seq r t) (c :: s) ↔
        (Regex.Matches r [] ∧ Regex.Matches t (c :: s)) ∨
        ∃ u v, s = u ++ v ∧ Regex.Matches r (c :: u) ∧ Regex.Matches t v := by
      rw [Regex.matches_seq]
      constructor
      · rintro ⟨u, v, huv, hu, hv⟩
        cases u with
        | nil => left; simp only [List.nil_append] at huv; subst huv; exact ⟨hu, hv⟩
        | cons a u =>
          simp only [List.cons_append, List.cons.injEq] at huv
          obtain ⟨rfl, rfl⟩ := huv
          right; exact ⟨u, v, rfl, hu, hv⟩
      · rintro (⟨hr, ht⟩ | ⟨u, v, rfl, hu, hv⟩)
        · exact ⟨[], c :: s, rfl, hr, ht⟩
        · exact ⟨c :: u, v, rfl, hu, hv⟩
    have hseq : Regex.Matches (.seq (r.deriv c) t) s ↔
        ∃ u v, s = u ++ v ∧ Regex.Matches r (c :: u) ∧ Regex.Matches t v := by
      rw [Regex.matches_seq]
      simp only [ihr]
    rw [key]
    by_cases hn : r.nullable = true
    · have hr := (Regex.nullable_iff r).mp hn
      simp only [Regex.deriv, hn, if_true, Regex.matches_alt, hseq, iht]
      constructor
      · rintro (h | h)
        · exact Or.inr h
        · exact Or.inl ⟨hr, h⟩
      · rintro (⟨_, h⟩ | h)
        · exact Or.inr h
        · exact Or.inl h
    · have hr : ¬ Regex.Matches r [] := fun h => hn ((Regex.nullable_iff r).mpr h)
      simp only [Regex.deriv, hn, Bool.false_eq_true, if_false, hseq]
      constructor
      · intro h; exact Or.inr h
      · rintro (⟨h, _⟩ | h)
        · exact absurd h hr
        · exact h
  | alt r t ihr iht =>
    intro c s
    simp only [Regex.deriv, Regex.matches_alt, ihr, iht]
  | star r ih =>
    intro c s
    rw [Regex.matches_star_cons]
    simp only [Regex.deriv, Regex.matches_seq, ih]

/-- The function `regex_match` holds exactly of the strings that, as a whole, belong to the language of
the pattern. -/
theorem regex_match_iff (server : Str) :
    ∀ re : Regex, regex_match server re = true ↔ Regex.Matches re server := by
  induction server with
  | nil => intro re; simpa [regex_match] using Regex.nullable_iff re
  | cons c cs ih =>
    intro re
    have := ih (re.deriv c)
    simp only [regex_match, List.foldl_cons] at this ⊢
    rw [this, Regex.deriv_iff]

theorem containsFrom_iff (server : Str) (blocked : List Regex) :
    containsFrom server blocked = true ↔ ∃ re ∈ blocked, regex_match server re = true := by
  induction blocked with
  | nil => simp [containsFrom]
  | cons re rest ih =>
    by_cases h : regex_match server re = true
    · simp [containsFrom, h]
    · simp [containsFrom, h, ih]

/-! ## Response rendering and reason phrases -/

theorem find?_fst_eq_lookup (m : List (HTTPStatus × Str)) (key : HTTPStatus) :
    (m.find? (fun e => e.1 = key)).map (fun e => e.2) = m.lookup key := by
  induction m with
  | nil => rfl
  | cons e m ih =>
    obtain ⟨k, v⟩ := e
    by_cases h : k = key
    · subst h; simp [List.find?, List.lookup]
    · have h' : (key == k) = false := by simpa using fun e => h e.symm
      simp [List.find?, List.lookup, h, h', ih]

theorem mapContains_eq_isSome (m : List (HTTPStatus × Str)) (key : HTTPStatus) :
    mapContains m key = (m.lookup key).isSome := by
  rw [← find?_fst_eq_lookup]
  induction m with
  | nil => rfl
  | cons e m ih =>
    by_cases h : e.1 = key
    · simp [mapContains, List.find?, h]
    · simp only [mapContains, List.any_cons, h, decide_False, Bool.false_or] at ih ⊢
      simp [List.find?, h, ih]

theorem mapAt_eq (m : List (HTTPStatus × Str)) (key : HTTPStatus) :
    mapAt m key = match m.lookup key with
      | some phrase => .ok phrase
      | none => .error .outOfRange := by
  rw [← find?_fst_eq_lookup, mapAt]
  cases m.find? (fun e => e.1 = key) <;> rfl

theorem unknownStatus_not_key : kStatusMessages.lookup HTTPStatus.UnknownStatus = none := by
  decide

/-- The phrase `getStatusMessage` returns, for every code: the lookup `at` is reached only
with a key of the table. -/
theorem getStatusMessage_eq (hr : HTTPResponse) :
    hr.getStatusMessage = .ok (reasonPhrase hr.code) := by
  unfold HTTPResponse.getStatusMessage HTTPResponse.getResponseCode reasonPhrase
  rw [mapContains_eq_isSome]
  cases hl : kStatusMessages.lookup hr.code with
  | none => simp
  | some phrase =>
    have hne : hr.code ≠ HTTPStatus.UnknownStatus := by
      intro e
      rw [e, unknownStatus_not_key] at hl
      cases hl
    simp [hne, mapAt_eq, hl]

theorem HTTPHeader.write_eq_append (h : HTTPHeader) (os : Str) :
    h.write os = os ++ h.write [] := by
  obtain ⟨headers⟩ := h
  unfold HTTPHeader.write
  simp only
  have key : ∀ (l : List (Str × Str)) (a b : Str),
      l.foldl (fun out e => out ++ e.1 ++ ": ".toList ++ e.2 ++ crlf) (a ++ b)
        = a ++ l.foldl (fun out e => out ++ e.1 ++ ": ".toList ++ e.2 ++ crlf) b := by
    intro l
    induction l with
    | nil => intro a b; rfl
    | cons e l ih =>
      intro a b
      simp only [List.foldl_cons]
      have : a ++ b ++ e.1 ++ ": ".toList ++ e.2 ++ crlf
          = a ++ (b ++ e.1 ++ ": ".toList ++ e.2 ++ crlf) := by simp
      rw [this, ih]
  simpa using key headers os []

/-- C7. For every response, `operator<<` appends to the output exactly: the protocol, a
space, the decimal status code, a space, the reason phrase, CRLF, the rendered headers, one
CRLF, and the raw payload bytes, in that order and with nothing else. -/
theorem HTTPResponse.write_renders_in_order (os : Str) (hr : HTTPResponse) :
    hr.write os
      = .ok (os ++ (hr.protocol ++ " ".toList ++ decimal hr.code ++ " ".toList
          ++ reasonPhrase hr.code ++ "\r\n".toList ++ hr.responseHeader.write []
          ++ "\r\n".toList ++ hr.payload.payload)) := by
  unfold HTTPResponse.write
  rw [getStatusMessage_eq]
  simp only [HTTPPayload.write]
  rw [HTTPHeader.write_eq_append]
  simp

theorem lookup_of_mem_of_nodup (m : List (HTTPStatus × Str)) (key : HTTPStatus) (phrase : Str)
    (hnd : (m.map Prod.fst).Nodup) (hmem : (key, phrase) ∈ m) : m.lookup key = some phrase := by
  induction m with
  | nil => cases hmem
  | cons e m ih =>
    obtain ⟨k, v⟩ := e
    simp only [List.map_cons, List.nodup_cons, List.mem_map, not_exists, not_and] at hnd
    rcases List.mem_cons.mp hmem with h | h
    · cases h
      simp [List.lookup]
    · have hk : k ≠ key := fun e => hnd.1 (key, phrase) h e.symm
      have hk' : (key == k) = false := by simpa using fun e => hk e.symm
      simp only [List.lookup, hk']
      exact ih hnd.2 h

theorem lookup_none_of_not_mem (m : List (HTTPStatus × Str)) (key : HTTPStatus)
    (h : ∀ phrase, (key, phrase) ∉ m) : m.lookup key = none := by
  induction m with
  | nil => rfl
  | cons e m ih =>
    obtain ⟨k, v⟩ := e
    have hk : k ≠ key := fun e => h v (by simp [e])
    have hk' : (key == k) = false := by simpa using fun e => hk e.symm
    simp only [List.lookup, hk']
    exact ih (fun phrase hm => h phrase (List.mem_cons_of_mem _ hm))

theorem kStatusMessages_keys_nodup : (kStatusMessages.map Prod.fst).Nodup := by decide

/-- C8. For every integer status code `getStatusMessage` returns without failing: the
lookup `kStatusMessages.at` is only reached with a key of the table, where it succeeds; the
result is the table's phrase when the code is a key of `kStatusMessages` and
`"Unknown Code"` for every other code. -/
theorem getStatusMessage_total (hr : HTTPResponse) :
    (∃ phrase, hr.getStatusMessage = .ok phrase) ∧
    (hr.getResponseCode ≠ HTTPStatus.UnknownStatus →
      ∃ phrase, mapAt kStatusMessages hr.getResponseCode = .ok phrase) ∧
    (∀ phrase, (hr.code, phrase) ∈ kStatusMessages → hr.getStatusMessage = .ok phrase) ∧
    (hr.code ∉ kStatusMessages.map Prod.fst →
      hr.getStatusMessage = .ok "Unknown Code".toList) := by
  refine ⟨⟨_, getStatusMessage_eq hr⟩, ?_, ?_, ?_⟩
  · intro hne
    have hm : hr.getStatusMessage = mapAt kStatusMessages hr.getResponseCode := by
      simp [HTTPResponse.getStatusMessage, hne]
    exact ⟨_, hm ▸ getStatusMessage_eq hr⟩
  · intro phrase hmem
    rw [getStatusMessage_eq, reasonPhrase,
      lookup_of_mem_of_nodup _ _ _ kStatusMessages_keys_nodup hmem]
  · intro hnone
    have hnone' : ∀ phrase, (hr.code, phrase) ∉ kStatusMessages :=
      fun phrase hm => hnone (List.mem_map_of_mem Prod.fst hm)
    rw [getStatusMessage_eq, reasonPhrase, lookup_none_of_not_mem _ _ hnone']

/-- C8 at the codes 510 (a key of the table), 299 and 511 (no keys). -/
theorem getStatusMessage_total_witness :
    (∃ phrase, mapAt kStatusMessages
        (cacheControlResponse []).getResponseCode = .ok phrase) ∧
    ((cacheControlResponse []).setResponseCode 510).getStatusMessage
      = .ok "General Proxy Failure".toList ∧
    ((cacheControlResponse []).setResponseCode 299).getStatusMessage
      = .ok "Unknown Code".toList ∧
    ((cacheControlResponse []).setResponseCode 511).getStatusMessage
      = .ok "Unknown Code".toList :=
  ⟨(getStatusMessage_total (cacheControlResponse [])).2.1 (by decide),
   (getStatusMessage_total ((cacheControlResponse []).setResponseCode 510)).2.2.1 _ (by decide),
   (getStatusMessage_total ((cacheControlResponse []).setResponseCode 299)).2.2.2 (by decide),
   (getStatusMessage_total ((cacheControlResponse []).setResponseCode 511)).2.2.2 (by decide)⟩

/-! ## Cacheability -/

theorem find_append_first (needle : Str) :
    ∀ (pre post : Str),
      (∀ i, i < pre.length → ¬ needle <+: (pre ++ needle ++ post).drop i) →
      find needle (pre ++ needle ++ post) = some pre.length := by
  intro pre
  induction pre with
  | nil =>
    intro post _
    cases hn : needle ++ post with
    | nil =>
      obtain ⟨rfl, rfl⟩ := List.append_eq_nil.mp hn
      simp [find]
    | cons c cs =>
      have hp : needle.isPrefixOf (c :: cs) = true := by
        rw [← hn]; exact List.isPrefixOf_iff_prefix.mpr (List.prefix_append _ _)
      simp [find, hn, hp]
  | cons a pre ih =>
    intro post h
    have h0 : ¬ needle.isPrefixOf (a :: (pre ++ needle ++ post)) = true := by
      intro hp
      exact h 0 (by simp) (by simpa using List.isPrefixOf_iff_prefix.mp hp)
    have hrest : ∀ i, i < pre.length → ¬ needle <+: (pre ++ needle ++ post).drop i := by
      intro i hi
      have := h (i + 1) (by simpa using hi)
      simpa using this
    have e : a :: pre ++ needle ++ post = a :: (pre ++ needle ++ post) := by simp
    rw [e, find]
    simp only [h0, Bool.false_eq_true, if_false, ih post hrest]
    simp

theorem isDigit_not_space (c : Char) (h : c.isDigit = true) :
    isspace c = false ∧ c ≠ '-' ∧ c ≠ '+' := by
  refine ⟨?_, ?_, ?_⟩
  · cases hs : isspace c with
    | false => rfl
    | true =>
      simp only [isspace, Bool.or_eq_true, decide_eq_true_eq] at hs
      rcases hs with ((((rfl | rfl) | rfl) | rfl) | rfl) | rfl <;> exact absurd h (by decide)
  · rintro rfl; exact absurd h (by decide)
  · rintro rfl; exact absurd h (by decide)

theorem decimalValue_nonneg (ds : Str) : (0 : Int) ≤ (decimalValue ds : Int) :=
  Int.ofNat_nonneg _

/-- The number read from a run of decimal digits: its value, capped at `INT_MAX`. -/
theorem istreamReadInt_digits (digits rest : Str) (v0 : Int) (hne : digits ≠ [])
    (hd : ∀ c ∈ digits, c.isDigit = true)
    (hr : ∀ c, rest.head? = some c → c.isDigit = false) :
    istreamReadInt (digits ++ rest) v0 = min (decimalValue digits : Int) kIntMax := by
  cases digits with
  | nil => exact absurd rfl hne
  | cons d ds =>
    obtain ⟨hsp, hminus, hplus⟩ := isDigit_not_space d (hd d (by simp))
    have h1 : (d :: ds ++ rest).dropWhile isspace = d :: ds ++ rest := by
      simp [List.dropWhile, hsp]
    have hrest : rest.takeWhile Char.isDigit = [] := by
      cases rest with
      | nil => rfl
      | cons x xs => simp [List.takeWhile, hr x rfl]
    have htw : (d :: ds ++ rest).takeWhile Char.isDigit = d :: ds := by
      rw [List.takeWhile_append_of_pos hd, hrest, List.append_nil]
    have hmin : ¬ ((decimalValue (d :: ds) : Int) < kIntMin) := by
      have := decimalValue_nonneg (d :: ds)
      have hk : kIntMin < 0 := by decide
      omega
    unfold istreamReadInt
    simp only [h1]
    have hhead : (d :: ds ++ rest).head? = some d := rfl
    have hm : ¬ (some d = some '-') := by simpa using hminus
    have hp : ¬ (some d = some '+') := by simpa using hplus
    simp only [hhead, hm, hp, if_false, htw, hmin]
    simp only [List.cons_append, reduceCtorEq, if_false, Bool.false_eq_true]
    by_cases hmax : kIntMax < (decimalValue (d :: ds) : Int)
    · simp only [hmax, if_true]
      omega
    · simp only [hmax, if_false]
      omega

theorem getTTL_max_age (uninit : Int) (hr : HTTPResponse) (pre digits rest : Str)
    (hcc : hr.responseHeader.containsName kCacheControl = true)
    (hv : hr.responseHeader.getValueAsString kCacheControl = pre ++ kMaxAge ++ (digits ++ rest))
    (hfirst : ∀ i, i < pre.length → ¬ kMaxAge <+: (pre ++ kMaxAge ++ (digits ++ rest)).drop i)
    (hne : digits ≠ []) (hd : ∀ c ∈ digits, c.isDigit = true)
    (hr' : ∀ c, rest.head? = some c → c.isDigit = false) :
    hr.getTTL uninit = min (decimalValue digits : Int) kIntMax := by
  unfold HTTPResponse.getTTL
  simp only [hcc, Bool.not_true, Bool.false_eq_true, if_false, hv,
    find_append_first kMaxAge pre (digits ++ rest) hfirst, substrFrom]
  have : (pre ++ kMaxAge ++ (digits ++ rest)).drop (pre.length + kMaxAge.length)
      = digits ++ rest := by
    rw [← List.length_append, List.drop_left]
  rw [this]
  exact istreamReadInt_digits digits rest uninit hne hd hr'

theorem drop_max_age (pre tail : Str) :
    (pre ++ kMaxAge ++ tail).drop (pre.length + kMaxAge.length) = tail := by
  rw [← List.length_append, List.drop_left]

/-- Without the text `max-age=` in the value the time-to-live is 0. -/
theorem getTTL_without_max_age (uninit : Int) (hr : HTTPResponse)
    (hnone : ¬ kMaxAge <:+: hr.responseHeader.getValueAsString kCacheControl) :
    hr.getTTL uninit = 0 := by
  unfold HTTPResponse.getTTL
  split
  · rfl
  · simp only [(find_eq_none_iff _ _).mpr hnone]

/-- When nothing but whitespace follows the first `max-age=`, the extraction does not start
and the local `maxAge` is returned as it was before. -/
theorem getTTL_unassigned (uninit : Int) (hr : HTTPResponse) (pre ws : Str)
    (hcc : hr.responseHeader.containsName kCacheControl = true)
    (hv : hr.responseHeader.getValueAsString kCacheControl = pre ++ kMaxAge ++ ws)
    (hfirst : ∀ i, i < pre.length → ¬ kMaxAge <+: (pre ++ kMaxAge ++ ws).drop i)
    (hws : ∀ c ∈ ws, isspace c = true) :
    hr.getTTL uninit = uninit := by
  unfold HTTPResponse.getTTL
  simp only [hcc, Bool.not_true, Bool.false_eq_true, if_false, hv,
    find_append_first kMaxAge pre ws hfirst, substrFrom, drop_max_age]
  have hdrop : ws.dropWhile isspace = [] := by
    rw [List.dropWhile_eq_nil_iff]
    exact hws
  unfold istreamReadInt
  simp only [hdrop, if_true]

/-- When the first `max-age=` is followed by a character that is no whitespace, no sign and
no digit, the extraction fails and the time-to-live is 0. -/
theorem getTTL_no_number (uninit : Int) (hr : HTTPResponse) (pre rest : Str) (c : Char)
    (hcc : hr.responseHeader.containsName kCacheControl = true)
    (hv : hr.responseHeader.getValueAsString kCacheControl = pre ++ kMaxAge ++ (c :: rest))
    (hfirst : ∀ i, i < pre.length → ¬ kMaxAge <+: (pre ++ kMaxAge ++ (c :: rest)).drop i)
    (hspace : isspace c = false) (hminus : c ≠ '-') (hplus : c ≠ '+')
    (hdigit : c.isDigit = false) :
    hr.getTTL uninit = 0 := by
  unfold HTTPResponse.getTTL
  simp only [hcc, Bool.not_true, Bool.false_eq_true, if_false, hv,
    find_append_first kMaxAge pre (c :: rest) hfirst, substrFrom, drop_max_age]
  have hdrop : (c :: rest).dropWhile isspace = c :: rest := by
    simp [List.dropWhile, hspace]
  have hm : ¬ (some c = some '-') := by simpa using hminus
  have hp : ¬ (some c = some '+') := by simpa using hplus
  have htake : (c :: rest).takeWhile Char.isDigit = [] := by
    simp [List.takeWhile, hdigit]
  unfold istreamReadInt
  simp only [hdrop, List.head?_cons, hm, hp, if_false, htake, reduceCtorEq, if_true]

/-- What `permitsCaching` returns for a response with the header, in terms of the
time-to-live. -/
theorem permitsCaching_eq (uninit : Int) (hr : HTTPResponse)
    (hcc : hr.responseHeader.containsName kCacheControl = true)
    (hprivate : ¬ "private".toList <:+: hr.responseHeader.getValueAsString kCacheControl)
    (hcache : ¬ "no-cache".toList <:+: hr.responseHeader.getValueAsString kCacheControl)
    (hstore : ¬ "no-store".toList <:+: hr.responseHeader.getValueAsString kCacheControl) :
    hr.permitsCaching uninit = decide (hr.getTTL uninit > 0) := by
  unfold HTTPResponse.permitsCaching
  have h1 := (find_eq_none_iff _ _).mpr hprivate
  have h2 := (find_eq_none_iff _ _).mpr hcache
  have h3 := (find_eq_none_iff _ _).mpr hstore
  simp only [hcc, Bool.not_true, Bool.false_eq_true, if_false, h1, h2, h3, Option.isSome_none]

/-- C9 fails on the code: for a response with `Cache-Control: max-age=` the extraction
`iss >> maxAge` does not start, `getTTL` returns the local `maxAge` as it was before, a
value that was never assigned, and `permitsCaching` is true when that value is positive and
false otherwise, although the directive gives no number. The same holds for every value in
which nothing but whitespace follows the first `max-age=` and that names none of `private`,
`no-cache` and `no-store`. Elsewhere the code does what the claim says: a value without
`max-age=` is not cacheable; a value whose first `max-age=` is followed by digits is
cacheable exactly when it names none of the three directives and the number is positive; a
value whose first `max-age=` is followed by a character that is no whitespace, sign or digit
is not cacheable; `no-store, max-age=60` and `max-age=0` are not cacheable and `max-age=60`
is. -/
theorem permitsCaching_reads_unassigned_maxAge :
    (∀ uninit : Int, (cacheControlResponse "max-age=".toList).getTTL uninit = uninit)
      ∧ (cacheControlResponse "max-age=".toList).permitsCaching 1 = true
      ∧ (cacheControlResponse "max-age=".toList).permitsCaching 0 = false
      ∧ (∀ (uninit : Int) (hr : HTTPResponse) (pre ws : Str),
          hr.responseHeader.containsName kCacheControl = true →
          hr.responseHeader.getValueAsString kCacheControl = pre ++ kMaxAge ++ ws →
          (∀ i, i < pre.length → ¬ kMaxAge <+: (pre ++ kMaxAge ++ ws).drop i) →
          (∀ c ∈ ws, isspace c = true) →
          ¬ "private".toList <:+: hr.responseHeader.getValueAsString kCacheControl →
          ¬ "no-cache".toList <:+: hr.responseHeader.getValueAsString kCacheControl →
          ¬ "no-store".toList <:+: hr.responseHeader.getValueAsString kCacheControl →
          hr.permitsCaching uninit = decide (uninit > 0))
      ∧ (∀ (uninit : Int) (hr : HTTPResponse),
          ¬ kMaxAge <:+: hr.responseHeader.getValueAsString kCacheControl →
          hr.permitsCaching uninit = false)
      ∧ (∀ (uninit : Int) (hr : HTTPResponse) (pre digits rest : Str),
          hr.responseHeader.containsName kCacheControl = true →
          hr.responseHeader.getValueAsString kCacheControl
            = pre ++ kMaxAge ++ (digits ++ rest) →
          (∀ i, i < pre.length → ¬ kMaxAge <+: (pre ++ kMaxAge ++ (digits ++ rest)).drop i) →
          digits ≠ [] → (∀ c ∈ digits, c.isDigit = true) →
          (∀ c, rest.head? = some c → c.isDigit = false) →
          (hr.permitsCaching uninit = true ↔
            ¬ "private".toList <:+: hr.responseHeader.getValueAsString kCacheControl ∧
            ¬ "no-cache".toList <:+: hr.responseHeader.getValueAsString kCacheControl ∧
            ¬ "no-store".toList <:+: hr.responseHeader.getValueAsString kCacheControl ∧
            0 < decimalValue digits))
      ∧ (∀ (uninit : Int) (hr : HTTPResponse) (pre rest : Str) (c : Char),
          hr.responseHeader.containsName kCacheControl = true →
          hr.responseHeader.getValueAsString kCacheControl = pre ++ kMaxAge ++ (c :: rest) →
          (∀ i, i < pre.length → ¬ kMaxAge <+: (pre ++ kMaxAge ++ (c :: rest)).drop i) →
          isspace c = false → c ≠ '-' → c ≠ '+' → c.isDigit = false →
          hr.permitsCaching uninit = false)
      ∧ (∀ uninit : Int,
          (cacheControlResponse "no-store, max-age=60".toList).permitsCaching uninit = false
            ∧ (cacheControlResponse "max-age=0".toList).permitsCaching uninit = false
            ∧ (cacheControlResponse "max-age=60".toList).permitsCaching uninit = true) := by
  have hfalse : ∀ (uninit : Int) (hr : HTTPResponse), hr.getTTL uninit = 0 →
      hr.permitsCaching uninit = false := by
    intro uninit hr h0
    unfold HTTPResponse.permitsCaching
    simp only [h0, gt_iff_lt, lt_self_iff_false, decide_False, ite_self]
  refine ⟨fun uninit => rfl, by decide, by decide, ?_, ?_, ?_, ?_, fun uninit => ⟨rfl, rfl, rfl⟩⟩
  · intro uninit hr pre ws hcc hv hfirst hws hprivate hcache hstore
    rw [permitsCaching_eq uninit hr hcc hprivate hcache hstore,
      getTTL_unassigned uninit hr pre ws hcc hv hfirst hws]
  · intro uninit hr hnone
    exact hfalse uninit hr (getTTL_without_max_age uninit hr hnone)
  · intro uninit hr pre digits rest hcc hv hfirst hne hd hrest
    have httl := getTTL_max_age uninit hr pre digits rest hcc hv hfirst hne hd hrest
    have hpos : (0 < min (decimalValue digits : Int) kIntMax) ↔ 0 < decimalValue digits := by
      have hk : (0 : Int) < kIntMax := by decide
      constructor
      · intro h
        have := lt_of_lt_of_le h (min_le_left _ _)
        exact_mod_cast this
      · intro h
        exact lt_min (by exact_mod_cast h) hk
    constructor
    · intro h
      unfold HTTPResponse.permitsCaching at h
      simp only [hcc, Bool.not_true, Bool.false_eq_true, if_false] at h
      split at h
      · exact absurd h (by decide)
      rename_i h1
      split at h
      · exact absurd h (by decide)
      rename_i h2
      split at h
      · exact absurd h (by decide)
      rename_i h3
      rw [httl] at h
      exact ⟨fun hc => h1 ((find_isSome_iff _ _).mpr hc),
        fun hc => h2 ((find_isSome_iff _ _).mpr hc),
        fun hc => h3 ((find_isSome_iff _ _).mpr hc), hpos.mp (by simpa using h)⟩
    · rintro ⟨h1, h2, h3, h4⟩
      rw [permitsCaching_eq uninit hr hcc h1 h2 h3, httl]
      exact decide_eq_true (hpos.mpr h4)
  · intro uninit hr pre rest c hcc hv hfirst hspace hminus hplus hdigit
    exact hfalse uninit hr
      (getTTL_no_number uninit hr pre rest c hcc hv hfirst hspace hminus hplus hdigit)

/-! ## Blocklist -/

/-- C10. For every blocklist and every host string, `StrikeSet::contains(host)` is true if
and only if at least one loaded pattern matches the entire host string; a match of a proper
substring does not count. With the single pattern `(.*)\.evil\.example`, `contains` is true
for `www.evil.example` and false for `evil.example` and for `notevil.example.com`. -/
theorem StrikeSet.contains_iff_full_match (set : StrikeSet) (host : Str) :
    (set.contains host = true ↔ ∃ re ∈ set.blocked, regex_match host re = true) ∧
    (set.contains host = true ↔ ∃ re ∈ set.blocked, Regex.Matches re host) ∧
    StrikeSet.contains ⟨[evilPattern]⟩ "www.evil.example".toList = true ∧
    StrikeSet.contains ⟨[evilPattern]⟩ "evil.example".toList = false ∧
    StrikeSet.contains ⟨[evilPattern]⟩ "notevil.example.com".toList = false ∧
    (Regex.Matches evilPattern "www.evil.example".toList ∧
      "www.evil.example".toList <:+: "www.evil.example.com".toList ∧
      StrikeSet.contains ⟨[evilPattern]⟩ "www.evil.example.com".toList = false) := by
  have h1 : set.contains host = true ↔ ∃ re ∈ set.blocked, regex_match host re = true :=
    containsFrom_iff host set.blocked
  refine ⟨h1, ?_, by decide, by decide, by decide, ?_, by decide, by decide⟩
  · rw [h1]
    constructor
    · rintro ⟨re, hre, hm⟩; exact ⟨re, hre, (regex_match_iff host re).mp hm⟩
    · rintro ⟨re, hre, hm⟩; exact ⟨re, hre, (regex_match_iff host re).mpr hm⟩
  · exact (regex_match_iff _ _).mp (by decide)

/-! ## Header upsert -/

theorem sameName_refl (a : Str) : sameName a a = true := by simp [sameName]

theorem sameName_trans_false (a b c : Str) (hab : sameName a b = true)
    (hbc : sameName b c = false) : sameName a c = false := by
  simp only [sameName, beq_iff_eq, beq_eq_false_iff_ne, ne_eq] at *
  rw [hab]; exact hbc

theorem sameName_left_false (e n m : Str) (hnm : sameName n m = false)
    (hem : sameName e m = true) : sameName e n = false := by
  simp only [sameName, beq_iff_eq, beq_eq_false_iff_ne, ne_eq] at *
  rw [hem]; exact fun h => hnm h.symm

theorem find?_upsert_present (l : List (Str × Str)) (name value : Str)
    (h : l.any (fun e => sameName e.1 name) = true) :
    (l.map (fun e => if sameName e.1 name then (e.1, value) else e)).find?
        (fun e => sameName e.1 name)
      = (l.find? (fun e => sameName e.1 name)).map (fun e => (e.1, value)) := by
  induction l with
  | nil => simp at h
  | cons e l ih =>
    by_cases he : sameName e.1 name = true
    · simp [List.find?, he]
    · have hl : l.any (fun e => sameName e.1 name) = true := by
        simpa [List.any_cons, he] using h
      simp [List.find?, he, ih hl]

theorem find?_upsert_absent (l : List (Str × Str)) (name value : Str)
    (h : l.any (fun e => sameName e.1 name) = false) :
    (l ++ [(name, value)]).find? (fun e => sameName e.1 name) = some (name, value) := by
  induction l with
  | nil => simp [List.find?, sameName_refl]
  | cons e l ih =>
    simp only [List.any_cons, Bool.or_eq_false_iff] at h
    simp [List.find?, h.1, ih h.2]

theorem find?_isSome_of_any (l : List (Str × Str)) (name : Str)
    (h : l.any (fun e => sameName e.1 name) = true) :
    ∃ e, l.find? (fun e => sameName e.1 name) = some e := by
  induction l with
  | nil => simp at h
  | cons e l ih =>
    by_cases he : sameName e.1 name = true
    · exact ⟨e, by simp [List.find?, he]⟩
    · have hl : l.any (fun e => sameName e.1 name) = true := by
        simpa [List.any_cons, he] using h
      obtain ⟨x, hx⟩ := ih hl
      exact ⟨x, by simp [List.find?, he, hx]⟩

/-- After the upsert of a name, the exact-string get of that name gives the new value. -/
theorem getValueAsString_addHeader (h : HTTPHeader) (name value : Str) :
    (h.addHeader name value).getValueAsString name = value := by
  unfold HTTPHeader.addHeader HTTPHeader.getValueAsString
  by_cases hc : h.containsName name = true
  · have hany : h.headers.any (fun e => sameName e.1 name) = true := hc
    obtain ⟨e, he⟩ := find?_isSome_of_any _ _ hany
    simp only [hc, if_true, find?_upsert_present _ _ _ hany, he, Option.map_some']
  · have hany : h.headers.any (fun e => sameName e.1 name) = false := by
      simpa [HTTPHeader.containsName] using hc
    simp only [hc, Bool.false_eq_true, if_false, find?_upsert_absent _ _ _ hany]

theorem any_upsert (l : List (Str × Str)) (name value other : Str) :
    (l.map (fun e => if sameName e.1 name then (e.1, value) else e)).any
        (fun e => sameName e.1 other)
      = l.any (fun e => sameName e.1 other) := by
  induction l with
  | nil => rfl
  | cons e l ih =>
    by_cases he : sameName e.1 name = true
    · simp only [List.map_cons, List.any_cons, he, if_true, ih]
    · simp only [List.map_cons, List.any_cons, he, Bool.false_eq_true, if_false, ih]

theorem addHeader_present (h : HTTPHeader) (name value : Str)
    (hc : h.containsName name = true) :
    h.addHeader name value
      = ⟨h.headers.map (fun e => if sameName e.1 name then (e.1, value) else e)⟩ := by
  simp [HTTPHeader.addHeader, hc]

theorem addHeader_absent (h : HTTPHeader) (name value : Str)
    (hc : ¬ h.containsName name = true) :
    h.addHeader name value = ⟨h.headers ++ [(name, value)]⟩ := by
  simp [HTTPHeader.addHeader, hc]

theorem containsName_addHeader (h : HTTPHeader) (name value : Str) :
    (h.addHeader name value).containsName name = true := by
  by_cases hc : h.containsName name = true
  · rw [addHeader_present h name value hc]
    simp only [HTTPHeader.containsName, any_upsert]
    exact hc
  · rw [addHeader_absent h name value hc]
    simp [HTTPHeader.containsName, sameName_refl]

theorem find?_upsert_other (l : List (Str × Str)) (name value other : Str)
    (hno : sameName name other = false) :
    (l.map (fun e => if sameName e.1 name then (e.1, value) else e)).find?
        (fun e => sameName e.1 other)
      = l.find? (fun e => sameName e.1 other) := by
  induction l with
  | nil => rfl
  | cons e l ih =>
    by_cases heo : sameName e.1 other = true
    · have hen : sameName e.1 name = false := sameName_left_false _ _ _ hno heo
      simp [List.find?, heo, hen]
    · by_cases hen : sameName e.1 name = true
      · simp [List.find?, heo, hen, ih]
      · simp [List.find?, heo, hen, ih]

theorem find?_append_other (l : List (Str × Str)) (name value other : Str)
    (hno : sameName name other = false) :
    (l ++ [(name, value)]).find? (fun e => sameName e.1 other)
      = l.find? (fun e => sameName e.1 other) := by
  induction l with
  | nil => simp [List.find?, hno]
  | cons e l ih =>
    by_cases heo : sameName e.1 other = true
    · simp [List.find?, heo]
    · simp [List.find?, heo, ih]

/-- The upsert of a name leaves the exact-string get of every other name unchanged. -/
theorem getValueAsString_addHeader_other (h : HTTPHeader) (name value other : Str)
    (hno : sameName name other = false) :
    (h.addHeader name value).getValueAsString other = h.getValueAsString other := by
  unfold HTTPHeader.addHeader HTTPHeader.getValueAsString
  by_cases hc : h.containsName name = true
  · simp only [hc, if_true, find?_upsert_other _ _ _ _ hno]
  · simp only [hc, Bool.false_eq_true, if_false, find?_append_other _ _ _ _ hno]

theorem containsName_addHeader_other (h : HTTPHeader) (name value other : Str)
    (hno : sameName name other = false) :
    (h.addHeader name value).containsName other = h.containsName other := by
  by_cases hc : h.containsName name = true
  · rw [addHeader_present h name value hc]
    simp only [HTTPHeader.containsName, any_upsert]
  · rw [addHeader_absent h name value hc]
    simp [HTTPHeader.containsName, hno]

/-! ## Forwarding headers -/

theorem chainElements_of_no_comma (s : Str) (h : ¬ comma <:+: s) : chainElements s = [s] :=
  chainElements_find_none s ((find_eq_none_iff comma s).mpr h)

/-- Appending `", "` and an address to a chain appends the address to its elements. -/
theorem chainElements_append_address (ip : Str) (hip : ¬ comma <:+: ip) :
    ∀ old : Str, chainElements (old ++ comma ++ ip) = chainElements old ++ [ip] := by
  have hc : comma = [',', ' '] := by decide
  intro old
  induction old using chainElements.induct with
  | case1 => simp [hc, chainElements, chainElements_of_no_comma ip hip]
  | case2 c =>
    have h1 : chainElements (',' :: ' ' :: ip) = [[], ip] := by
      simp [chainElements, chainElements_of_no_comma ip hip]
    have hne : ¬ (c = ',' ∧ (',' : Char) = ' ') := by
      intro h; exact absurd h.2 (by decide)
    show chainElements (c :: (',' :: ' ' :: ip)) = _
    have h2 : chainElements [c] = [[c]] := rfl
    rw [h2, chainElements]
    simp only [hne, if_false, h1]
    rfl
  | case3 c d rest hcd ih =>
    have e : c :: d :: rest ++ comma ++ ip = c :: d :: (rest ++ comma ++ ip) := by simp
    rw [e, chainElements, chainElements]
    simp only [hcd, and_self, if_true, ih]
    rfl
  | case4 c d rest hcd hnil ih =>
    exact absurd hnil (chainElements_ne_nil _)
  | case5 c d rest hcd e es hes ih =>
    have e1 : c :: d :: rest ++ comma ++ ip = c :: d :: (rest ++ comma ++ ip) := by simp
    have e2 : d :: (rest ++ comma ++ ip) = d :: rest ++ comma ++ ip := by simp
    rw [e1, chainElements]
    simp only [hcd, if_false]
    rw [e2, ih, hes]
    rw [chainElements]
    simp [hcd, hes]

theorem sameName_proto_ff : sameName "x-forwarded-proto".toList ff = false := by decide

theorem sameName_ff_proto : sameName ff "x-forwarded-proto".toList = false := by decide

/-- C13. For every request, after `addHeaders` the header `x-forwarded-proto` has value
`"http"` and the header `x-forwarded-for` has value `old + ", " + ip` when the request
already had a chain with value `old`, and value `ip` when it had none; for a client address
`ip` (a string without the separator `", "`) the chain read as a `", "`-separated list is
the old list with `ip` appended as its last element. -/
theorem addHeaders_forwarding_chain (request : HTTPRequest) :
    (addHeaders request).getHeader.getValueAsString "x-forwarded-proto".toList = "http".toList ∧
    (addHeaders request).containsName ff = true ∧
    (request.containsName ff = true →
      (addHeaders request).getHeader.getValueAsString ff
        = request.getHeader.getValueAsString ff ++ ", ".toList ++ request.getip) ∧
    (request.containsName ff = false →
      (addHeaders request).getHeader.getValueAsString ff = request.getip) ∧
    (¬ ", ".toList <:+: request.getip → request.containsName ff = true →
      chainElements ((addHeaders request).getHeader.getValueAsString ff)
        = chainElements (request.getHeader.getValueAsString ff) ++ [request.getip]) ∧
    (¬ ", ".toList <:+: request.getip → request.containsName ff = false →
      chainElements ((addHeaders request).getHeader.getValueAsString ff) = [request.getip]) := by
  have hcontains : (request.addHeader "x-forwarded-proto".toList "http".toList).containsName ff
      = request.containsName ff :=
    containsName_addHeader_other request.requestHeader _ _ ff sameName_proto_ff
  have hold : (request.addHeader "x-forwarded-proto".toList "http".toList).getHeader.getValueAsString ff
      = request.getHeader.getValueAsString ff :=
    getValueAsString_addHeader_other request.requestHeader _ _ ff sameName_proto_ff
  have hyes : request.containsName ff = true →
      (addHeaders request).getHeader.getValueAsString ff
        = request.getHeader.getValueAsString ff ++ ", ".toList ++ request.getip := by
    intro hc
    have hc1 := hcontains.trans hc
    simp only [addHeaders, hc1, if_true, hold]
    exact getValueAsString_addHeader _ _ _
  have hno : request.containsName ff = false →
      (addHeaders request).getHeader.getValueAsString ff = request.getip := by
    intro hc
    have hc1 := hcontains.trans hc
    simp only [addHeaders, hc1, Bool.false_eq_true, if_false]
    exact getValueAsString_addHeader _ _ _
  refine ⟨?_, ?_, hyes, hno, ?_, ?_⟩
  · unfold addHeaders
    simp only
    split
    · refine (getValueAsString_addHeader_other _ _ _ _ sameName_ff_proto).trans ?_
      exact getValueAsString_addHeader _ _ _
    · refine (getValueAsString_addHeader_other _ _ _ _ sameName_ff_proto).trans ?_
      exact getValueAsString_addHeader _ _ _
  · unfold addHeaders
    simp only
    split <;> exact containsName_addHeader _ _ _
  · intro hip hc
    rw [hyes hc]
    exact chainElements_append_address request.getip hip _
  · intro hip hc
    rw [hno hc]
    exact chainElements_of_no_comma _ hip

/-- C13 at a request that arrives from `10.0.0.5` with the chain `203.0.113.9`, and at a
request from the same address without a chain. -/
theorem addHeaders_forwarding_chain_witness :
    ((addHeaders (chainRequest "203.0.113.9".toList "10.0.0.5".toList)).getHeader.getValueAsString
        ff = (chainRequest "203.0.113.9".toList "10.0.0.5".toList).getHeader.getValueAsString ff
          ++ ", ".toList ++ (chainRequest "203.0.113.9".toList "10.0.0.5".toList).getip ∧
      chainElements ((addHeaders
          (chainRequest "203.0.113.9".toList "10.0.0.5".toList)).getHeader.getValueAsString ff)
        = chainElements ((chainRequest "203.0.113.9".toList
            "10.0.0.5".toList).getHeader.getValueAsString ff)
          ++ [(chainRequest "203.0.113.9".toList "10.0.0.5".toList).getip]) ∧
    ((addHeaders (plainRequest "10.0.0.5".toList)).getHeader.getValueAsString ff
        = (plainRequest "10.0.0.5".toList).getip ∧
      chainElements ((addHeaders (plainRequest "10.0.0.5".toList)).getHeader.getValueAsString ff)
        = [(plainRequest "10.0.0.5".toList).getip]) :=
  ⟨⟨(addHeaders_forwarding_chain (chainRequest "203.0.113.9".toList "10.0.0.5".toList)).2.2.1
      (by decide),
    (addHeaders_forwarding_chain (chainRequest "203.0.113.9".toList "10.0.0.5".toList)).2.2.2.2.1
      (by decide) (by decide)⟩,
   ⟨(addHeaders_forwarding_chain (plainRequest "10.0.0.5".toList)).2.2.2.1 (by decide),
    (addHeaders_forwarding_chain (plainRequest "10.0.0.5".toList)).2.2.2.2.2
      (by decide) (by decide)⟩⟩

/-! ## Writing a response to the client -/

theorem write_nil_eq_bytes (hr : HTTPResponse) : hr.write [] = .ok hr.bytes := by
  unfold HTTPResponse.write HTTPResponse.bytes
  rw [getStatusMessage_eq]
  simp only [HTTPPayload.write]
  rw [HTTPHeader.write_eq_append]
  simp

/-- Writing a response to the client puts exactly its bytes on the stream and raises
nothing. -/
theorem sendResponse_eq (response : HTTPResponse) :
    sendResponse response = ([.write response.bytes], none) := by
  simp [sendResponse, write_nil_eq_bytes]

theorem handleError_eq (code0 : Int) (protocol : Str) (responseCode : HTTPStatus)
    (message : Str) :
    handleError code0 protocol responseCode message
      = ([.write (errorResponse code0 protocol responseCode message).bytes], none) :=
  sendResponse_eq _

/-- The response that `handleError` builds does not depend on what the status code held
before it was set. -/
theorem errorResponse_code0 (code0 code1 : Int) (protocol : Str) (responseCode : HTTPStatus)
    (message : Str) :
    errorResponse code0 protocol responseCode message
      = errorResponse code1 protocol responseCode message := rfl

/-! ## Synthesized responses -/

/-- What `setPayload` leaves behind: the new payload alone, and under `Content-Length`
the decimal digits of `int(payload.size())`. -/
theorem setPayload_spec (hr : HTTPResponse) (s : Str) :
    (hr.setPayload s).payload.payload = s ∧
    (hr.setPayload s).responseHeader.containsName "Content-Length".toList = true ∧
    (hr.setPayload s).responseHeader.getValueAsString "Content-Length".toList
      = decimal (toInt32 s.length) := by
  refine ⟨?_, ?_, ?_⟩
  · simp [HTTPResponse.setPayload, HTTPPayload.setPayload, HTTPPayload.appendData]
  · exact containsName_addHeader _ _ _
  · exact getValueAsString_addHeader _ _ _

theorem toInt32_of_lt (n : Nat) (h : n < 2 ^ 31) : toInt32 n = (n : Int) := by
  have h1 : n % 2 ^ 32 = n := Nat.mod_eq_of_lt (by omega)
  unfold toInt32
  rw [if_pos (by rw [h1]; exact h), h1]

/-- A string of `2 ^ 31` bytes. -/
theorem length_replicate_two_gib : (List.replicate (2 ^ 31) 'a').length = 2 ^ 31 :=
  List.length_replicate _ _

/-- C20, as stated, fails: for a string of `2 ^ 31` bytes `setPayload` stores the bytes, but
`int(payload.size())` is `-2147483648`, so the `Content-Length` header holds
`"-2147483648"` and not the decimal length `"2147483648"`. -/
theorem setPayload_length_overflows_int :
    ((HTTPResponse.fresh 0).setPayload (List.replicate (2 ^ 31) 'a')).payload.payload
      = List.replicate (2 ^ 31) 'a' ∧
    ((HTTPResponse.fresh 0).setPayload
        (List.replicate (2 ^ 31) 'a')).responseHeader.getValueAsString "Content-Length".toList
      = "-2147483648".toList ∧
    ((HTTPResponse.fresh 0).setPayload
        (List.replicate (2 ^ 31) 'a')).responseHeader.getValueAsString "Content-Length".toList
      ≠ decimal ((List.replicate (2 ^ 31) 'a').length : Int) := by
  have h := setPayload_spec (HTTPResponse.fresh 0) (List.replicate (2 ^ 31) 'a')
  have hv : decimal (toInt32 (List.replicate (2 ^ 31) 'a').length) = "-2147483648".toList := by
    rw [length_replicate_two_gib]; decide
  have hd : decimal ((List.replicate (2 ^ 31) 'a').length : Int) = "2147483648".toList := by
    rw [length_replicate_two_gib]; decide
  refine ⟨h.1, h.2.2.trans hv, ?_⟩
  rw [h.2.2, hv, hd]
  decide

/-- C20, amended. For every response and every string `s` of fewer than `2 ^ 31` bytes,
after `setPayload(s)` the payload is exactly the bytes of `s` (any earlier payload is
discarded) and the `Content-Length` header holds the decimal length of `s`; hence every
response that `handleError` synthesizes from such a message declares a `Content-Length`
equal to the length of its payload, and that response is what is written to the client. -/
theorem setPayload_replaces_and_declares_length (hr : HTTPResponse) (s : Str)
    (hs : s.length < 2 ^ 31) :
    (hr.setPayload s).payload.payload = s ∧
    (hr.setPayload s).responseHeader.containsName "Content-Length".toList = true ∧
    (hr.setPayload s).responseHeader.getValueAsString "Content-Length".toList
      = decimal (s.length : Int) ∧
    (∀ (code0 : Int) (protocol : Str) (responseCode : HTTPStatus),
      (errorResponse code0 protocol responseCode s).payload.payload = s ∧
      (errorResponse code0 protocol responseCode s).responseHeader.getValueAsString
          "Content-Length".toList
        = decimal ((errorResponse code0 protocol responseCode s).payload.payload.length : Int) ∧
      handleError code0 protocol responseCode s
        = ([.write (errorResponse code0 protocol responseCode s).bytes], none)) := by
  have h := setPayload_spec hr s
  refine ⟨h.1, h.2.1, ?_, ?_⟩
  · rw [h.2.2, toInt32_of_lt s.length hs]
  · intro code0 protocol responseCode
    have he := setPayload_spec
      (((HTTPResponse.fresh code0).setProtocol protocol).setResponseCode responseCode) s
    refine ⟨he.1, ?_, handleError_eq code0 protocol responseCode s⟩
    show (HTTPResponse.setPayload _ s).responseHeader.getValueAsString _ = _
    rw [he.2.2, toInt32_of_lt s.length hs]
    show _ = decimal ((HTTPResponse.setPayload _ s).payload.payload.length : Int)
    rw [he.1]

/-- C20, amended, at a response that already has a payload and the message `Loop Detected`. -/
theorem setPayload_replaces_and_declares_length_witness :
    (({ code := 200, protocol := "HTTP/1.1".toList, responseHeader := ⟨[]⟩,
        payload := ⟨"earlier".toList⟩ } : HTTPResponse).setPayload
          "Loop Detected".toList).payload.payload = "Loop Detected".toList ∧
    (({ code := 200, protocol := "HTTP/1.1".toList, responseHeader := ⟨[]⟩,
        payload := ⟨"earlier".toList⟩ } : HTTPResponse).setPayload
          "Loop Detected".toList).responseHeader.getValueAsString "Content-Length".toList
      = "13".toList :=
  ⟨(setPayload_replaces_and_declares_length _ "Loop Detected".toList (by decide)).1,
   (setPayload_replaces_and_declares_length _ "Loop Detected".toList (by decide)).2.2.1⟩

/-! ## The forward path -/

theorem forwardRequest_trace_origin (w : World) (request : HTTPRequest)
    (response : HTTPResponse) :
    ∀ e ∈ (forwardRequest w request response).trace, e.isOrigin = true := by
  unfold forwardRequest
  simp only
  split
  · simp [Event.isOrigin]
  · split
    · simp [Event.isOrigin]
    · split
      · simp [Event.isOrigin]
      · split
        · split <;> simp [Event.isOrigin]
        · simp [Event.isOrigin]

/-- The origin connector is called exactly once in a run of `forwardRequest`, as its first
step. -/
theorem forwardRequest_connects_once (w : World) (request : HTTPRequest)
    (response : HTTPResponse) :
    ∃ rest, (forwardRequest w request response).trace
        = .createClientSocket request.server request.port :: rest ∧
      ∀ e ∈ rest, ∀ server port, e ≠ .createClientSocket server port := by
  unfold forwardRequest
  simp only
  split
  · exact ⟨[], rfl, by simp⟩
  · split
    · exact ⟨_, rfl, by simp⟩
    · split
      · exact ⟨_, rfl, by simp⟩
      · split
        · split <;> exact ⟨_, rfl, by simp⟩
        · exact ⟨_, rfl, by simp⟩

theorem lockDiscipline_origin_append (origin rest : List Event)
    (h : ∀ e ∈ origin, e.isOrigin = true) :
    lockDiscipline false (origin ++ rest) = lockDiscipline false rest := by
  induction origin with
  | nil => rfl
  | cons e origin ih =>
    have he : e.isOrigin = true := h e (by simp)
    have ht : ∀ x ∈ origin, x.isOrigin = true := fun x hx => h x (by simp [hx])
    cases e <;> simp [Event.isOrigin] at he <;>
      simp [lockDiscipline, Event.isOrigin, Event.isCache, ih ht]

/-- The three ways `handleRequest` goes on after the cache lookup, by the outcome of
`forwardRequest`. -/
theorem handleRequestAfterLookup_cases (h : HTTPRequestHandler) (w : World)
    (request : HTTPRequest) (response : HTTPResponse) (index : Nat) :
    (∀ what, (forwardRequest w request response).raised = some (.proxy (.requestFailure what)) →
      (handleRequestAfterLookup h w request response index).trace
        = [.unlock index] ++ (forwardRequest w request response).trace
          ++ [.write (errorResponse w.code0 kDefaultProtocol HTTPStatus.GeneralProxyFailure
                what).bytes]
          ++ ([.lock index, .shouldCache]
              ++ (if h.cache.shouldCache w.maxAge0 (forwardRequest w request response).request
                    (forwardRequest w request response).response then [.cacheEntry] else [])
              ++ [.unlock index])
          ++ [.write (forwardRequest w request response).response.bytes]) ∧
    ((forwardRequest w request response).raised = none →
      (handleRequestAfterLookup h w request response index).trace
        = [.unlock index] ++ (forwardRequest w request response).trace
          ++ ([.lock index, .shouldCache]
              ++ (if h.cache.shouldCache w.maxAge0 (forwardRequest w request response).request
                    (forwardRequest w request response).response then [.cacheEntry] else [])
              ++ [.unlock index])
          ++ [.write (forwardRequest w request response).response.bytes]) ∧
    (∀ e, (forwardRequest w request response).raised = some e →
      (∀ what, e ≠ .proxy (.requestFailure what)) →
      (handleRequestAfterLookup h w request response index).trace
          = [.unlock index] ++ (forwardRequest w request response).trace ∧
        (handleRequestAfterLookup h w request response index).raised = some e ∧
        (handleRequestAfterLookup h w request response index).cache = h.cache) := by
  refine ⟨?_, ?_, ?_⟩
  · intro what hr
    simp [handleRequestAfterLookup, hr, handleError_eq, sendResponse_eq]
  · intro hr
    simp [handleRequestAfterLookup, hr, sendResponse_eq]
  · intro e hr hne
    rcases e with pe | o
    · cases pe with
      | requestFailure what => exact absurd rfl (hne what)
      | badRequest what => simp [handleRequestAfterLookup, hr]
      | unsupportedMethod what => simp [handleRequestAfterLookup, hr]
      | responseFailure what => simp [handleRequestAfterLookup, hr]
      | proxyFailure what => simp [handleRequestAfterLookup, hr]
    · simp [handleRequestAfterLookup, hr]

theorem clientBytes_append (a b : List Event) :
    clientBytes (a ++ b) = clientBytes a ++ clientBytes b := by
  induction a with
  | nil => rfl
  | cons e a ih => cases e <;> simp [clientBytes, ih]

theorem clientBytes_origin (l : List Event) (h : ∀ e ∈ l, e.isOrigin = true) :
    clientBytes l = [] := by
  induction l with
  | nil => rfl
  | cons e l ih =>
    have he : e.isOrigin = true := h e (by simp)
    have ht : ∀ x ∈ l, x.isOrigin = true := fun x hx => h x (by simp [hx])
    cases e <;> simp [Event.isOrigin] at he <;> simp [clientBytes, ih ht]

theorem bytes_ne_nil (hr : HTTPResponse) : hr.bytes ≠ [] := by
  intro h
  have := congrArg List.length h
  simp [HTTPResponse.bytes] at this

theorem lockDiscipline_unlock_cons (index : Nat) (rest : List Event) :
    lockDiscipline true (.unlock index :: rest) = lockDiscipline false rest := by
  simp [lockDiscipline]

theorem handleRequestAfterLookup_lockDiscipline (h : HTTPRequestHandler) (w : World)
    (request : HTTPRequest) (response : HTTPResponse) (index : Nat) :
    lockDiscipline true (handleRequestAfterLookup h w request response index).trace = true := by
  have horigin := forwardRequest_trace_origin w request response
  obtain ⟨h1, h2, h3⟩ := handleRequestAfterLookup_cases h w request response index
  cases hr : (forwardRequest w request response).raised with
  | none =>
    rw [h2 hr]
    split <;>
      simp only [List.append_assoc, List.singleton_append, List.cons_append,
        List.nil_append] <;>
      rw [lockDiscipline_unlock_cons, lockDiscipline_origin_append _ _ horigin] <;>
      simp [lockDiscipline, Event.isOrigin, Event.isCache]
  | some e =>
    by_cases he : ∃ what, e = .proxy (.requestFailure what)
    · obtain ⟨what, rfl⟩ := he
      rw [h1 what hr]
      split <;>
        simp only [List.append_assoc, List.singleton_append, List.cons_append,
          List.nil_append] <;>
        rw [lockDiscipline_unlock_cons, lockDiscipline_origin_append _ _ horigin] <;>
        simp [lockDiscipline, Event.isOrigin, Event.isCache]
    · have hne : ∀ what, e ≠ .proxy (.requestFailure what) := fun what hw => he ⟨what, hw⟩
      rw [(h3 e hr hne).1, List.singleton_append, lockDiscipline_unlock_cons]
      have := lockDiscipline_origin_append (forwardRequest w request response).trace [] horigin
      simpa [lockDiscipline] using this

/-- C17. On every execution path of `handleRequest` the stripe mutex is not held while
`forwardRequest` runs: the run keeps the lock discipline (no operation on the origin while
the mutex is held, every cache operation while it is held); after a miss the mutex is
released right after the lookup, then `forwardRequest` runs, and what follows is either
nothing (an exception leaves the function) or an optional 510 response, the mutex locked
around `shouldCache` and `cacheEntry` only, and the final write; after a hit the cached
response is written and the mutex released. -/
theorem handleRequest_lock_discipline (h : HTTPRequestHandler) (w : World)
    (request : HTTPRequest) :
    lockDiscipline false (handleRequest h w request).trace = true ∧
    (h.cache.containsCacheEntry w.lookupClock request = none →
      ∃ after,
        (handleRequest h w request).trace
          = [.lock (h.cache.hashRequest request % mnum), .containsCacheEntry,
             .unlock (h.cache.hashRequest request % mnum)]
            ++ (forwardRequest w request (HTTPResponse.fresh w.code0)).trace ++ after ∧
        (after = [] ∨
          ∃ handled inserted : List Event, ∃ bytes : Str,
            after = handled
              ++ ([.lock (h.cache.hashRequest request % mnum), .shouldCache] ++ inserted
                  ++ [.unlock (h.cache.hashRequest request % mnum)])
              ++ [.write bytes] ∧
            (handled = [] ∨ ∃ failure, handled = [.write failure]) ∧
            (inserted = [] ∨ inserted = [.cacheEntry]))) ∧
    (∀ cached, h.cache.containsCacheEntry w.lookupClock request = some cached →
      (handleRequest h w request).trace
        = [.lock (h.cache.hashRequest request % mnum), .containsCacheEntry,
           .write cached.bytes, .unlock (h.cache.hashRequest request % mnum)]) := by
  have hhit : ∀ cached, h.cache.containsCacheEntry w.lookupClock request = some cached →
      (handleRequest h w request).trace
        = [.lock (h.cache.hashRequest request % mnum), .containsCacheEntry,
           .write cached.bytes, .unlock (h.cache.hashRequest request % mnum)] := by
    intro cached hc
    simp [handleRequest, hc, sendResponse_eq]
  have hmiss : h.cache.containsCacheEntry w.lookupClock request = none →
      (handleRequest h w request).trace
        = [.lock (h.cache.hashRequest request % mnum), .containsCacheEntry]
          ++ (handleRequestAfterLookup h w request (HTTPResponse.fresh w.code0)
                (h.cache.hashRequest request % mnum)).trace := by
    intro hc
    simp [handleRequest, hc]
  refine ⟨?_, ?_, hhit⟩
  · cases hc : h.cache.containsCacheEntry w.lookupClock request with
    | some cached =>
      rw [hhit cached hc]
      simp [lockDiscipline, Event.isOrigin, Event.isCache]
    | none =>
      rw [hmiss hc]
      have := handleRequestAfterLookup_lockDiscipline h w request (HTTPResponse.fresh w.code0)
        (h.cache.hashRequest request % mnum)
      simp [lockDiscipline, Event.isOrigin, Event.isCache, this]
  · intro hc
    rw [hmiss hc]
    obtain ⟨h1, h2, h3⟩ := handleRequestAfterLookup_cases h w request
      (HTTPResponse.fresh w.code0) (h.cache.hashRequest request % mnum)
    have hins : (if h.cache.shouldCache w.maxAge0
          (forwardRequest w request (HTTPResponse.fresh w.code0)).request
          (forwardRequest w request (HTTPResponse.fresh w.code0)).response = true
        then [Event.cacheEntry] else []) = [] ∨
        (if h.cache.shouldCache w.maxAge0
          (forwardRequest w request (HTTPResponse.fresh w.code0)).request
          (forwardRequest w request (HTTPResponse.fresh w.code0)).response = true
        then [Event.cacheEntry] else []) = [Event.cacheEntry] := by
      split
      · exact Or.inr rfl
      · exact Or.inl rfl
    cases hr : (forwardRequest w request (HTTPResponse.fresh w.code0)).raised with
    | none =>
      refine ⟨[] ++ ([.lock (h.cache.hashRequest request % mnum), .shouldCache]
          ++ (if h.cache.shouldCache w.maxAge0
                (forwardRequest w request (HTTPResponse.fresh w.code0)).request
                (forwardRequest w request (HTTPResponse.fresh w.code0)).response = true
              then [Event.cacheEntry] else [])
          ++ [.unlock (h.cache.hashRequest request % mnum)])
          ++ [.write (forwardRequest w request (HTTPResponse.fresh w.code0)).response.bytes],
        ?_, Or.inr ⟨[], _, _, rfl, Or.inl rfl, hins⟩⟩
      rw [h2 hr]; simp
    | some e =>
      by_cases he : ∃ what, e = .proxy (.requestFailure what)
      · obtain ⟨what, rfl⟩ := he
        refine ⟨[.write (errorResponse w.code0 kDefaultProtocol HTTPStatus.GeneralProxyFailure
              what).bytes]
            ++ ([.lock (h.cache.hashRequest request % mnum), .shouldCache]
            ++ (if h.cache.shouldCache w.maxAge0
                  (forwardRequest w request (HTTPResponse.fresh w.code0)).request
                  (forwardRequest w request (HTTPResponse.fresh w.code0)).response = true
                then [Event.cacheEntry] else [])
            ++ [.unlock (h.cache.hashRequest request % mnum)])
            ++ [.write (forwardRequest w request (HTTPResponse.fresh w.code0)).response.bytes],
          ?_, Or.inr ⟨_, _, _, rfl, Or.inr ⟨_, rfl⟩, hins⟩⟩
        rw [h1 what hr]; simp
      · have hne : ∀ what, e ≠ .proxy (.requestFailure what) := fun what hw => he ⟨what, hw⟩
        refine ⟨[], ?_, Or.inl rfl⟩
        rw [(h3 e hr hne).1]; simp

/-- C17 at a `GET` request that misses an empty cache. -/
theorem handleRequest_lock_discipline_witness :
    lockDiscipline false (handleRequest freshHandler getWorld getRequest).trace = true ∧
    ∃ after,
      (handleRequest freshHandler getWorld getRequest).trace
        = [.lock (freshHandler.cache.hashRequest getRequest % mnum), .containsCacheEntry,
           .unlock (freshHandler.cache.hashRequest getRequest % mnum)]
          ++ (forwardRequest getWorld getRequest (HTTPResponse.fresh getWorld.code0)).trace
          ++ after ∧
      (after = [] ∨
        ∃ handled inserted : List Event, ∃ bytes : Str,
          after = handled
            ++ ([.lock (freshHandler.cache.hashRequest getRequest % mnum), .shouldCache]
                ++ inserted ++ [.unlock (freshHandler.cache.hashRequest getRequest % mnum)])
            ++ [.write bytes] ∧
          (handled = [] ∨ ∃ failure, handled = [.write failure]) ∧
          (inserted = [] ∨ inserted = [.cacheEntry])) :=
  ⟨(handleRequest_lock_discipline freshHandler getWorld getRequest).1,
   (handleRequest_lock_discipline freshHandler getWorld getRequest).2.1 (by decide)⟩

/-- When `forwardRequest` raises a request exception after a miss, the client is sent the
510 response and then the response object as `forwardRequest` left it: the `catch` clause
does not leave the function. -/
theorem handleRequest_after_request_failure (h : HTTPRequestHandler) (w : World)
    (request : HTTPRequest) (what : Str)
    (hmiss : h.cache.containsCacheEntry w.lookupClock request = none)
    (hfail : (forwardRequest w request (HTTPResponse.fresh w.code0)).raised
      = some (.proxy (.requestFailure what))) :
    clientBytes (handleRequest h w request).trace
      = (errorResponse w.code0 kDefaultProtocol HTTPStatus.GeneralProxyFailure what).bytes
        ++ (forwardRequest w request (HTTPResponse.fresh w.code0)).response.bytes ∧
    clientBytes (handleRequest h w request).trace
      ≠ (errorResponse w.code0 kDefaultProtocol HTTPStatus.GeneralProxyFailure what).bytes := by
  have horigin := forwardRequest_trace_origin w request (HTTPResponse.fresh w.code0)
  have htrace : (handleRequest h w request).trace
      = [.lock (h.cache.hashRequest request % mnum), .containsCacheEntry]
        ++ (handleRequestAfterLookup h w request (HTTPResponse.fresh w.code0)
              (h.cache.hashRequest request % mnum)).trace := by
    simp [handleRequest, hmiss]
  have hbytes : clientBytes (handleRequest h w request).trace
      = (errorResponse w.code0 kDefaultProtocol HTTPStatus.GeneralProxyFailure what).bytes
        ++ (forwardRequest w request (HTTPResponse.fresh w.code0)).response.bytes := by
    rw [htrace, (handleRequestAfterLookup_cases h w request (HTTPResponse.fresh w.code0)
      (h.cache.hashRequest request % mnum)).1 what hfail]
    simp only [clientBytes_append, clientBytes_origin _ horigin]
    split <;> simp [clientBytes]
  refine ⟨hbytes, ?_⟩
  rw [hbytes]
  intro heq
  have hnil := List.append_right_eq_self.mp heq
  exact bytes_ne_nil _ hnil

/-- C14, as stated, fails: with an empty cache and an origin that cannot be reached
(`forwardRequest` raises a request exception at its first step), `handleRequest` contacts
the origin once and writes the 510 response, but then goes on to the insert step and to the
final write, so the client receives a second, empty-protocol response after it. -/
theorem handleRequest_writes_after_510 :
    (forwardRequest unreachableWorld getRequest (HTTPResponse.fresh 0)).raised
      = some (.proxy (.requestFailure "unreachable".toList)) ∧
    connectCount (handleRequest freshHandler unreachableWorld getRequest).trace = 1 ∧
    clientBytes (handleRequest freshHandler unreachableWorld getRequest).trace
      = "HTTP/1.0 510 General Proxy Failure\r\nContent-Length: 11\r\n\r\nunreachable".toList
        ++ " 0 Unknown Code\r\n\r\n".toList ∧
    (handleRequest freshHandler unreachableWorld getRequest).trace
      = [.lock (freshHandler.cache.hashRequest getRequest % mnum), .containsCacheEntry,
         .unlock (freshHandler.cache.hashRequest getRequest % mnum),
         .createClientSocket "origin.example".toList 80,
         .write "HTTP/1.0 510 General Proxy Failure\r\nContent-Length: 11\r\n\r\nunreachable".toList,
         .lock (freshHandler.cache.hashRequest getRequest % mnum), .shouldCache,
         .unlock (freshHandler.cache.hashRequest getRequest % mnum),
         .write " 0 Unknown Code\r\n\r\n".toList] := by
  decide

/-! ## The tunnel path -/

/-- What `handleConnectRequest` does, by the outcome of `createClientSocket`: on an
exception of the proxy one 510 response and no bridge; on any returned descriptor the 200
response and then the bridge on that descriptor; any other exception leaves the function. -/
theorem handleConnectRequest_cases (h : HTTPRequestHandler) (w : World)
    (request : HTTPRequest) :
    (∀ pe, w.createClientSocket = .error (.proxy pe) →
      (handleConnectRequest h w request).trace
        = [.createClientSocket request.server request.port,
           .write (errorResponse w.code0 kDefaultProtocol HTTPStatus.GeneralProxyFailure
              pe.what).bytes]) ∧
    (∀ serverfd, w.createClientSocket = .ok serverfd →
      (handleConnectRequest h w request).trace
        = [.createClientSocket request.server request.port,
           .write (errorResponse w.code0 kDefaultProtocol HTTPStatus.OK "OK".toList).bytes,
           .bridge serverfd]) ∧
    (∀ what, w.createClientSocket = .error (.other what) →
      (handleConnectRequest h w request).trace
          = [.createClientSocket request.server request.port] ∧
        (handleConnectRequest h w request).raised = some (.other what)) := by
  refine ⟨?_, ?_, ?_⟩
  · intro pe hs
    simp [handleConnectRequest, hs, handleError_eq]
  · intro serverfd hs
    simp [handleConnectRequest, hs, handleError_eq]
  · intro what hs
    simp [handleConnectRequest, hs]

/-- C15, as stated, fails: when the origin connector reports through its return value that
the connection cannot be opened, `configClientSocket` hands the failure value on unchecked,
and `handleConnectRequest` answers `200 OK` and starts the bridge on that descriptor; no
510 response is written. -/
theorem handleConnectRequest_ignores_failed_socket :
    refusedWorld.createClientSocket = .ok kClientSocketError ∧
    (handleConnectRequest freshHandler refusedWorld connectRequest).trace
      = [.createClientSocket "origin.example".toList 80,
         .write "HTTP/1.0 200 OK\r\nContent-Length: 2\r\n\r\nOK".toList,
         .bridge kClientSocketError] ∧
    (serviceRequest freshHandler refusedWorld).trace
      = [.createClientSocket "origin.example".toList 80,
         .write "HTTP/1.0 200 OK\r\nContent-Length: 2\r\n\r\nOK".toList,
         .bridge kClientSocketError] := by
  refine ⟨rfl, ?_, ?_⟩ <;> decide

/-! ## Servicing a request -/

theorem errorResponse_bytes_eq (code0 : Int) (responseCode : HTTPStatus) (message : Str) :
    (errorResponse code0 kDefaultProtocol responseCode message).bytes
      = kDefaultProtocol ++ " ".toList ++ decimal responseCode ++ " ".toList
          ++ reasonPhrase responseCode ++ "\r\n".toList
          ++ ("Content-Length: ".toList ++ decimal (toInt32 message.length) ++ "\r\n".toList)
          ++ "\r\n".toList ++ message := by
  simp [errorResponse, HTTPResponse.bytes, HTTPResponse.setPayload, HTTPPayload.setPayload,
    HTTPResponse.setResponseCode, HTTPResponse.setProtocol, HTTPResponse.fresh,
    HTTPHeader.addHeaderInt, HTTPHeader.addHeader, HTTPHeader.containsName, HTTPHeader.write,
    HTTPPayload.appendData, crlf]

/-- C11. For every successfully ingested request whose target host is matched by the
blocklist, `serviceRequest` does exactly one thing: it writes one response, with status 403
Forbidden, to the client. No origin connection is opened, no cache operation is made, no
method handler runs and the cache is unchanged, whatever the method of the request and
whether or not its forwarding chain contains a loop. -/
theorem serviceRequest_blocked_host (h : HTTPRequestHandler) (w : World)
    (request : HTTPRequest) (hingest : w.ingest = .ok request)
    (hblocked : h.strikeSet.contains request.server = true) :
    (serviceRequest h w).trace
      = [.write (errorResponse w.code0 kDefaultProtocol HTTPStatus.Forbidden
          "Forbidden Content".toList).bytes] ∧
    (errorResponse w.code0 kDefaultProtocol HTTPStatus.Forbidden "Forbidden Content".toList).bytes
      = "HTTP/1.0 403 Forbidden\r\nContent-Length: 17\r\n\r\nForbidden Content".toList ∧
    (serviceRequest h w).cache = h.cache ∧
    (serviceRequest h w).raised = none := by
  have hbody : serviceBody h w
      = ⟨[.write (errorResponse w.code0 kDefaultProtocol HTTPStatus.Forbidden
          "Forbidden Content".toList).bytes], h.cache, none⟩ := by
    simp [serviceBody, hingest, hblocked, handleError_eq]
  refine ⟨?_, ?_, ?_, ?_⟩
  · simp [serviceRequest, hbody]
  · rw [errorResponse_code0 w.code0 0]; decide
  · simp [serviceRequest, hbody]
  · simp [serviceRequest, hbody]

/-- C11 at a `CONNECT` request for `www.evil.example` whose forwarding chain names its own
client. -/
theorem serviceRequest_blocked_host_witness :
    containsLoop (blockedRequest "CONNECT".toList) = true ∧
    (serviceRequest freshHandler (worldOf (blockedRequest "CONNECT".toList) (.ok 7))).trace
      = [.write (errorResponse (worldOf (blockedRequest "CONNECT".toList) (.ok 7)).code0
          kDefaultProtocol HTTPStatus.Forbidden "Forbidden Content".toList).bytes] ∧
    (errorResponse (worldOf (blockedRequest "CONNECT".toList) (.ok 7)).code0 kDefaultProtocol
        HTTPStatus.Forbidden "Forbidden Content".toList).bytes
      = "HTTP/1.0 403 Forbidden\r\nContent-Length: 17\r\n\r\nForbidden Content".toList ∧
    (serviceRequest freshHandler (worldOf (blockedRequest "CONNECT".toList) (.ok 7))).cache
      = freshHandler.cache ∧
    (serviceRequest freshHandler (worldOf (blockedRequest "CONNECT".toList) (.ok 7))).raised
      = none :=
  ⟨by decide,
   serviceRequest_blocked_host freshHandler (worldOf (blockedRequest "CONNECT".toList) (.ok 7))
     (blockedRequest "CONNECT".toList) rfl (by decide)⟩

theorem statusLine_starts_bytes (code0 : Int) (responseCode : HTTPStatus) (message : Str) :
    statusLine responseCode <+: (errorResponse code0 kDefaultProtocol responseCode message).bytes := by
  rw [errorResponse_bytes_eq]
  refine ⟨("Content-Length: ".toList ++ decimal (toInt32 message.length) ++ "\r\n".toList)
    ++ "\r\n".toList ++ message, ?_⟩
  simp [statusLine]

theorem handlers_lookup_none (method : Str)
    (h : method ∉ ["GET".toList, "POST".toList, "HEAD".toList, "CONNECT".toList]) :
    handlers.lookup method = none := by
  simp only [List.mem_cons, List.mem_singleton, List.not_mem_nil, or_false, not_or] at h
  obtain ⟨h1, h2, h3, h4⟩ := h
  have b1 : (method == ['G', 'E', 'T']) = false := beq_eq_false_iff_ne.mpr h1
  have b2 : (method == ['P', 'O', 'S', 'T']) = false := beq_eq_false_iff_ne.mpr h2
  have b3 : (method == ['H', 'E', 'A', 'D']) = false := beq_eq_false_iff_ne.mpr h3
  have b4 : (method == ['C', 'O', 'N', 'N', 'E', 'C', 'T']) = false :=
    beq_eq_false_iff_ne.mpr h4
  simp [handlers, List.lookup, b1, b2, b3, b4]

/-- C12. For every request that passes the blocklist and loop checks: method `GET`, `POST`
or `HEAD` is handled by `handleRequest`, method `CONNECT` by `handleConnectRequest`, and
every other method string yields exactly one response, 405 Method Not Allowed, with no
origin connection and no other effect. -/
theorem serviceRequest_dispatch (h : HTTPRequestHandler) (w : World) (request : HTTPRequest)
    (hingest : w.ingest = .ok request)
    (hfree : h.strikeSet.contains request.server = false)
    (hnoloop : containsLoop request = false) :
    ((request.method = "GET".toList ∨ request.method = "POST".toList
        ∨ request.method = "HEAD".toList) →
      serviceBody h w = handleRequest h w request) ∧
    (request.method = "CONNECT".toList → serviceBody h w = handleConnectRequest h w request) ∧
    (request.method ∉ ["GET".toList, "POST".toList, "HEAD".toList, "CONNECT".toList] →
      (serviceRequest h w).trace
        = [.write (errorResponse w.code0 kDefaultProtocol HTTPStatus.MethodNotAllowed
            request.method).bytes] ∧
      "HTTP/1.0 405 Method Not Allowed\r\n".toList
        <+: (errorResponse w.code0 kDefaultProtocol HTTPStatus.MethodNotAllowed
              request.method).bytes ∧
      (serviceRequest h w).cache = h.cache ∧
      (serviceRequest h w).raised = none) := by
  refine ⟨?_, ?_, ?_⟩
  · intro hm
    have hl : handlers.lookup request.method = some .handleRequest := by
      rcases hm with hm | hm | hm <;> rw [hm] <;> decide
    simp [serviceBody, hingest, hfree, hnoloop, hl]
  · intro hm
    have hl : handlers.lookup request.method = some .handleConnectRequest := by
      rw [hm]; decide
    simp [serviceBody, hingest, hfree, hnoloop, hl]
  · intro hm
    have hbody : serviceBody h w
        = ⟨[], h.cache, some (.proxy (.unsupportedMethod request.method))⟩ := by
      simp [serviceBody, hingest, hfree, hnoloop, handlers_lookup_none _ hm]
    refine ⟨?_, ?_, ?_, ?_⟩
    · simp [serviceRequest, hbody, handleUnsupportedMethodError, handleError_eq]
    · exact statusLine_starts_bytes w.code0 HTTPStatus.MethodNotAllowed request.method
    · simp [serviceRequest, hbody]
    · simp [serviceRequest, hbody, handleUnsupportedMethodError, handleError_eq]

/-- C12 at the methods `HEAD`, `CONNECT` and `BREW`. -/
theorem serviceRequest_dispatch_witness :
    serviceBody freshHandler (worldOf (methodRequest "HEAD".toList) (.ok 7))
      = handleRequest freshHandler (worldOf (methodRequest "HEAD".toList) (.ok 7))
          (methodRequest "HEAD".toList) ∧
    serviceBody freshHandler (worldOf connectRequest (.ok 7))
      = handleConnectRequest freshHandler (worldOf connectRequest (.ok 7)) connectRequest ∧
    ((serviceRequest freshHandler (worldOf (methodRequest "BREW".toList) (.ok 7))).trace
        = [.write (errorResponse (worldOf (methodRequest "BREW".toList) (.ok 7)).code0
            kDefaultProtocol HTTPStatus.MethodNotAllowed
            (methodRequest "BREW".toList).method).bytes] ∧
      "HTTP/1.0 405 Method Not Allowed\r\n".toList
        <+: (errorResponse (worldOf (methodRequest "BREW".toList) (.ok 7)).code0
              kDefaultProtocol HTTPStatus.MethodNotAllowed
              (methodRequest "BREW".toList).method).bytes ∧
      (serviceRequest freshHandler (worldOf (methodRequest "BREW".toList) (.ok 7))).cache
        = freshHandler.cache ∧
      (serviceRequest freshHandler (worldOf (methodRequest "BREW".toList) (.ok 7))).raised
        = none) :=
  ⟨(serviceRequest_dispatch freshHandler (worldOf (methodRequest "HEAD".toList) (.ok 7))
      (methodRequest "HEAD".toList) rfl (by decide) (by decide)).1 (by decide),
   (serviceRequest_dispatch freshHandler (worldOf connectRequest (.ok 7)) connectRequest rfl
      (by decide) (by decide)).2.1 (by decide),
   (serviceRequest_dispatch freshHandler (worldOf (methodRequest "BREW".toList) (.ok 7))
      (methodRequest "BREW".toList) rfl (by decide) (by decide)).2.2 (by decide)⟩

/-- C16. `serviceRequest` lets no exception escape, and maps what its `try` block raised to
one outcome: an `HTTPBadRequestException` adds one response 400 Bad Request, an
`UnsupportedMethodExeption` adds one response 405 Method Not Allowed, every other exception
is swallowed and nothing is written for it, and without an exception nothing is added. -/
theorem serviceRequest_maps_exceptions (h : HTTPRequestHandler) (w : World) :
    (serviceRequest h w).raised = none ∧
    (serviceRequest h w).cache = (serviceBody h w).cache ∧
    (∀ what, (serviceBody h w).raised = some (.proxy (.badRequest what)) →
      (serviceRequest h w).trace
        = (serviceBody h w).trace
          ++ [.write (errorResponse w.code0 kDefaultProtocol HTTPStatus.BadRequest what).bytes] ∧
      "HTTP/1.0 400 Bad Request\r\n".toList
        <+: (errorResponse w.code0 kDefaultProtocol HTTPStatus.BadRequest what).bytes) ∧
    (∀ what, (serviceBody h w).raised = some (.proxy (.unsupportedMethod what)) →
      (serviceRequest h w).trace
        = (serviceBody h w).trace
          ++ [.write (errorResponse w.code0 kDefaultProtocol HTTPStatus.MethodNotAllowed
                what).bytes] ∧
      "HTTP/1.0 405 Method Not Allowed\r\n".toList
        <+: (errorResponse w.code0 kDefaultProtocol HTTPStatus.MethodNotAllowed what).bytes) ∧
    (∀ e, (serviceBody h w).raised = some e →
      (∀ what, e ≠ .proxy (.badRequest what)) →
      (∀ what, e ≠ .proxy (.unsupportedMethod what)) →
      (serviceRequest h w).trace = (serviceBody h w).trace) ∧
    ((serviceBody h w).raised = none →
      (serviceRequest h w).trace = (serviceBody h w).trace) := by
  refine ⟨?_, ?_, ?_, ?_, ?_, ?_⟩
  · unfold serviceRequest
    simp only
    split <;> simp [handleBadRequestError, handleUnsupportedMethodError, handleError_eq]
  · unfold serviceRequest
    simp only
    split <;> rfl
  · intro what hr
    refine ⟨?_, statusLine_starts_bytes w.code0 HTTPStatus.BadRequest what⟩
    simp [serviceRequest, hr, handleBadRequestError, handleError_eq]
  · intro what hr
    refine ⟨?_, statusLine_starts_bytes w.code0 HTTPStatus.MethodNotAllowed what⟩
    simp [serviceRequest, hr, handleUnsupportedMethodError, handleError_eq]
  · intro e hr hbad hunsupported
    unfold serviceRequest
    simp only [hr]
    split
    · next what heq => exact absurd (Option.some.inj heq) (hbad what)
    · next what heq => exact absurd (Option.some.inj heq) (hunsupported what)
    · rfl
  · intro hr
    simp [serviceRequest, hr]

/-- C16 at a client whose request line is malformed, at a request with the method `BREW`,
and at a client whose ingestion raises an exception that is not one of the proxy. -/
theorem serviceRequest_maps_exceptions_witness :
    (serviceRequest freshHandler
        (brokenClient (.proxy (.badRequest "Malformed request line".toList)))).trace
      = [.write "HTTP/1.0 400 Bad Request\r\nContent-Length: 22\r\n\r\nMalformed request line".toList] ∧
    (serviceRequest freshHandler (worldOf (methodRequest "BREW".toList) (.ok 7))).trace
      = [.write "HTTP/1.0 405 Method Not Allowed\r\nContent-Length: 4\r\n\r\nBREW".toList] ∧
    (serviceRequest freshHandler (brokenClient (.other "bad_alloc".toList))).trace = [] :=
  ⟨((serviceRequest_maps_exceptions freshHandler
        (brokenClient (.proxy (.badRequest "Malformed request line".toList)))).2.2.1
        "Malformed request line".toList rfl).1,
   ((serviceRequest_maps_exceptions freshHandler
        (worldOf (methodRequest "BREW".toList) (.ok 7))).2.2.2.1 "BREW".toList rfl).1,
   (serviceRequest_maps_exceptions freshHandler (brokenClient (.other "bad_alloc".toList))).2.2.2.2.1
     (.other "bad_alloc".toList) rfl (by intro what; simp) (by intro what; simp)⟩

/-! ## Cache -/

/-- The entry that a lookup finds after an insert: the one just inserted. -/
theorem find?_cacheEntry (c : HTTPCache) (uninit : Int) (now : Nat)
    (request other : HTTPRequest) (response : HTTPResponse)
    (hsame : other.fingerprint = request.fingerprint) :
    (c.cacheEntry uninit now request response).entries.find?
        (fun e => e.fingerprint = other.fingerprint)
      = some { fingerprint := request.fingerprint, response := response, inserted := now,
               ttl := c.effectiveTTL uninit response } := by
  simp [HTTPCache.cacheEntry, List.find?, hsame]

theorem containsCacheEntry_cacheEntry (c : HTTPCache) (uninit : Int) (now later : Nat)
    (request other : HTTPRequest) (response : HTTPResponse)
    (hsame : other.fingerprint = request.fingerprint) :
    (c.cacheEntry uninit now request response).containsCacheEntry later other
      = if (later : Int) - (now : Int) < c.effectiveTTL uninit response then some response
        else none := by
  unfold HTTPCache.containsCacheEntry
  rw [find?_cacheEntry c uninit now request other response hsame]

theorem addHeaders_fingerprint (request : HTTPRequest) :
    (addHeaders request).fingerprint = request.fingerprint := by
  unfold addHeaders
  simp only
  split <;> rfl

theorem forwardRequest_fingerprint (w : World) (request : HTTPRequest)
    (response : HTTPResponse) :
    (forwardRequest w request response).request.fingerprint = request.fingerprint := by
  unfold forwardRequest
  simp only
  split
  · rfl
  · split
    · exact addHeaders_fingerprint request
    · split
      · exact addHeaders_fingerprint request
      · split
        · split <;> exact addHeaders_fingerprint request
        · exact addHeaders_fingerprint request

/-- On a hit `handleRequest` writes the cached response and does nothing else but lock and
unlock the stripe mutex. -/
theorem handleRequest_hit (h : HTTPRequestHandler) (w : World) (request : HTTPRequest)
    (cached : HTTPResponse)
    (hhit : h.cache.containsCacheEntry w.lookupClock request = some cached) :
    (handleRequest h w request).trace
      = [.lock (h.cache.hashRequest request % mnum), .containsCacheEntry,
         .write cached.bytes, .unlock (h.cache.hashRequest request % mnum)] := by
  simp [handleRequest, hhit, sendResponse_eq]

/-- C18. Cache round trip: for every request and every cacheable response `R`, after `R` is
inserted for the request at time `now`, a lookup of any request with the same fingerprint
at a time `later` before the time-to-live of the entry has elapsed returns `R`, so a
response with the same bytes, and a lookup once the time-to-live has elapsed reports a
miss. In `handleRequest`: after a miss whose forward succeeds with a response that
`shouldCache` approves, the cache holds that response, and servicing the request again
before the time-to-live has elapsed writes the same bytes without contacting the origin. -/
theorem cache_round_trip (c : HTTPCache) (uninit : Int) (now later : Nat)
    (request other : HTTPRequest) (R : HTTPResponse)
    (hcacheable : c.shouldCache uninit request R = true)
    (hsame : other.fingerprint = request.fingerprint) :
    0 < c.effectiveTTL uninit R ∧
    ((later : Int) - (now : Int) < c.effectiveTTL uninit R →
      (c.cacheEntry uninit now request R).containsCacheEntry later other = some R ∧
      ∀ found, (c.cacheEntry uninit now request R).containsCacheEntry later other = some found →
        found.bytes = R.bytes) ∧
    (c.effectiveTTL uninit R ≤ (later : Int) - (now : Int) →
      (c.cacheEntry uninit now request R).containsCacheEntry later other = none) ∧
    (∀ (h : HTTPRequestHandler) (w w' : World),
      h.cache = c → w.maxAge0 = uninit → w.insertClock = now → w'.lookupClock = later →
      h.cache.containsCacheEntry w.lookupClock request = none →
      (forwardRequest w request (HTTPResponse.fresh w.code0)).raised = none →
      (forwardRequest w request (HTTPResponse.fresh w.code0)).response = R →
      (handleRequest h w request).cache
          = c.cacheEntry uninit now
              (forwardRequest w request (HTTPResponse.fresh w.code0)).request R ∧
        ((later : Int) - (now : Int) < c.effectiveTTL uninit R →
          (handleRequest { h with cache := (handleRequest h w request).cache } w' other).trace
            = [.lock ((handleRequest h w request).cache.hashRequest other % mnum),
               .containsCacheEntry, .write R.bytes,
               .unlock ((handleRequest h w request).cache.hashRequest other % mnum)])) := by
  have hpos : 0 < c.effectiveTTL uninit R := by
    simp only [HTTPCache.shouldCache, Bool.and_eq_true, decide_eq_true_eq] at hcacheable
    exact hcacheable.2
  have hlookup := containsCacheEntry_cacheEntry c uninit now later request other R hsame
  refine ⟨hpos, ?_, ?_, ?_⟩
  · intro hlt
    have hfound : (c.cacheEntry uninit now request R).containsCacheEntry later other = some R := by
      rw [hlookup, if_pos hlt]
    refine ⟨hfound, ?_⟩
    intro found hf
    rw [hfound] at hf
    cases hf
    rfl
  · intro hge
    rw [hlookup, if_neg (not_lt.mpr hge)]
  · intro h w w' hc hu hnow hlater hmiss hok hR
    subst hc hu hnow hlater
    have hfp := forwardRequest_fingerprint w request (HTTPResponse.fresh w.code0)
    have hshould : h.cache.shouldCache w.maxAge0
        (forwardRequest w request (HTTPResponse.fresh w.code0)).request R = true := by
      simpa [HTTPCache.shouldCache] using hcacheable
    have hcache : (handleRequest h w request).cache
        = h.cache.cacheEntry w.maxAge0 w.insertClock
            (forwardRequest w request (HTTPResponse.fresh w.code0)).request R := by
      simp [handleRequest, hmiss, handleRequestAfterLookup, hok, sendResponse_eq, hR, hshould]
    refine ⟨hcache, ?_⟩
    intro hlt
    have hhit : (handleRequest h w request).cache.containsCacheEntry w'.lookupClock other
        = some R := by
      rw [hcache, containsCacheEntry_cacheEntry _ _ _ _ _ _ _ (hsame.trans hfp.symm), if_pos hlt]
    exact handleRequest_hit { h with cache := (handleRequest h w request).cache } w' other R hhit

/-- C18 at the response `Cache-Control: max-age=60` inserted at second 101: a hit at second
160, a miss at second 161; and in `handleRequest`, a second call at second 160 is served
from the cache. -/
theorem cache_round_trip_witness :
    ((emptyCache.cacheEntry 0 101 getRequest
        (cacheControlResponse "max-age=60".toList)).containsCacheEntry 160 getRequest
      = some (cacheControlResponse "max-age=60".toList)) ∧
    ((emptyCache.cacheEntry 0 101 getRequest
        (cacheControlResponse "max-age=60".toList)).containsCacheEntry 161 getRequest = none) ∧
    (handleRequest
        { freshHandler with cache := (handleRequest freshHandler cacheableWorld getRequest).cache }
        (laterWorld 160) getRequest).trace
      = [.lock ((handleRequest freshHandler cacheableWorld getRequest).cache.hashRequest
            getRequest % mnum),
         .containsCacheEntry,
         .write (forwardRequest cacheableWorld getRequest
            (HTTPResponse.fresh cacheableWorld.code0)).response.bytes,
         .unlock ((handleRequest freshHandler cacheableWorld getRequest).cache.hashRequest
            getRequest % mnum)] :=
  ⟨((cache_round_trip emptyCache 0 101 160 getRequest getRequest
        (cacheControlResponse "max-age=60".toList) (by decide) rfl).2.1 (by decide)).1,
   (cache_round_trip emptyCache 0 101 161 getRequest getRequest
        (cacheControlResponse "max-age=60".toList) (by decide) rfl).2.2.1 (by decide),
   ((cache_round_trip emptyCache 0 101 160 getRequest getRequest
        (forwardRequest cacheableWorld getRequest
          (HTTPResponse.fresh cacheableWorld.code0)).response (by decide) rfl).2.2.2
      freshHandler cacheableWorld (laterWorld 160) rfl rfl rfl rfl (by decide) (by decide)
      rfl).2 (by decide)⟩

/-- C19. TTL ceiling: after `setMaxAge(c)` (which is all that `setCacheMaxAge` does), every
entry inserted for a response has the effective time-to-live `min(getTTL, c)`, so
`min(m, c)` for a response advertising `max-age=m` with `m` at most `INT_MAX`; the entry is
served until that many seconds have elapsed and is a miss from then on. -/
theorem ttl_ceiling (c : HTTPCache) (ceiling uninit : Int) (now : Nat) (request : HTTPRequest)
    (R : HTTPResponse) :
    (∀ h : HTTPRequestHandler, (h.setCacheMaxAge ceiling).cache = h.cache.setMaxAge ceiling) ∧
    ((c.setMaxAge ceiling).cacheEntry uninit now request R).entries.find?
        (fun e => e.fingerprint = request.fingerprint)
      = some { fingerprint := request.fingerprint, response := R, inserted := now,
               ttl := min (R.getTTL uninit) ceiling } ∧
    (∀ later : Nat,
      ((c.setMaxAge ceiling).cacheEntry uninit now request R).containsCacheEntry later request
        = if (later : Int) - (now : Int) < min (R.getTTL uninit) ceiling then some R else none) ∧
    (∀ pre digits rest : Str,
      R.responseHeader.containsName kCacheControl = true →
      R.responseHeader.getValueAsString kCacheControl = pre ++ kMaxAge ++ (digits ++ rest) →
      (∀ i, i < pre.length → ¬ kMaxAge <+: (pre ++ kMaxAge ++ (digits ++ rest)).drop i) →
      digits ≠ [] → (∀ ch ∈ digits, ch.isDigit = true) →
      (∀ ch, rest.head? = some ch → ch.isDigit = false) →
      (decimalValue digits : Int) ≤ kIntMax →
      (c.setMaxAge ceiling).effectiveTTL uninit R = min (decimalValue digits : Int) ceiling) := by
  have heff : (c.setMaxAge ceiling).effectiveTTL uninit R = min (R.getTTL uninit) ceiling := rfl
  refine ⟨fun _ => rfl, ?_, ?_, ?_⟩
  · rw [find?_cacheEntry _ uninit now request request R rfl, heff]
  · intro later
    rw [containsCacheEntry_cacheEntry _ uninit now later request request R rfl, heff]
  · intro pre digits rest hcc hv hfirst hne hd hrest hfit
    rw [heff, getTTL_max_age uninit R pre digits rest hcc hv hfirst hne hd hrest,
      min_eq_left hfit]

/-- C19 after `setMaxAge(30)` at a response advertising `max-age=300`, inserted at second
101: the entry has a time-to-live of 30 seconds, is served at second 130 and is a miss at
second 131. -/
theorem ttl_ceiling_witness :
    (emptyCache.setMaxAge 30).effectiveTTL 0 (cacheControlResponse "max-age=300".toList)
      = min (decimalValue "300".toList : Int) 30 ∧
    min (decimalValue "300".toList : Int) 30 = 30 ∧
    ((emptyCache.setMaxAge 30).cacheEntry 0 101 getRequest
        (cacheControlResponse "max-age=300".toList)).containsCacheEntry 130 getRequest
      = some (cacheControlResponse "max-age=300".toList) ∧
    ((emptyCache.setMaxAge 30).cacheEntry 0 101 getRequest
        (cacheControlResponse "max-age=300".toList)).containsCacheEntry 131 getRequest
      = none :=
  ⟨(ttl_ceiling emptyCache 30 0 101 getRequest
      (cacheControlResponse "max-age=300".toList)).2.2.2 [] "300".toList [] (by decide) (by decide)
      (by decide) (by decide) (by decide) (by decide) (by decide),
   by decide,
   ((ttl_ceiling emptyCache 30 0 101 getRequest
      (cacheControlResponse "max-age=300".toList)).2.2.1 130).trans (by decide),
   ((ttl_ceiling emptyCache 30 0 101 getRequest
      (cacheControlResponse "max-age=300".toList)).2.2.1 131).trans (by decide)⟩

/-! ## The tunnel bridge -/

theorem wait_length (watchset : ProxyWatchset) :
    ∀ events : List Readiness,
      match watchset.wait events with
      | .timedOut _ => True
      | .ready fd _ rest => fd ∈ watchset.fds ∧ rest.length < events.length := by
  intro events
  induction events with
  | nil => trivial
  | cons event events ih =>
    cases event with
    | timeout => trivial
    | ready fd reads =>
      by_cases hfd : fd ∈ watchset.fds
      · simp only [ProxyWatchset.wait, if_pos hfd]
        exact ⟨hfd, Nat.lt_succ_self _⟩
      · simp only [ProxyWatchset.wait, if_neg hfd]
        cases hwait : watchset.wait events with
        | timedOut rest => trivial
        | ready fd1 reads1 rest =>
          rw [hwait] at ih
          exact ⟨ih.1, Nat.lt_succ_of_lt ih.2⟩

theorem consistent_drop (bridge : Bridge) (fd : Int) (h : bridge.consistent) :
    (bridge.drop fd).consistent := by
  intro fd1
  simp only [Bridge.drop, ProxyWatchset.remove, streamsErase, List.mem_filter, List.mem_map,
    decide_eq_true_eq]
  constructor
  · rintro ⟨h1, h2⟩
    obtain ⟨entry, hentry, hfst⟩ := List.mem_map.mp ((h fd1).mp h1)
    exact ⟨entry, ⟨hentry, by rw [hfst]; exact h2⟩, hfst⟩
  · rintro ⟨entry, ⟨hentry, hne⟩, hfst⟩
    refine ⟨(h fd1).mpr (List.mem_map.mpr ⟨entry, hentry, hfst⟩), ?_⟩
    rw [← hfst]
    exact hne

theorem consistent_start (clientfd serverfd : Int) (failed : List Side) :
    (Bridge.start clientfd serverfd failed).consistent := by
  intro fd
  simp only [Bridge.start, ProxyWatchset.add, streamsSet, List.not_mem_nil, if_false,
    List.nil_append, List.mem_singleton, List.filter_nil, List.filter_cons]
  by_cases h : serverfd = clientfd
  · subst h
    simp
  · have h1 : ¬ clientfd = serverfd := fun h2 => h h2.symm
    simp [h, h1]
    tauto

theorem not_mem_drop (bridge : Bridge) (fd : Int) :
    fd ∉ (bridge.drop fd).watchset.fds ∧ fd ∉ (bridge.drop fd).streams.map Prod.fst := by
  simp [Bridge.drop, ProxyWatchset.remove, streamsErase, List.mem_filter]

theorem mem_of_mem_drop (bridge : Bridge) (fd fd1 : Int)
    (h : fd1 ∈ (bridge.drop fd).watchset.fds) : fd1 ∈ bridge.watchset.fds := by
  simp only [Bridge.drop, ProxyWatchset.remove, List.mem_filter] at h
  exact h.1

theorem lookup_of_mem_keys (streams : List (Int × Side × Side)) (fd : Int)
    (h : fd ∈ streams.map Prod.fst) : ∃ value, streams.lookup fd = some value := by
  induction streams with
  | nil => simp at h
  | cons entry streams ih =>
    obtain ⟨key, value⟩ := entry
    by_cases hkey : fd = key
    · exact ⟨value, by simp [List.lookup, hkey]⟩
    · have h1 : fd ∈ streams.map Prod.fst := by
        simp only [List.map_cons, List.mem_cons] at h
        rcases h with h2 | h2
        · exact absurd h2 hkey
        · exact h2
      obtain ⟨found, hfound⟩ := ih h1
      refine ⟨found, ?_⟩
      have hbeq : (fd == key) = false := beq_eq_false_iff_ne.mpr hkey
      simp only [List.lookup, hbeq]
      exact hfound

/-- What one iteration of the relay loop records and leaves. -/
theorem relay_spec (bridge : Bridge) (fd : Int) (origin peer : Side) (reads : Reads)
    (rest : List Readiness) (hconsistent : bridge.consistent) :
    (relay bridge fd origin peer reads rest).fd = fd
      ∧ (relay bridge fd origin peer reads rest).reads = reads
      ∧ (relay bridge fd origin peer reads rest).rest = rest
      ∧ (relay bridge fd origin peer reads rest).origin = origin
      ∧ (relay bridge fd origin peer reads rest).peer = peer
      ∧ ((relay bridge fd origin peer reads rest).probed = true
          ↔ origin ∉ bridge.failed ∧ reads.probe.isSome = true)
      ∧ ((relay bridge fd origin peer reads rest).probed = false →
          (relay bridge fd origin peer reads rest).bytes = []
            ∧ (relay bridge fd origin peer reads rest).dropped = true)
      ∧ ((relay bridge fd origin peer reads rest).probed = true →
          (relay bridge fd origin peer reads rest).bytes
              = (if peer ∈ bridge.failed then [] else reads.extracted)
            ∧ (relay bridge fd origin peer reads rest).dropped
                = (drain reads.drained reads.closed).2)
      ∧ ((relay bridge fd origin peer reads rest).dropped = true →
          (relay bridge fd origin peer reads rest).next.watchset = bridge.watchset.remove fd
            ∧ (relay bridge fd origin peer reads rest).next.streams
                = streamsErase bridge.streams fd
            ∧ (relay bridge fd origin peer reads rest).next.failed = origin :: bridge.failed)
      ∧ ((relay bridge fd origin peer reads rest).dropped = false →
          (relay bridge fd origin peer reads rest).next = bridge)
      ∧ (relay bridge fd origin peer reads rest).next.consistent
      ∧ (∀ fd1 ∈ (relay bridge fd origin peer reads rest).next.watchset.fds,
          fd1 ∈ bridge.watchset.fds)
      ∧ ((relay bridge fd origin peer reads rest).dropped = true →
          fd ∉ (relay bridge fd origin peer reads rest).next.watchset.fds
            ∧ fd ∉ (relay bridge fd origin peer reads rest).next.streams.map Prod.fst) := by
  have hdropped : ((bridge.fail origin).drop fd).consistent :=
    consistent_drop (bridge.fail origin) fd hconsistent
  have hnone : bridge.probe origin reads = none →
      relay bridge fd origin peer reads rest
        = ⟨fd, reads, rest, origin, peer, false, [], true, (bridge.fail origin).drop fd⟩ := by
    intro h
    simp only [relay, h]
  have hsome : ∀ byte, bridge.probe origin reads = some byte →
      relay bridge fd origin peer reads rest
        = ⟨fd, reads, rest, origin, peer, true,
            bridge.write peer (byte :: (drain reads.drained reads.closed).1),
            (drain reads.drained reads.closed).2,
            if (drain reads.drained reads.closed).2 then (bridge.fail origin).drop fd
            else bridge⟩ := by
    intro byte h
    simp only [relay, h]
  have hft : ¬ (false = true) := by decide
  have htf : ¬ (true = false) := by decide
  cases hprobe : bridge.probe origin reads with
  | none =>
    rw [hnone hprobe]
    have hnot : ¬ (origin ∉ bridge.failed ∧ reads.probe.isSome = true) := by
      rintro ⟨h1, h2⟩
      simp only [Bridge.probe, if_neg h1] at hprobe
      rw [hprobe] at h2
      exact absurd h2 (by decide)
    exact ⟨rfl, rfl, rfl, rfl, rfl, ⟨fun h => absurd h hft, fun h => absurd h hnot⟩,
      fun _ => ⟨rfl, rfl⟩, fun h => absurd h hft, fun _ => ⟨rfl, rfl, rfl⟩,
      fun h => absurd h htf, hdropped,
      fun fd1 h1 => mem_of_mem_drop (bridge.fail origin) fd fd1 h1,
      fun _ => not_mem_drop (bridge.fail origin) fd⟩
  | some byte =>
    rw [hsome byte hprobe]
    have hgood : origin ∉ bridge.failed := by
      intro h1
      simp only [Bridge.probe, if_pos h1] at hprobe
      exact absurd hprobe (by simp)
    have hbyte : reads.probe = some byte := by
      simpa only [Bridge.probe, if_neg hgood] using hprobe
    have hsomeByte : reads.probe.isSome = true := by
      rw [hbyte]
      rfl
    have hbytes : bridge.write peer (byte :: (drain reads.drained reads.closed).1)
        = (if peer ∈ bridge.failed then [] else reads.extracted) := by
      simp only [Bridge.write, Reads.extracted, hbyte]
    by_cases hclosed : (drain reads.drained reads.closed).2 = true
    · rw [if_pos hclosed]
      exact ⟨rfl, rfl, rfl, rfl, rfl, ⟨fun _ => ⟨hgood, hsomeByte⟩, fun _ => rfl⟩,
        fun h => absurd h htf, fun _ => ⟨hbytes, rfl⟩, fun _ => ⟨rfl, rfl, rfl⟩,
        fun h => absurd (hclosed.symm.trans h) htf, hdropped,
        fun fd1 h1 => mem_of_mem_drop (bridge.fail origin) fd fd1 h1,
        fun _ => not_mem_drop (bridge.fail origin) fd⟩
    · rw [if_neg hclosed]
      exact ⟨rfl, rfl, rfl, rfl, rfl, ⟨fun _ => ⟨hgood, hsomeByte⟩, fun _ => rfl⟩,
        fun h => absurd h htf, fun _ => ⟨hbytes, rfl⟩,
        fun h => absurd h hclosed, fun _ => rfl, hconsistent, fun fd1 h1 => h1,
        fun h => absurd h hclosed⟩

theorem relayLoop_spec :
    ∀ (budget : Nat) (events : List Readiness) (bridge : Bridge), bridge.consistent →
      events.length < budget →
      ((relayLoop budget events bridge).2 = .empty
          ∨ (relayLoop budget events bridge).2 = .timeout)
        ∧ loopRun bridge events (relayLoop budget events bridge).1
        ∧ ((relayLoop budget events bridge).2 = .empty
            ↔ (lastTest bridge events (relayLoop budget events bridge).1).1.streams = [])
        ∧ ((relayLoop budget events bridge).2 = .timeout
            ↔ (lastTest bridge events (relayLoop budget events bridge).1).1.streams ≠ []
              ∧ ((lastTest bridge events (relayLoop budget events bridge).1).1.watchset.wait
                  (lastTest bridge events (relayLoop budget events bridge).1).2).fd = -1)
        ∧ (∀ r ∈ (relayLoop budget events bridge).1, r.next.consistent)
        ∧ (∀ r ∈ (relayLoop budget events bridge).1, r.fd ∈ bridge.watchset.fds)
        ∧ (∀ r ∈ (relayLoop budget events bridge).1,
            r.probed = false → r.bytes = [] ∧ r.dropped = true)
        ∧ (∀ r ∈ (relayLoop budget events bridge).1, r.dropped = true →
            r.fd ∉ r.next.watchset.fds ∧ r.fd ∉ r.next.streams.map Prod.fst)
        ∧ (relayLoop budget events bridge).1.Pairwise
            (fun earlier later => earlier.dropped = true → later.fd ≠ earlier.fd) := by
  intro budget
  induction budget with
  | zero =>
    intro events bridge _ h
    exact absurd h (Nat.not_lt_zero _)
  | succ budget ih =>
    intro events bridge hconsistent hbudget
    by_cases hempty : bridge.streams = []
    · have hrun : relayLoop (budget + 1) events bridge = ([], .empty) := by
        rw [relayLoop, if_pos hempty]
      rw [hrun]
      simp [lastTest, loopRun, hempty]
    · have hwait := wait_length bridge.watchset events
      cases hwaited : bridge.watchset.wait events with
      | timedOut rest =>
        have hrun : relayLoop (budget + 1) events bridge = ([], .timeout) := by
          rw [relayLoop, if_neg hempty, hwaited]
        rw [hrun]
        simp [lastTest, loopRun, hempty, hwaited, Waited.fd]
      | ready fd reads rest =>
        rw [hwaited] at hwait
        obtain ⟨hwatched, hrest⟩ := hwait
        by_cases hminus : fd = -1
        · have hrun : relayLoop (budget + 1) events bridge = ([], .timeout) := by
            rw [relayLoop, if_neg hempty, hwaited]
            simp only [if_pos hminus]
          rw [hrun]
          simp [lastTest, loopRun, hempty, hwaited, Waited.fd, hminus]
        · obtain ⟨value, hvalue⟩ :=
            lookup_of_mem_keys bridge.streams fd ((hconsistent fd).mp hwatched)
          obtain ⟨origin, peer⟩ := value
          have hrun : relayLoop (budget + 1) events bridge
              = (relay bridge fd origin peer reads rest
                  :: (relayLoop budget rest (relay bridge fd origin peer reads rest).next).1,
                (relayLoop budget rest (relay bridge fd origin peer reads rest).next).2) := by
            rw [relayLoop, if_neg hempty, hwaited]
            simp only [if_neg hminus, hvalue]
          obtain ⟨hfd, hreads, hrests, horigin, hpeer, hprobed, hfailed, hsent, hdrop, hkeep,
            hnext, hsub, hgone⟩ := relay_spec bridge fd origin peer reads rest hconsistent
          obtain ⟨h1, h2, h3, h4, h5, h6, h7, h8, h9⟩ :=
            ih rest (relay bridge fd origin peer reads rest).next hnext (by omega)
          rw [hrun]
          refine ⟨h1, ?_, ?_, ?_, ?_, ?_, ?_, ?_, ?_⟩
          · refine ⟨hempty, ?_, ?_, ?_, ?_, hfailed, ?_, ?_, hkeep, ?_⟩
            · rw [hfd, hreads, hrests]
              exact hwaited
            · rw [hfd]
              exact hminus
            · rw [hfd, horigin, hpeer]
              exact hvalue
            · rw [horigin, hreads]
              exact hprobed
            · rw [hpeer, hreads]
              exact hsent
            · rw [hfd, horigin]
              exact hdrop
            · rw [hrests]
              exact h2
          · show _ ↔ (lastTest (relay bridge fd origin peer reads rest).next
                (relay bridge fd origin peer reads rest).rest _).1.streams = []
            rw [hrests]
            exact h3
          · show _ ↔ (lastTest (relay bridge fd origin peer reads rest).next
                (relay bridge fd origin peer reads rest).rest _).1.streams ≠ [] ∧
              ((lastTest (relay bridge fd origin peer reads rest).next
                (relay bridge fd origin peer reads rest).rest _).1.watchset.wait
                (lastTest (relay bridge fd origin peer reads rest).next
                  (relay bridge fd origin peer reads rest).rest _).2).fd = -1
            rw [hrests]
            exact h4
          · intro r hr
            rcases List.mem_cons.mp hr with h10 | h10
            · rw [h10]
              exact hnext
            · exact h5 r h10
          · intro r hr
            rcases List.mem_cons.mp hr with h10 | h10
            · rw [h10, hfd]
              exact hwatched
            · exact hsub _ (h6 r h10)
          · intro r hr
            rcases List.mem_cons.mp hr with h10 | h10
            · rw [h10]
              exact hfailed
            · exact h7 r h10
          · intro r hr
            rcases List.mem_cons.mp hr with h10 | h10
            · rw [h10, hfd]
              exact hgone
            · exact h8 r h10
          · rw [List.pairwise_cons]
            refine ⟨?_, h9⟩
            intro later hlater hd heq
            have h11 := h6 later hlater
            rw [heq, hfd] at h11
            exact (hgone hd).1 h11

/-- C27: for every pair of descriptors, whatever the state of the two streams at the call
and whatever happens outside the bridge afterwards, the relay loop of
`manageClientServerBridge` ends, because the active map is empty or because `wait` returned
-1. Its iterations are a run of the loop from the state at entry: each follows a test that
finds the active map not empty and a `wait` that returns a descriptor other than -1; an
iteration whose one-byte probe extracts nothing forwards nothing and drops its descriptor;
an iteration that drops its descriptor removes it from the watchset and from the active
map, and one that does not changes neither. The loop ends because the map is empty exactly
when the map is empty at the last test, and because of a timeout exactly when the map is
not empty at the last test and `wait` returns -1 there. At every test of the loop condition
the watched descriptors are the keys of the active map; a dropped descriptor is neither
watched nor a key of the active map afterwards; and no later iteration relays from a
descriptor that was dropped. -/
theorem manageClientServerBridge_teardown (clientfd serverfd : Int) (failed : List Side)
    (events : List Readiness) :
    ((manageClientServerBridge clientfd serverfd failed events).2 = .empty
        ∨ (manageClientServerBridge clientfd serverfd failed events).2 = .timeout)
      ∧ loopRun (Bridge.start clientfd serverfd failed) events
          (manageClientServerBridge clientfd serverfd failed events).1
      ∧ ((manageClientServerBridge clientfd serverfd failed events).2 = .empty
          ↔ (lastTest (Bridge.start clientfd serverfd failed) events
              (manageClientServerBridge clientfd serverfd failed events).1).1.streams = [])
      ∧ ((manageClientServerBridge clientfd serverfd failed events).2 = .timeout
          ↔ (lastTest (Bridge.start clientfd serverfd failed) events
                (manageClientServerBridge clientfd serverfd failed events).1).1.streams ≠ []
            ∧ ((lastTest (Bridge.start clientfd serverfd failed) events
                  (manageClientServerBridge clientfd serverfd failed events).1).1.watchset.wait
                (lastTest (Bridge.start clientfd serverfd failed) events
                  (manageClientServerBridge clientfd serverfd failed events).1).2).fd = -1)
      ∧ (Bridge.start clientfd serverfd failed).consistent
      ∧ (∀ r ∈ (manageClientServerBridge clientfd serverfd failed events).1,
          r.next.consistent)
      ∧ (∀ r ∈ (manageClientServerBridge clientfd serverfd failed events).1,
          r.probed = false → r.bytes = [] ∧ r.dropped = true)
      ∧ (∀ r ∈ (manageClientServerBridge clientfd serverfd failed events).1,
          r.dropped = true →
            r.fd ∉ r.next.watchset.fds ∧ r.fd ∉ r.next.streams.map Prod.fst)
      ∧ (manageClientServerBridge clientfd serverfd failed events).1.Pairwise
          (fun earlier later => earlier.dropped = true → later.fd ≠ earlier.fd) := by
  obtain ⟨h1, h2, h3, h4, h5, _, h7, h8, h9⟩ :=
    relayLoop_spec (events.length + 1) events (Bridge.start clientfd serverfd failed)
      (consistent_start clientfd serverfd failed) (Nat.lt_succ_self _)
  exact ⟨h1, h2, h3, h4, consistent_start clientfd serverfd failed, h5, h7, h8, h9⟩

/-- C27 at a tunnel between descriptors 5 and 7 with both streams in good state: the client
sends `abc`, a descriptor that is not watched is ignored, the client closes, the bytes that
the server sends afterwards are taken by no stream, and after a timeout the loop ends with
the server still in the active map. -/
theorem manageClientServerBridge_teardown_witness :
    manageClientServerBridge 5 7 []
        [ .ready 5 ⟨some 'a', ["bc".toList], false⟩,
          .ready 9 ⟨some 'x', [], false⟩,
          .ready 5 ⟨none, [], false⟩,
          .ready 7 ⟨some 'y', ["z".toList], false⟩,
          .timeout,
          .ready 7 ⟨none, [], false⟩ ]
      = ([ ⟨5, ⟨some 'a', ["bc".toList], false⟩,
              [ .ready 9 ⟨some 'x', [], false⟩, .ready 5 ⟨none, [], false⟩,
                .ready 7 ⟨some 'y', ["z".toList], false⟩, .timeout,
                .ready 7 ⟨none, [], false⟩ ],
              .client, .server, true, "abc".toList, false, Bridge.start 5 7 []⟩,
           ⟨5, ⟨none, [], false⟩,
              [ .ready 7 ⟨some 'y', ["z".toList], false⟩, .timeout,
                .ready 7 ⟨none, [], false⟩ ],
              .client, .server, false, [], true,
              ⟨⟨[7]⟩, [(7, .server, .client)], [.client]⟩⟩,
           ⟨7, ⟨some 'y', ["z".toList], false⟩, [ .timeout, .ready 7 ⟨none, [], false⟩ ],
              .server, .client, true, [], false,
              ⟨⟨[7]⟩, [(7, .server, .client)], [.client]⟩⟩ ], .timeout)
      ∧ ((manageClientServerBridge 5 7 []
            [ .ready 5 ⟨some 'a', ["bc".toList], false⟩,
              .ready 9 ⟨some 'x', [], false⟩,
              .ready 5 ⟨none, [], false⟩,
              .ready 7 ⟨some 'y', ["z".toList], false⟩,
              .timeout,
              .ready 7 ⟨none, [], false⟩ ]).2 = .timeout
          ↔ (lastTest (Bridge.start 5 7 [])
                [ .ready 5 ⟨some 'a', ["bc".toList], false⟩,
                  .ready 9 ⟨some 'x', [], false⟩,
                  .ready 5 ⟨none, [], false⟩,
                  .ready 7 ⟨some 'y', ["z".toList], false⟩,
                  .timeout,
                  .ready 7 ⟨none, [], false⟩ ]
                (manageClientServerBridge 5 7 []
                  [ .ready 5 ⟨some 'a', ["bc".toList], false⟩,
                    .ready 9 ⟨some 'x', [], false⟩,
                    .ready 5 ⟨none, [], false⟩,
                    .ready 7 ⟨some 'y', ["z".toList], false⟩,
                    .timeout,
                    .ready 7 ⟨none, [], false⟩ ]).1).1.streams ≠ []
            ∧ ((lastTest (Bridge.start 5 7 [])
                  [ .ready 5 ⟨some 'a', ["bc".toList], false⟩,
                    .ready 9 ⟨some 'x', [], false⟩,
                    .ready 5 ⟨none, [], false⟩,
                    .ready 7 ⟨some 'y', ["z".toList], false⟩,
                    .timeout,
                    .ready 7 ⟨none, [], false⟩ ]
                  (manageClientServerBridge 5 7 []
                    [ .ready 5 ⟨some 'a', ["bc".toList], false⟩,
                      .ready 9 ⟨some 'x', [], false⟩,
                      .ready 5 ⟨none, [], false⟩,
                      .ready 7 ⟨some 'y', ["z".toList], false⟩,
                      .timeout,
                      .ready 7 ⟨none, [], false⟩ ]).1).1.watchset.wait
                (lastTest (Bridge.start 5 7 [])
                  [ .ready 5 ⟨some 'a', ["bc".toList], false⟩,
                    .ready 9 ⟨some 'x', [], false⟩,
                    .ready 5 ⟨none, [], false⟩,
                    .ready 7 ⟨some 'y', ["z".toList], false⟩,
                    .timeout,
                    .ready 7 ⟨none, [], false⟩ ]
                  (manageClientServerBridge 5 7 []
                    [ .ready 5 ⟨some 'a', ["bc".toList], false⟩,
                      .ready 9 ⟨some 'x', [], false⟩,
                      .ready 5 ⟨none, [], false⟩,
                      .ready 7 ⟨some 'y', ["z".toList], false⟩,
                      .timeout,
                      .ready 7 ⟨none, [], false⟩ ]).1).2).fd = -1) :=
  ⟨by decide,
    (manageClientServerBridge_teardown 5 7 []
      [ .ready 5 ⟨some 'a', ["bc".toList], false⟩,
        .ready 9 ⟨some 'x', [], false⟩,
        .ready 5 ⟨none, [], false⟩,
        .ready 7 ⟨some 'y', ["z".toList], false⟩,
        .timeout,
        .ready 7 ⟨none, [], false⟩ ]).2.2.2.1⟩

/-- A tunnel in which both sides close: the loop ends with the active map empty. -/
theorem manageClientServerBridge_example :
    manageClientServerBridge 5 7 []
      [ .ready 5 ⟨some 'a', ["bc".toList], false⟩,
        .ready 9 ⟨some 'x', [], false⟩,
        .ready 7 ⟨none, [], false⟩,
        .ready 7 ⟨some 'y', [], false⟩,
        .ready 5 ⟨some 'd', [], true⟩ ]
    = ([ ⟨5, ⟨some 'a', ["bc".toList], false⟩,
            [ .ready 9 ⟨some 'x', [], false⟩, .ready 7 ⟨none, [], false⟩,
              .ready 7 ⟨some 'y', [], false⟩, .ready 5 ⟨some 'd', [], true⟩ ],
            .client, .server, true, "abc".toList, false, Bridge.start 5 7 []⟩,
         ⟨7, ⟨none, [], false⟩,
            [ .ready 7 ⟨some 'y', [], false⟩, .ready 5 ⟨some 'd', [], true⟩ ],
            .server, .client, false, [], true,
            ⟨⟨[5]⟩, [(5, .client, .server)], [.server]⟩⟩,
         ⟨5, ⟨some 'd', [], true⟩, [], .client, .server, true, [], true,
            ⟨⟨[]⟩, [], [.client, .server]⟩⟩ ], .empty) := by
  decide

/-! ## Failed forwards and the cache -/

/-- C26 fails on the code: in `truncatedWorld` the origin is reached, `forwardRequest`
raises an `HTTPRequestException` after the response header with `Cache-Control: max-age=60`
was ingested, `handleRequest` answers 510, and then evaluates `shouldCache` on the response
as `forwardRequest` left it and inserts it: the cache, empty before the call, holds an entry
afterwards, which a later lookup for the same request returns. -/
theorem handleRequest_caches_after_failed_forward :
    (forwardRequest truncatedWorld getRequest (HTTPResponse.fresh 0)).raised
        = some (.proxy (.requestFailure "truncated".toList))
      ∧ freshHandler.cache = emptyCache
      ∧ (handleRequest freshHandler truncatedWorld getRequest).cache ≠ emptyCache
      ∧ (handleRequest freshHandler truncatedWorld getRequest).trace.filter
          (fun e => e.isCache || e.isOrigin)
          = [.containsCacheEntry, .createClientSocket "origin.example".toList 80,
             .sendRequest (addHeaders getRequest), .ingestResponseHeader, .shouldCache,
             .cacheEntry]
      ∧ ((handleRequest freshHandler truncatedWorld getRequest).cache.containsCacheEntry 102
          getRequest).isSome = true := by
  decide

/-! ## The two modes of payload ingestion -/

/-- C28, as stated, fails: a header block that spells the coding `Chunked`, or that lists
`gzip, chunked`, is not taken as chunked: `ingestPayload` runs the length-delimited mode on
it, which reads the three bytes that `Content-Length` declares, where the chunked mode would
have read the whole chunked body. -/
theorem ingestPayload_exact_chunked_only :
    isChunkedPayload (codingHeader "Chunked".toList) = false
      ∧ isChunkedPayload (codingHeader "gzip, chunked".toList) = false
      ∧ HTTPPayload.ingestPayload ⟨[]⟩ (codingHeader "Chunked".toList)
          ⟨"3\r\nabc\r\n0\r\n\r\n".toList, true⟩
        = .ok (⟨"3\r\n".toList⟩, ⟨"abc\r\n0\r\n\r\n".toList, true⟩)
      ∧ HTTPPayload.ingestPayload ⟨[]⟩ (codingHeader "gzip, chunked".toList)
          ⟨"3\r\nabc\r\n0\r\n\r\n".toList, true⟩
        = .ok (⟨"3\r\n".toList⟩, ⟨"abc\r\n0\r\n\r\n".toList, true⟩)
      ∧ HTTPPayload.ingestPayload ⟨[]⟩ (codingHeader "chunked".toList)
          ⟨"3\r\nabc\r\n0\r\n\r\n".toList, true⟩
        = .ok (⟨"3\r\nabc\r\n0\r\n\r\n".toList⟩, ⟨[], true⟩) :=
  ⟨by decide, by decide, rfl, rfl, rfl⟩

/-- C28, amended: `HTTPPayload::ingestPayload` runs exactly one of its two modes. It runs
the chunked mode, which never fails, exactly when the value stored under `Transfer-Encoding`
is the string `chunked`, letter for letter and with nothing else in it; for every other
value, and when the header is absent, it runs the length-delimited mode on the number that
`Content-Length` gives, and fails when that gives none. -/
theorem ingestPayload_mode (p : HTTPPayload) (header : HTTPHeader) (is : IStream) :
    (header.getValueAsString "Transfer-Encoding".toList = "chunked".toList →
        p.ingestPayload header is = .ok (p.ingestChunkedPayload is))
      ∧ (header.getValueAsString "Transfer-Encoding".toList ≠ "chunked".toList →
        p.ingestPayload header is
          = match header.getValueAsNumber "Content-Length".toList with
            | .error e => .error e
            | .ok contentLength => .ok (p.ingestCompletePayload is (contentLength % 2 ^ 64)))
      ∧ (header.containsName "Transfer-Encoding".toList = false →
        header.getValueAsString "Transfer-Encoding".toList ≠ "chunked".toList) := by
  refine ⟨?_, ?_, ?_⟩
  · intro h
    have hchunked : isChunkedPayload header = true := by
      unfold isChunkedPayload
      exact decide_eq_true h
    simp only [HTTPPayload.ingestPayload, hchunked, if_true]
  · intro h
    have hchunked : isChunkedPayload header = false := by
      unfold isChunkedPayload
      exact decide_eq_false h
    simp only [HTTPPayload.ingestPayload, hchunked, Bool.false_eq_true, if_false]
  · intro habsent
    unfold HTTPHeader.containsName at habsent
    unfold HTTPHeader.getValueAsString
    have hfind : header.headers.find? (fun e => sameName e.1 "Transfer-Encoding".toList)
        = none := by
      rw [List.find?_eq_none]
      intro e he
      have := List.any_eq_false.mp habsent e he
      simpa using this
    rw [hfind]
    decide

end Proxy

namespace FileDir

/-! ## Sizes, conversions and array reads -/

theorem inode_getsize_nonneg (inp : inode) : 0 ≤ inode_getsize inp := by
  unfold inode_getsize
  exact Int.natCast_nonneg _

theorem inode_getsize_lt (inp : inode) : inode_getsize inp < 2 ^ 24 := by
  unfold inode_getsize
  have h1 : (inp.i_size0 % 2 ^ 8) <<< 16 < 2 ^ 24 := by
    rw [Nat.shiftLeft_eq]
    have := Nat.mod_lt inp.i_size0 (show 0 < 2 ^ 8 by norm_num)
    omega
  have h2 : inp.i_size1 % 2 ^ 16 < 2 ^ 24 := by
    have := Nat.mod_lt inp.i_size1 (show 0 < 2 ^ 16 by norm_num)
    omega
  have h3 := Nat.or_lt_two_pow h1 h2
  exact_mod_cast h3

theorem toSizeT_natCast {n : Nat} (h : n < 2 ^ 64) : toSizeT (n : Int) = n := by
  unfold toSizeT
  rw [Int.emod_eq_of_lt (Int.natCast_nonneg n) (by exact_mod_cast h)]
  exact Int.toNat_natCast n

theorem toInt_of_lt {n : Nat} (h : n < 2 ^ 31) : toInt n = (n : Int) := by
  unfold toInt
  have h1 : n % 2 ^ 32 = n := Nat.mod_eq_of_lt (by omega)
  rw [h1, if_pos h]

theorem index_natCast {α : Type} {n : Nat} (array : String) (a : Fin n → α) (i : Nat)
    (h : i < n) : index array a (i : Int) = .ok (a ⟨i, h⟩) := by
  unfold index
  have h1 : 0 ≤ (i : Int) ∧ (i : Int).toNat < n := ⟨Int.natCast_nonneg i, by simpa using h⟩
  rw [dif_pos h1]
  simp

theorem tdiv_size_le (inp : inode) :
    (inode_getsize inp - 1).tdiv DISKIMG_SECTOR_SIZE ≤ 32767 := by
  have h0 := inode_getsize_nonneg inp
  have h1 := inode_getsize_lt inp
  unfold DISKIMG_SECTOR_SIZE
  rcases lt_or_le (inode_getsize inp - 1) 0 with h | h
  · have h2 : inode_getsize inp - 1 = -1 := by omega
    rw [h2]
    decide
  · rw [Int.tdiv_eq_ediv h (by norm_num)]
    omega

theorem BNUMS_PER_BLOCK_eq : BNUMS_PER_BLOCK = 256 := by decide

theorem max_sindir_blocks_size_eq :
    toInt (toSizeT INDIR_ADDR * 256 % 2 ^ 64) = 1792 := by decide

theorem addr_of_lt (inp : inode) (k : Nat) (h : k < 8) :
    inp.addr k = some (inp.i_addr ⟨k, h⟩) := by
  unfold inode.addr
  rw [dif_pos h]

theorem entry_of_lt (sector : Sector) (k : Nat) (h : k < 256) :
    sector.entry k = some (sector.bnums ⟨k, h⟩) := by
  unfold Sector.entry
  rw [dif_pos h]

theorem inode_indexlookup_natCast (fs : unixfilesystem) (inp : inode) (idx : Nat)
    (hrange : (idx : Int) ≤ (inode_getsize inp - 1).tdiv DISKIMG_SECTOR_SIZE)
    (hdirect : inp.i_mode &&& ILARG = 0 → idx < 8) :
    inode_indexlookup fs inp idx = .ok (blockOrError (v6BlockNumber fs inp idx)) := by
  have hle := tdiv_size_le inp
  have hidx : idx ≤ 32767 := by omega
  have hnot : ¬ ((idx : Int) < 0 ∨
      (idx : Int) > (inode_getsize inp - 1).tdiv DISKIMG_SECTOR_SIZE) := by omega
  unfold inode_indexlookup v6BlockNumber
  simp only [if_neg hnot, BNUMS_PER_BLOCK_eq, max_sindir_blocks_size_eq]
  by_cases hlarg : inp.i_mode &&& ILARG = 0
  · have h8 := hdirect hlarg
    simp only [if_pos hlarg, index_natCast "i_addr" inp.i_addr idx h8, addr_of_lt inp idx h8,
      blockOrError]
  · simp only [if_neg hlarg]
    by_cases hs : idx < 7 * 256
    · have hs1 : (idx : Int) < 1792 := by omega
      have hq : idx / 256 < 8 := by omega
      have hr : idx % 256 < 256 := by omega
      rw [if_pos hs1, if_pos hs, toSizeT_natCast (by omega), toInt_of_lt (by omega),
        toInt_of_lt (by omega), index_natCast "i_addr" inp.i_addr (idx / 256) hq,
        addr_of_lt inp _ hq]
      simp only [Option.bind_eq_bind, Option.some_bind]
      cases fs.diskimg_readsector (inp.i_addr ⟨idx / 256, hq⟩) with
      | none => rfl
      | some dir_bnums =>
        simp only [index_natCast "dir_bnums" dir_bnums.bnums (idx % 256) hr,
          entry_of_lt dir_bnums _ hr, Option.some_bind, blockOrError]
    · have hs1 : ¬ (idx : Int) < 1792 := by omega
      have hj : ((idx : Int) - 1792) = ((idx - 7 * 256 : Nat) : Int) := by omega
      have hq : (idx - 7 * 256) / 256 < 256 := by omega
      have hr : (idx - 7 * 256) % 256 < 256 := by omega
      have h7 : index "i_addr" inp.i_addr INDIR_ADDR = .ok (inp.i_addr ⟨7, by decide⟩) :=
        index_natCast "i_addr" inp.i_addr 7 (by decide)
      rw [if_neg hs1, if_neg hs, hj, toSizeT_natCast (by omega), toInt_of_lt (by omega),
        toInt_of_lt (by omega), h7, addr_of_lt inp 7 (by decide)]
      simp only [Option.bind_eq_bind, Option.some_bind]
      cases fs.diskimg_readsector (inp.i_addr ⟨7, by decide⟩) with
      | none => rfl
      | some sindir_bnums =>
        simp only [index_natCast "sindir_bnums" sindir_bnums.bnums _ hq,
          entry_of_lt sindir_bnums _ hq, Option.some_bind]
        cases fs.diskimg_readsector (sindir_bnums.bnums ⟨(idx - 7 * 256) / 256, hq⟩) with
        | none => rfl
        | some dir_bnums =>
          simp only [index_natCast "dir_bnums" dir_bnums.bnums _ hr,
            entry_of_lt dir_bnums _ hr, Option.some_bind, blockOrError]

theorem inode_indexlookup_out_of_range (fs : unixfilesystem) (inp : inode) (idx : Int)
    (hrange : idx < 0 ∨ idx > (inode_getsize inp - 1).tdiv DISKIMG_SECTOR_SIZE) :
    inode_indexlookup fs inp idx = .ok (-1) := by
  unfold inode_indexlookup
  simp only [if_pos hrange]

/-! ## Block lookup -/

/-- C23, as stated, fails: for the inode with `ILARG` clear and the size 6000, block
index 11 is within `0 <= idx <= (size - 1) / 512`, and `inode_indexlookup` does not return
an entry of `i_addr`: it reads `i_addr[11]`, outside the eight entries of the array. -/
theorem inode_indexlookup_direct_index_unchecked :
    (inodeOf 0o100000 6000 [40, 41, 42, 43, 44, 45, 46, 47]).i_mode &&& ILARG = 0
      ∧ (0 : Int) ≤ 11
      ∧ (11 : Int) ≤
          (inode_getsize (inodeOf 0o100000 6000 [40, 41, 42, 43, 44, 45, 46, 47]) - 1) / 512
      ∧ inode_indexlookup exampleDisk (inodeOf 0o100000 6000 [40, 41, 42, 43, 44, 45, 46, 47])
          11 = .error (.outOfBounds "i_addr" 11) :=
  ⟨by decide, by decide, by decide, rfl⟩

/-- C23, amended: for an inode and a block index `idx` that is below 8 when `ILARG` is
clear, `inode_indexlookup` returns -1 for `idx < 0` and for `idx > (size - 1) / 512` (the
division of C), and otherwise the block number that the V6 addressing scheme gives:
`i_addr[idx]` when `ILARG` is clear; when it is set and `idx < 7 * 256`, entry `idx mod 256`
of the indirect block `i_addr[idx / 256]`; otherwise, with `j = idx - 7 * 256`, entry
`j mod 256` of the indirect block named by entry `j / 256` of the doubly indirect block
`i_addr[7]`; and -1 when one of these sectors cannot be read. -/
theorem inode_indexlookup_v6_scheme (fs : unixfilesystem) (inp : inode) (idx : Int)
    (hdirect : inp.i_mode &&& ILARG = 0 → idx < 8) :
    inode_indexlookup fs inp idx =
      .ok (if idx < 0 ∨ idx > (inode_getsize inp - 1).tdiv DISKIMG_SECTOR_SIZE then -1
           else blockOrError (v6BlockNumber fs inp idx.toNat)) := by
  by_cases hrange : idx < 0 ∨ idx > (inode_getsize inp - 1).tdiv DISKIMG_SECTOR_SIZE
  · rw [if_pos hrange]
    exact inode_indexlookup_out_of_range fs inp idx hrange
  · rw [if_neg hrange]
    have h0 : 0 ≤ idx := by omega
    obtain ⟨n, rfl⟩ := Int.eq_ofNat_of_zero_le h0
    rw [Int.toNat_natCast]
    exact inode_indexlookup_natCast fs inp n (by omega) (by omega)

theorem inode_indexlookup_v6_scheme_witness :
    inode_indexlookup exampleDisk (inodeOf 0o110000 (2 ^ 20) [20, 21, 22, 23, 24, 25, 26, 30])
        2000 = .ok 40208
      ∧ inode_indexlookup exampleDisk
        (inodeOf 0o110000 (2 ^ 20) [20, 21, 22, 23, 24, 25, 26, 30]) 300 = .ok 21044
      ∧ inode_indexlookup exampleDisk (inodeOf 0o100000 1000 [12, 13]) 1 = .ok 13 :=
  ⟨inode_indexlookup_v6_scheme exampleDisk _ 2000 (by decide),
   inode_indexlookup_v6_scheme exampleDisk _ 300 (by decide),
   inode_indexlookup_v6_scheme exampleDisk _ 1 (by decide)⟩

/-- C30 fails on the code: the inode with `ILARG` clear and the size 5000 has a size below
`2 ^ 24`, block index 8 passes the range check of `inode_indexlookup`, and the function
reads `i_addr[8]`, an index that is not below 8. -/
theorem inode_indexlookup_reads_past_i_addr :
    inode_getsize (inodeOf 0o100000 5000 [40, 41, 42, 43, 44, 45, 46, 47]) < 2 ^ 24
      ∧ ¬ ((8 : Int) < 0 ∨ (8 : Int) >
          (inode_getsize (inodeOf 0o100000 5000 [40, 41, 42, 43, 44, 45, 46, 47]) - 1).tdiv
            DISKIMG_SECTOR_SIZE)
      ∧ inode_indexlookup exampleDisk (inodeOf 0o100000 5000 [40, 41, 42, 43, 44, 45, 46, 47]) 8
          = .error (.outOfBounds "i_addr" 8) :=
  ⟨by decide, by decide, rfl⟩

/-- For every inode whose size is at most `8 * 512` bytes when `ILARG` is clear, and every
`fileBlockIndex` that passes the range check of `inode_indexlookup`, the function reads no
array outside its bounds: it returns, and what it returns is the block number of the V6
addressing scheme or -1. The size is below `2 ^ 24` for every inode. -/
theorem inode_indexlookup_in_bounds (fs : unixfilesystem) (inp : inode) (fileBlockIndex : Int)
    (hsmall : inp.i_mode &&& ILARG = 0 → inode_getsize inp ≤ 8 * 512)
    (hrange : ¬ (fileBlockIndex < 0 ∨
      fileBlockIndex > (inode_getsize inp - 1).tdiv DISKIMG_SECTOR_SIZE)) :
    inode_getsize inp < 2 ^ 24 ∧
      inode_indexlookup fs inp fileBlockIndex =
        .ok (blockOrError (v6BlockNumber fs inp fileBlockIndex.toNat)) := by
  refine ⟨inode_getsize_lt inp, ?_⟩
  have h0 : 0 ≤ fileBlockIndex := by omega
  obtain ⟨n, rfl⟩ := Int.eq_ofNat_of_zero_le h0
  rw [Int.toNat_natCast]
  refine inode_indexlookup_natCast fs inp n (by omega) ?_
  intro hlarg
  have hsize := hsmall hlarg
  have hnonneg := inode_getsize_nonneg inp
  have hle : (inode_getsize inp - 1).tdiv DISKIMG_SECTOR_SIZE ≤ 7 := by
    unfold DISKIMG_SECTOR_SIZE
    rcases lt_or_le (inode_getsize inp - 1) 0 with h | h
    · have h2 : inode_getsize inp - 1 = -1 := by omega
      rw [h2]
      decide
    · rw [Int.tdiv_eq_ediv h (by norm_num)]
      omega
  omega

theorem inode_indexlookup_in_bounds_witness :
    inode_getsize (inodeOf 0o100000 1000 [12, 13]) < 2 ^ 24 ∧
      inode_indexlookup exampleDisk (inodeOf 0o100000 1000 [12, 13]) 1 = .ok 13 :=
  inode_indexlookup_in_bounds exampleDisk (inodeOf 0o100000 1000 [12, 13]) 1
    (by decide) (by decide)

/-! ## Valid bytes of a block -/

theorem file_getblock_of_reads (fs : unixfilesystem) (inumber : Int) (inp : inode)
    (hget : inode_iget fs inumber = .ok ⟨0, some inp⟩) (hsize : 0 < inode_getsize inp)
    (b : Int) (blockNum : Int) (sector : Sector)
    (hlookup : inode_indexlookup fs inp b = .ok blockNum) (hblock : 0 ≤ blockNum)
    (hread : fs.diskimg_readsector blockNum = some sector) :
    file_getblock fs inumber b = .ok ⟨validBytes (inode_getsize inp) b, some sector⟩ := by
  have hnot : ¬ inode_getsize inp < 0 := by omega
  have hdiv : (inode_getsize inp - 1).tdiv DISKIMG_SECTOR_SIZE = (inode_getsize inp - 1) / 512 :=
    Int.tdiv_eq_ediv (by omega) (by decide)
  have hmod : (inode_getsize inp - 1).tmod DISKIMG_SECTOR_SIZE + 1
      = inode_getsize inp - 512 * ((inode_getsize inp - 1) / 512) := by
    have h1 : (inode_getsize inp - 1).tmod DISKIMG_SECTOR_SIZE = (inode_getsize inp - 1) % 512 :=
      Int.tmod_eq_emod (by omega) (by decide)
    rw [h1]
    omega
  unfold file_getblock
  simp only [hget, initialised, hlookup, hread, hdiv, hmod, validBytes]
  have h0 : ¬ ((0 : Int) < 0) := by decide
  have h1 : ¬ blockNum < 0 := by omega
  simp only [h0, h1, hnot, if_false]
  split <;> rfl

theorem validBytes_bounds (size : Int) (b : Int) :
    1 ≤ validBytes size b ∧ validBytes size b ≤ 512 := by
  unfold validBytes
  split <;> omega

theorem sum_validBytes (size : Int) (n : Nat) (hn : (n : Int) ≤ (size - 1) / 512) :
    ((List.range n).map (fun b : Nat => validBytes size b)).sum = 512 * n := by
  induction n with
  | zero => simp
  | succ k ih =>
    have hk : ((k : Nat) : Int) ≠ (size - 1) / 512 := by push_cast at hn; omega
    rw [List.range_succ, List.map_append, List.sum_append, ih (by push_cast at hn ⊢; omega)]
    simp only [List.map_cons, List.map_nil, List.sum_cons, List.sum_nil, validBytes, if_neg hk]
    push_cast
    ring

theorem sum_validBytes_all (size : Int) (hsize : 0 < size) :
    ((List.range (((size - 1) / 512).toNat + 1)).map (fun b : Nat => validBytes size b)).sum
      = size := by
  have hq : 0 ≤ (size - 1) / 512 := by omega
  have hcast : ((((size - 1) / 512).toNat : Nat) : Int) = (size - 1) / 512 :=
    Int.toNat_of_nonneg hq
  rw [List.range_succ, List.map_append, List.sum_append, sum_validBytes size _ (by omega)]
  simp only [List.map_cons, List.map_nil, List.sum_cons, List.sum_nil, validBytes, hcast,
    if_true]
  ring

/-- C24: for a file of size `S > 0`, `file_getblock` on a block `b` with
`0 <= b <= (S - 1) / 512` whose reads succeed returns the number of valid bytes of the
block, 512 for every block but the last and `S - 512 * ((S - 1) / 512)` for the last, with
the sector in the buffer; each of these numbers lies in 1..512; and when the reads of every
block succeed, what the calls for the blocks 0, ..., `(S - 1) / 512` return sums to `S`. -/
theorem file_getblock_valid_bytes (fs : unixfilesystem) (inumber : Int) (inp : inode)
    (hget : inode_iget fs inumber = .ok ⟨0, some inp⟩) (hsize : 0 < inode_getsize inp) :
    (∀ (b : Nat) (blockNum : Int) (sector : Sector),
        (b : Int) ≤ (inode_getsize inp - 1) / 512 →
        inode_indexlookup fs inp b = .ok blockNum → 0 ≤ blockNum →
        fs.diskimg_readsector blockNum = some sector →
        file_getblock fs inumber b = .ok ⟨validBytes (inode_getsize inp) b, some sector⟩
          ∧ 1 ≤ validBytes (inode_getsize inp) b ∧ validBytes (inode_getsize inp) b ≤ 512)
      ∧ ((∀ b : Nat, (b : Int) ≤ (inode_getsize inp - 1) / 512 →
            ∃ blockNum sector, inode_indexlookup fs inp b = .ok blockNum ∧ 0 ≤ blockNum
              ∧ fs.diskimg_readsector blockNum = some sector) →
          ((List.range (((inode_getsize inp - 1) / 512).toNat + 1)).map
            (fun b : Nat => returned (file_getblock fs inumber b))).sum = inode_getsize inp) := by
  refine ⟨?_, ?_⟩
  · intro b blockNum sector _ hlookup hblock hread
    exact ⟨file_getblock_of_reads fs inumber inp hget hsize b blockNum sector hlookup hblock
      hread, validBytes_bounds _ b⟩
  · intro hreads
    have hq : 0 ≤ (inode_getsize inp - 1) / 512 := by omega
    have hmap : (List.range (((inode_getsize inp - 1) / 512).toNat + 1)).map
          (fun b : Nat => returned (file_getblock fs inumber b))
        = (List.range (((inode_getsize inp - 1) / 512).toNat + 1)).map
          (fun b : Nat => validBytes (inode_getsize inp) b) := by
      apply List.map_congr_left
      intro b hb
      have hb1 : b < ((inode_getsize inp - 1) / 512).toNat + 1 := List.mem_range.mp hb
      have hb2 : (b : Int) ≤ (inode_getsize inp - 1) / 512 := by omega
      obtain ⟨blockNum, sector, hlookup, hblock, hread⟩ := hreads b hb2
      rw [file_getblock_of_reads fs inumber inp hget hsize b blockNum sector hlookup hblock
        hread]
      rfl
    rw [hmap]
    exact sum_validBytes_all _ hsize

theorem file_getblock_valid_bytes_witness :
    (returned (file_getblock exampleDisk 3 0) = 512
      ∧ returned (file_getblock exampleDisk 3 1) = 488)
    ∧ ((List.range 2).map (fun b : Nat => returned (file_getblock exampleDisk 3 b))).sum
        = 1000 :=
  have h := file_getblock_valid_bytes exampleDisk 3 (inodeOf 0o100000 1000 [12, 13]) rfl
    (by decide)
  ⟨⟨by rfl, by rfl⟩, h.2 (by
    intro b hb
    have hb1 : b = 0 ∨ b = 1 := by
      have : (inode_getsize (inodeOf 0o100000 1000 [12, 13]) - 1) / 512 = 1 := by decide
      omega
    rcases hb1 with rfl | rfl
    · exact ⟨12, zeroSector, rfl, by decide, rfl⟩
    · exact ⟨13, zeroSector, rfl, by decide, rfl⟩)⟩

/-! ## Directory lookup -/

/-- C21 fails on the code: in the root directory of `exampleDisk`, whose entries are
`foobar` (inode 5), `foo` (inode 6) and `usr` (inode 2), the lookup of `foo` returns 0 and
stores the entry of `foobar`, and the lookup of `fo`, a name that no entry has, returns 0 as
well. -/
theorem directory_findname_accepts_longer_name :
    (∃ entry, directory_findname exampleDisk "foo".toList 1 = .ok ⟨0, some entry⟩
        ∧ entry.name = "foobar".toList ∧ entry.d_inumber = 5)
      ∧ (∃ entry, directory_findname exampleDisk "fo".toList 1 = .ok ⟨0, some entry⟩
        ∧ entry.name = "foobar".toList) :=
  ⟨⟨_, rfl, by decide, rfl⟩, ⟨_, rfl, by decide⟩⟩

/-! ## Path lookup -/

theorem strchr_none (c : List Char) (h : '/' ∉ c) : strchr c '/' = none := by
  unfold strchr
  have h1 := List.indexOf_eq_length.mpr h
  rw [if_neg (by omega)]

theorem strchr_component (c rest : List Char) (h : '/' ∉ c) :
    strchr (c ++ '/' :: rest) '/' = some c.length := by
  unfold strchr
  have h1 : List.indexOf '/' (c ++ '/' :: rest) = c.length := by
    rw [List.indexOf_append_of_not_mem h, List.indexOf_cons_self, Nat.add_zero]
  rw [h1, if_pos (by simp)]

theorem withEntry_eq_lookupComponents (fs : unixfilesystem) (c : List Char) (inumber : Int)
    (rest : List (List Char)) (next : Int → Except Fault Int)
    (hnext : ∀ found : Nat, next found = lookupComponents fs found rest) :
    withEntry (directory_findname fs c inumber) next = lookupComponents fs inumber (c :: rest) := by
  unfold withEntry
  rw [lookupComponents]
  cases directory_findname fs c inumber with
  | error fault => rfl
  | ok found =>
    simp only
    split
    · rfl
    · cases found.dirEnt with
      | none => rfl
      | some entry => simp only [initialised, hnext]

theorem recursive_pathname_lookup_calls_eq (fs : unixfilesystem) :
    ∀ (rest : List (List Char)) (c : List Char) (inumber : Int) (calls : Nat),
      (∀ x ∈ c :: rest, '/' ∉ x ∧ x.length < 14) →
      (c ++ absolutePath rest).length < calls →
      recursive_pathname_lookup_calls fs calls inumber (c ++ absolutePath rest)
        = lookupComponents fs inumber (c :: rest) := by
  intro rest
  induction rest with
  | nil =>
    intro c inumber calls hc hcalls
    obtain ⟨k, rfl⟩ : ∃ k, calls = k + 1 := ⟨calls - 1, by omega⟩
    have hslash := (hc c (List.mem_cons_self _ _)).1
    simp only [absolutePath, List.append_nil]
    rw [recursive_pathname_lookup_calls, strchr_none c hslash]
    exact withEntry_eq_lookupComponents fs c inumber [] _ (fun found => by rw [lookupComponents])
  | cons c1 rest ih =>
    intro c inumber calls hc hcalls
    obtain ⟨k, rfl⟩ : ∃ k, calls = k + 1 := ⟨calls - 1, by omega⟩
    have hslash := (hc c (List.mem_cons_self _ _)).1
    have hlen := (hc c (List.mem_cons_self _ _)).2
    have hpath : c ++ absolutePath (c1 :: rest) = c ++ '/' :: (c1 ++ absolutePath rest) := rfl
    have hdrop : (c ++ '/' :: (c1 ++ absolutePath rest)).drop (c.length + 1)
        = c1 ++ absolutePath rest := by
      rw [show c ++ '/' :: (c1 ++ absolutePath rest) = (c ++ ['/']) ++ (c1 ++ absolutePath rest)
        by simp]
      exact List.drop_left' (by simp)
    have hlength : ((c ++ '/' :: (c1 ++ absolutePath rest)).length : Int)
        - ((c1 ++ absolutePath rest).length : Int) - 1 = (c.length : Int) := by
      simp only [List.length_append, List.length_cons]
      push_cast
      omega
    have h1 : ¬ ((c.length : Int) > ((DIRNAME_MAX_LEN : Nat) : Int)) := by
      unfold DIRNAME_MAX_LEN
      omega
    have h2 : ¬ ¬ ((c.length : Int) < ((DIRNAME_MAX_LEN : Nat) : Int)) := by
      unfold DIRNAME_MAX_LEN
      omega
    rw [hpath, recursive_pathname_lookup_calls, strchr_component c _ hslash]
    simp only [hdrop, hlength, if_neg h1, if_neg h2, Int.toNat_natCast, List.take_left']
    apply withEntry_eq_lookupComponents
    intro found
    apply ih c1 found k
    · intro x hx
      exact hc x (List.mem_cons_of_mem _ hx)
    · rw [hpath] at hcalls
      simp only [List.length_append, List.length_cons] at hcalls ⊢
      omega

/-- C25: `pathname_lookup("/")` returns `ROOT_INUMBER`, and for every path
`/c1/c2/.../cn` with `n >= 1` whose components are not empty, hold no slash and are shorter
than 14 characters, `pathname_lookup` returns what the lookup of the components one after
the other gives: `c1` is looked up in the root directory with `directory_findname`, each
next component in the directory just found, the result is the inode number of the last
entry found, and -1 as soon as one lookup fails. -/
theorem pathname_lookup_components (fs : unixfilesystem) (components : List (List Char))
    (hsome : components ≠ [])
    (hcomponents : ∀ c ∈ components, c ≠ [] ∧ '/' ∉ c ∧ c.length < 14) :
    pathname_lookup fs ['/'] = .ok ROOT_INUMBER
      ∧ pathname_lookup fs (absolutePath components)
          = lookupComponents fs ROOT_INUMBER components := by
  refine ⟨rfl, ?_⟩
  obtain ⟨c, rest, rfl⟩ := List.exists_cons_of_ne_nil hsome
  have hc := (hcomponents c (List.mem_cons_self _ _)).1
  have hne : absolutePath (c :: rest) ≠ ['/'] := by
    obtain ⟨x, xs, rfl⟩ := List.exists_cons_of_ne_nil hc
    simp [absolutePath]
  unfold pathname_lookup
  rw [if_neg hne]
  show recursive_pathname_lookup fs ROOT_INUMBER (c ++ absolutePath rest) = _
  unfold recursive_pathname_lookup
  exact recursive_pathname_lookup_calls_eq fs rest c ROOT_INUMBER _
    (fun x hx => (hcomponents x hx).2) (Nat.lt_succ_self _)

theorem pathname_lookup_components_witness :
    pathname_lookup exampleDisk ['/'] = .ok ROOT_INUMBER
      ∧ pathname_lookup exampleDisk "/usr/bin".toList = .ok 3 :=
  pathname_lookup_components exampleDisk ["usr".toList, "bin".toList] (by decide) (by decide)

end FileDir

namespace SixDegrees

/-! ## Paths in the co-star graph -/

theorem Reach_cons (db : imdb) (a v : Actor) (hlink : Linked db a v) :
    ∀ (n : Nat) (b : Actor), Reach db n v b → Reach db (n + 1) a b := by
  intro n
  induction n with
  | zero =>
    intro b h
    have hvb : v = b := h
    subst hvb
    exact ⟨a, rfl, hlink⟩
  | succ k ih =>
    intro b h
    obtain ⟨w, hw, hwb⟩ := h
    exact ⟨w, ih w hw, hwb⟩

theorem Reach_of_isPath (db : imdb) :
    ∀ (path : List (film × Actor)) (a b : Actor), isPath db a path b →
      Reach db path.length a b := by
  intro path
  induction path with
  | nil =>
    intro a b h
    exact h
  | cons link links ih =>
    intro a b h
    obtain ⟨movie, costar⟩ := link
    obtain ⟨hm, hc, hrest⟩ := h
    exact Reach_cons db a costar ⟨movie, hm, hc⟩ links.length b (ih costar b hrest)

theorem isPath_snoc (db : imdb) (movie : film) (b c : Actor)
    (hm : movie ∈ db.getCredits b) (hc : c ∈ db.getCast movie) :
    ∀ (path : List (film × Actor)) (a : Actor), isPath db a path b →
      isPath db a (path ++ [(movie, c)]) c := by
  intro path
  induction path with
  | nil =>
    intro a h
    have hab : a = b := h
    subst hab
    exact ⟨hm, hc, rfl⟩
  | cons link links ih =>
    intro a h
    obtain ⟨movie1, costar⟩ := link
    obtain ⟨hm1, hc1, hrest⟩ := h
    exact ⟨hm1, hc1, ih costar hrest⟩

theorem isPath_of_isChain (db : imdb) (source : Actor) :
    ∀ (links : List (film × Actor)) (v : Actor), isChain db v links source →
      ∃ path, isPath db source path v ∧ path.length = links.length := by
  intro links
  induction links with
  | nil =>
    intro v h
    have hv : v = source := h
    exact ⟨[], hv.symm, rfl⟩
  | cons link links ih =>
    intro v h
    obtain ⟨movie, previous⟩ := link
    obtain ⟨hm, hc, hrest⟩ := h
    obtain ⟨path, hpath, hlen⟩ := ih previous hrest
    refine ⟨path ++ [(movie, v)], isPath_snoc db movie previous v hm hc path source hpath, ?_⟩
    simp [hlen]

/-! ## What the maps record -/

theorem isChain_connections (db : imdb) (source : Actor) (s : Search)
    (hrec : Recorded db source s) :
    ∀ (n : Nat) (v : Actor), v ∈ s.visited_actors → s.dist v = n →
      isChain db v (connections s.pred_actor s.pred_film n v) source := by
  intro n
  induction n with
  | zero =>
    intro v hv hdist
    by_cases hsource : v = source
    · exact hsource
    · obtain ⟨hp, hd, _, _⟩ := hrec.pred v hv hsource
      have := hrec.nonneg _ hp
      simp only [Nat.cast_zero] at hdist
      omega
  | succ k ih =>
    intro v hv hdist
    have hsource : v ≠ source := by
      intro h
      rw [h, hrec.source_dist] at hdist
      simp only [Nat.cast_succ] at hdist
      omega
    obtain ⟨hp, hd, hm, hc⟩ := hrec.pred v hv hsource
    refine ⟨hm, hc, ih _ hp ?_⟩
    simp only [Nat.cast_succ] at hdist
    omega

theorem length_connections (pred_actor : Actor → Actor) (pred_film : Actor → film) :
    ∀ (n : Nat) (v : Actor), (connections pred_actor pred_film n v).length = n := by
  intro n
  induction n with
  | zero => intro v; rfl
  | succ k ih => intro v; simp [connections, ih]

/-! ## The invariant of the search -/

theorem AtTest.reach {db : imdb} {source : Actor} {s : Search} (h : AtTest db source s) :
    ∀ (n : Nat) (w : Actor), Reach db n source w →
      (w ∈ s.visited_actors ∧ s.dist w ≤ n) ∨ (∃ q ∈ s.queue, s.dist q < n) := by
  intro n
  induction n with
  | zero =>
    intro w hw
    have hsw : source = w := hw
    subst hsw
    exact Or.inl ⟨h.recorded.source_mem, by simp [h.recorded.source_dist]⟩
  | succ k ih =>
    intro w hw
    obtain ⟨w1, hreach, hlink⟩ := hw
    rcases ih w1 hreach with ⟨hmem, hdist⟩ | ⟨q, hq, hdist⟩
    · by_cases hqueue : w1 ∈ s.queue
      · exact Or.inr ⟨w1, hqueue, by push_cast; omega⟩
      · obtain ⟨hwm, hwd⟩ := h.closed w1 hmem hqueue w hlink
        exact Or.inl ⟨hwm, by push_cast; omega⟩
    · exact Or.inr ⟨q, hq, by push_cast; omega⟩

theorem AtTest.to_expanding {db : imdb} {source : Actor} {s : Search} (h : AtTest db source s)
    (u : Actor) (queue : List Actor) (hqueue : s.queue = u :: queue) :
    Expanding db source u s.visited_films { s with queue := queue } := by
  have hu : u ∈ s.queue := by rw [hqueue]; exact List.mem_cons_self _ _
  have hsub : ∀ q ∈ queue, q ∈ s.queue := by
    intro q hq
    rw [hqueue]
    exact List.mem_cons_of_mem _ hq
  have hsorted := h.sorted
  rw [hqueue, List.pairwise_cons] at hsorted
  refine
    { recorded := ⟨h.recorded.source_mem, h.recorded.source_dist, h.recorded.nonneg,
        h.recorded.pred⟩,
      current_mem := h.queue_sub u hu,
      queue_sub := fun q hq => h.queue_sub q (hsub q hq),
      level := fun v hv => h.level v hv u hu,
      queue_level := fun q hq => hsorted.1 q hq,
      sorted := hsorted.2,
      closed := ?_,
      films := h.films,
      far := ?_ }
  · intro v hv hnot hne w hlink
    apply h.closed v hv _ w hlink
    rw [hqueue]
    intro hmem
    rcases List.mem_cons.mp hmem with h1 | h1
    · exact hne h1
    · exact hnot h1
  · intro path w hpath hw
    rcases h.reach path.length w (Reach_of_isPath db path source w hpath) with
      ⟨hmem, _⟩ | ⟨q, hq, hdist⟩
    · exact absurd hmem hw
    · rw [hqueue] at hq
      rcases List.mem_cons.mp hq with h1 | h1
      · rw [h1] at hdist
        exact hdist
      · exact lt_of_le_of_lt (hsorted.1 q h1) hdist

theorem Expanding.to_atTest {db : imdb} {source u : Actor} {s : Search}
    (h : Expanding db source u s.visited_films s)
    (hcredits : ∀ movie ∈ db.getCredits u, movie ∈ s.visited_films) :
    AtTest db source s := by
  refine
    { recorded := h.recorded,
      queue_sub := h.queue_sub,
      level := ?_,
      sorted := h.sorted,
      closed := ?_,
      films := h.films }
  · intro v hv q hq
    have h1 := h.level v hv
    have h2 := h.queue_level q hq
    omega
  · intro v hv hnot w hlink
    by_cases hvu : v = u
    · subst hvu
      obtain ⟨movie, hm, hc⟩ := hlink
      have hw := h.films movie (hcredits movie hm) w hc
      exact ⟨hw, h.level w hw⟩
    · exact h.closed v hv hnot hvu w hlink

theorem dist_record (s : Search) (u : Actor) (movie : film) (costar v : Actor)
    (hv : v ∈ s.visited_actors) (hcostar : costar ∉ s.visited_actors) :
    (record s u movie costar).dist v = s.dist v := by
  have hne : v ≠ costar := by
    intro h
    rw [h] at hv
    exact hcostar hv
  exact Function.update_noteq hne _ _

theorem Recorded.of_record {db : imdb} {source : Actor} {s : Search}
    (h : Recorded db source s) (u : Actor) (movie : film) (costar : Actor)
    (queue : List Actor)
    (hu : u ∈ s.visited_actors) (hcostar : costar ∉ s.visited_actors)
    (hm : movie ∈ db.getCredits u) (hc : costar ∈ db.getCast movie) :
    Recorded db source { record s u movie costar with queue := queue } := by
  have hdist : ∀ v ∈ s.visited_actors,
      (Function.update s.dist costar (s.dist u + 1)) v = s.dist v := by
    intro v hv
    exact dist_record s u movie costar v hv hcostar
  have hnew : (Function.update s.dist costar (s.dist u + 1)) costar = s.dist u + 1 :=
    Function.update_same _ _ _
  have hpa : (Function.update s.pred_actor costar u) costar = u := Function.update_same _ _ _
  have hpf : (Function.update s.pred_film costar movie) costar = movie :=
    Function.update_same _ _ _
  refine ⟨?_, ?_, ?_, ?_⟩
  · exact List.mem_cons_of_mem _ h.source_mem
  · show (Function.update s.dist costar (s.dist u + 1)) source = 0
    rw [hdist source h.source_mem]
    exact h.source_dist
  · intro v hv
    show 0 ≤ (Function.update s.dist costar (s.dist u + 1)) v
    rcases List.mem_cons.mp hv with h1 | h1
    · rw [h1, hnew]
      have := h.nonneg u hu
      omega
    · rw [hdist v h1]
      exact h.nonneg v h1
  · intro v hv hsource
    show (Function.update s.pred_actor costar u) v ∈ costar :: s.visited_actors
      ∧ (Function.update s.dist costar (s.dist u + 1)) v
        = (Function.update s.dist costar (s.dist u + 1))
            ((Function.update s.pred_actor costar u) v) + 1
      ∧ (Function.update s.pred_film costar movie) v
          ∈ db.getCredits ((Function.update s.pred_actor costar u) v)
      ∧ v ∈ db.getCast ((Function.update s.pred_film costar movie) v)
    rcases List.mem_cons.mp hv with h1 | h1
    · rw [h1, hpa, hpf, hnew, hdist u hu]
      exact ⟨List.mem_cons_of_mem _ hu, rfl, hm, hc⟩
    · have hne : v ≠ costar := by
        intro h2
        rw [h2] at h1
        exact hcostar h1
      have hpa1 : (Function.update s.pred_actor costar u) v = s.pred_actor v :=
        Function.update_noteq hne _ _
      have hpf1 : (Function.update s.pred_film costar movie) v = s.pred_film v :=
        Function.update_noteq hne _ _
      obtain ⟨hp, hd, hf, hcast⟩ := h.pred v h1 hsource
      rw [hpa1, hpf1, hdist v h1, hdist _ hp]
      exact ⟨List.mem_cons_of_mem _ hp, hd, hf, hcast⟩

theorem Expanding.of_visit {db : imdb} {source u : Actor} {done : List film} {s : Search}
    (h : Expanding db source u done s) (movie : film) (costar : Actor)
    (hcostar : costar ∉ s.visited_actors)
    (hm : movie ∈ db.getCredits u) (hc : costar ∈ db.getCast movie) :
    Expanding db source u done
      { record s u movie costar with queue := s.queue ++ [costar] } := by
  have hdist : ∀ v ∈ s.visited_actors,
      (Function.update s.dist costar (s.dist u + 1)) v = s.dist v :=
    fun v hv => dist_record s u movie costar v hv hcostar
  have hnew : (Function.update s.dist costar (s.dist u + 1)) costar = s.dist u + 1 :=
    Function.update_same _ _ _
  have hdistu := hdist u h.current_mem
  have hall : ∀ v ∈ costar :: s.visited_actors,
      (Function.update s.dist costar (s.dist u + 1)) v ≤ s.dist u + 1 := by
    intro v hv
    rcases List.mem_cons.mp hv with h1 | h1
    · rw [h1, hnew]
    · rw [hdist v h1]
      exact h.level v h1
  refine
    { recorded := h.recorded.of_record u movie costar _ h.current_mem hcostar hm hc,
      current_mem := List.mem_cons_of_mem _ h.current_mem,
      queue_sub := ?_,
      level := ?_,
      queue_level := ?_,
      sorted := ?_,
      closed := ?_,
      films := fun m hmem w hw => List.mem_cons_of_mem _ (h.films m hmem w hw),
      far := ?_ }
  · intro q hq
    show q ∈ costar :: s.visited_actors
    rcases List.mem_append.mp hq with h1 | h1
    · exact List.mem_cons_of_mem _ (h.queue_sub q h1)
    · rw [List.mem_singleton.mp h1]
      exact List.mem_cons_self _ _
  · intro v hv
    show (Function.update s.dist costar (s.dist u + 1)) v
      ≤ (Function.update s.dist costar (s.dist u + 1)) u + 1
    have := hall v hv
    rw [hdistu]
    omega
  · intro q hq
    show (Function.update s.dist costar (s.dist u + 1)) u
      ≤ (Function.update s.dist costar (s.dist u + 1)) q
    rw [hdistu]
    rcases List.mem_append.mp hq with h1 | h1
    · rw [hdist q (h.queue_sub q h1)]
      exact h.queue_level q h1
    · rw [List.mem_singleton.mp h1, hnew]
      omega
  · show (s.queue ++ [costar]).Pairwise
      (fun a b => (Function.update s.dist costar (s.dist u + 1)) a
        ≤ (Function.update s.dist costar (s.dist u + 1)) b)
    rw [List.pairwise_append]
    refine ⟨?_, List.pairwise_singleton _ _, ?_⟩
    · refine h.sorted.imp_of_mem ?_
      intro a b ha hb hab
      rw [hdist a (h.queue_sub a ha), hdist b (h.queue_sub b hb)]
      exact hab
    · intro a ha b hb
      rw [List.mem_singleton.mp hb, hnew, hdist a (h.queue_sub a ha)]
      exact h.level a (h.queue_sub a ha)
  · intro v hv hnot hne w hlink
    show w ∈ costar :: s.visited_actors
      ∧ (Function.update s.dist costar (s.dist u + 1)) w
        ≤ (Function.update s.dist costar (s.dist u + 1)) v + 1
    have hnot1 : v ∉ s.queue ++ [costar] := hnot
    rw [List.mem_append, not_or] at hnot1
    have hvc : v ≠ costar := fun h1 => hnot1.2 (List.mem_singleton.mpr h1)
    have hv1 : v ∈ s.visited_actors := by
      rcases List.mem_cons.mp hv with h1 | h1
      · exact absurd h1 hvc
      · exact h1
    obtain ⟨hw, hd⟩ := h.closed v hv1 hnot1.1 hne w hlink
    rw [hdist w hw, hdist v hv1]
    exact ⟨List.mem_cons_of_mem _ hw, hd⟩
  · intro path w hpath hw
    show (Function.update s.dist costar (s.dist u + 1)) u < path.length
    rw [hdistu]
    exact h.far path w hpath (fun h1 => hw (List.mem_cons_of_mem _ h1))

theorem castLoop_spec (db : imdb) (source target u : Actor) (maxLength : Int) (movie : film)
    (done : List film) (hm : movie ∈ db.getCredits u) :
    ∀ (cast : List Actor) (s : Search), Expanding db source u done s →
      (∀ c ∈ cast, c ∈ db.getCast movie) → target ∉ s.visited_actors →
      s.dist u < maxLength →
      ((castLoop target u movie cast s).1 = true →
          Found db source target maxLength (castLoop target u movie cast s).2)
        ∧ ((castLoop target u movie cast s).1 = false →
          Expanding db source u done (castLoop target u movie cast s).2
            ∧ target ∉ (castLoop target u movie cast s).2.visited_actors
            ∧ (∀ c ∈ cast, c ∈ (castLoop target u movie cast s).2.visited_actors)
            ∧ (∀ v ∈ s.visited_actors, v ∈ (castLoop target u movie cast s).2.visited_actors)
            ∧ (castLoop target u movie cast s).2.visited_films = s.visited_films
            ∧ (castLoop target u movie cast s).2.dist u = s.dist u) := by
  intro cast
  induction cast with
  | nil =>
    intro s h _ htarget _
    refine ⟨fun h1 => by simp [castLoop] at h1, fun _ => ?_⟩
    exact ⟨h, htarget, fun c hc => by simp at hc, fun v hv => hv, rfl, rfl⟩
  | cons costar cast ih =>
    intro s h hcast htarget hu
    have hc := hcast costar (List.mem_cons_self _ _)
    have hrest : ∀ c ∈ cast, c ∈ db.getCast movie :=
      fun c hmem => hcast c (List.mem_cons_of_mem _ hmem)
    by_cases hvisited : costar ∈ s.visited_actors
    · have hstep : castLoop target u movie (costar :: cast) s = castLoop target u movie cast s := by
        rw [castLoop, if_neg (not_not.mpr hvisited)]
      rw [hstep]
      obtain ⟨hfound, hcontinue⟩ := ih s h hrest htarget hu
      refine ⟨hfound, fun h1 => ?_⟩
      obtain ⟨h2, h3, h4, h5, h6, h7⟩ := hcontinue h1
      refine ⟨h2, h3, ?_, h5, h6, h7⟩
      intro c hmem
      rcases List.mem_cons.mp hmem with h8 | h8
      · rw [h8]
        exact h5 costar hvisited
      · exact h4 c h8
    · by_cases hfound : costar = target
      · have hstep : castLoop target u movie (costar :: cast) s
            = (true, record s u movie costar) := by
          rw [castLoop, if_pos hvisited]
          simp only [if_pos hfound]
        rw [hstep]
        refine ⟨fun _ => ?_, fun h1 => by simp at h1⟩
        have hnew : (Function.update s.dist costar (s.dist u + 1)) costar = s.dist u + 1 :=
          Function.update_same _ _ _
        refine
          { recorded := h.recorded.of_record u movie costar s.queue h.current_mem hvisited hm hc,
            target_mem := ?_,
            dist_le := ?_,
            shortest := ?_ }
        · show target ∈ costar :: s.visited_actors
          rw [hfound]
          exact List.mem_cons_self _ _
        · show (Function.update s.dist costar (s.dist u + 1)) target ≤ maxLength
          rw [← hfound, hnew]
          omega
        · intro path hpath
          show (Function.update s.dist costar (s.dist u + 1)) target ≤ path.length
          rw [← hfound, hnew]
          have := h.far path target hpath htarget
          omega
      · have hstep : castLoop target u movie (costar :: cast) s
            = castLoop target u movie cast
                { record s u movie costar with queue := s.queue ++ [costar] } := by
          rw [castLoop, if_pos hvisited]
          simp only [if_neg hfound]
          rfl
        rw [hstep]
        have hdistu : (Function.update s.dist costar (s.dist u + 1)) u = s.dist u :=
          dist_record s u movie costar u h.current_mem hvisited
        have htarget1 : target ∉ costar :: s.visited_actors := by
          intro h1
          rcases List.mem_cons.mp h1 with h2 | h2
          · exact hfound h2.symm
          · exact htarget h2
        obtain ⟨hfound1, hcontinue⟩ :=
          ih { record s u movie costar with queue := s.queue ++ [costar] }
            (h.of_visit movie costar hvisited hm hc) hrest htarget1
            (by show (Function.update s.dist costar (s.dist u + 1)) u < maxLength
                rw [hdistu]; exact hu)
        refine ⟨hfound1, fun h1 => ?_⟩
        obtain ⟨h2, h3, h4, h5, h6, h7⟩ := hcontinue h1
        refine ⟨h2, h3, ?_, fun v hv => h5 v (List.mem_cons_of_mem _ hv), h6, ?_⟩
        · intro c hmem
          rcases List.mem_cons.mp hmem with h8 | h8
          · rw [h8]
            exact h5 costar (List.mem_cons_self _ _)
          · exact h4 c h8
        · rw [h7]
          exact hdistu

theorem creditsLoop_spec (db : imdb) (source target u : Actor) (maxLength : Int) :
    ∀ (credits : List film) (s : Search), Expanding db source u s.visited_films s →
      (∀ movie ∈ credits, movie ∈ db.getCredits u) → target ∉ s.visited_actors →
      s.dist u < maxLength →
      ((creditsLoop db target u credits s).1 = true →
          Found db source target maxLength (creditsLoop db target u credits s).2)
        ∧ ((creditsLoop db target u credits s).1 = false →
          Expanding db source u (creditsLoop db target u credits s).2.visited_films
              (creditsLoop db target u credits s).2
            ∧ target ∉ (creditsLoop db target u credits s).2.visited_actors
            ∧ (∀ movie ∈ credits,
                movie ∈ (creditsLoop db target u credits s).2.visited_films)
            ∧ (∀ movie ∈ s.visited_films,
                movie ∈ (creditsLoop db target u credits s).2.visited_films)) := by
  intro credits
  induction credits with
  | nil =>
    intro s h _ htarget _
    refine ⟨fun h1 => by simp [creditsLoop] at h1, fun _ => ?_⟩
    exact ⟨h, htarget, fun c hc => by simp at hc, fun v hv => hv⟩
  | cons movie credits ih =>
    intro s h hcredits htarget hu
    have hm := hcredits movie (List.mem_cons_self _ _)
    have hrest : ∀ m ∈ credits, m ∈ db.getCredits u :=
      fun m hmem => hcredits m (List.mem_cons_of_mem _ hmem)
    by_cases hvisited : movie ∈ s.visited_films
    · have hstep : creditsLoop db target u (movie :: credits) s
          = creditsLoop db target u credits s := by
        rw [creditsLoop, if_neg (not_not.mpr hvisited)]
      rw [hstep]
      obtain ⟨hfound, hcontinue⟩ := ih s h hrest htarget hu
      refine ⟨hfound, fun h1 => ?_⟩
      obtain ⟨h2, h3, h4, h5⟩ := hcontinue h1
      refine ⟨h2, h3, ?_, h5⟩
      intro m hmem
      rcases List.mem_cons.mp hmem with h6 | h6
      · rw [h6]
        exact h5 movie hvisited
      · exact h4 m h6
    · have hstart : Expanding db source u s.visited_films
          { s with visited_films := movie :: s.visited_films } :=
        ⟨⟨h.recorded.source_mem, h.recorded.source_dist, h.recorded.nonneg, h.recorded.pred⟩,
          h.current_mem, h.queue_sub, h.level, h.queue_level, h.sorted, h.closed, h.films,
          h.far⟩
      obtain ⟨hfound, hcontinue⟩ :=
        castLoop_spec db source target u maxLength movie s.visited_films hm
          (db.getCast movie) { s with visited_films := movie :: s.visited_films } hstart
          (fun c hc => hc) htarget hu
      by_cases hreturned : (castLoop target u movie (db.getCast movie)
          { s with visited_films := movie :: s.visited_films }).1 = true
      · have hstep : creditsLoop db target u (movie :: credits) s
            = castLoop target u movie (db.getCast movie)
                { s with visited_films := movie :: s.visited_films } := by
          rw [creditsLoop, if_pos hvisited]
          simp only [hreturned, if_true]
        rw [hstep]
        exact ⟨hfound, fun h1 => by rw [hreturned] at h1; exact absurd h1 (by decide)⟩
      · have hfalse : (castLoop target u movie (db.getCast movie)
            { s with visited_films := movie :: s.visited_films }).1 = false := by
          simpa using hreturned
        have hstep : creditsLoop db target u (movie :: credits) s
            = creditsLoop db target u credits
                (castLoop target u movie (db.getCast movie)
                  { s with visited_films := movie :: s.visited_films }).2 := by
          rw [creditsLoop, if_pos hvisited]
          simp only [hfalse, Bool.false_eq_true, if_false]
        rw [hstep]
        obtain ⟨h2, h3, h4, h5, h6, h7⟩ := hcontinue hfalse
        have hfilms : (castLoop target u movie (db.getCast movie)
            { s with visited_films := movie :: s.visited_films }).2.visited_films
            = movie :: s.visited_films := h6
        have hnext : Expanding db source u
            (castLoop target u movie (db.getCast movie)
              { s with visited_films := movie :: s.visited_films }).2.visited_films
            (castLoop target u movie (db.getCast movie)
              { s with visited_films := movie :: s.visited_films }).2 := by
          rw [hfilms]
          refine { h2 with films := ?_ }
          intro m hmem w hw
          rcases List.mem_cons.mp hmem with h8 | h8
          · rw [h8] at hw
            exact h4 w hw
          · exact h2.films m h8 w hw
        have hu1 : (castLoop target u movie (db.getCast movie)
            { s with visited_films := movie :: s.visited_films }).2.dist u < maxLength := by
          rw [h7]
          exact hu
        obtain ⟨hfound1, hcontinue1⟩ := ih _ hnext hrest h3 hu1
        refine ⟨hfound1, fun h1 => ?_⟩
        obtain ⟨k2, k3, k4, k5⟩ := hcontinue1 h1
        refine ⟨k2, k3, ?_, ?_⟩
        · intro m hmem
          rcases List.mem_cons.mp hmem with h8 | h8
          · rw [h8]
            exact k5 movie (by rw [hfilms]; exact List.mem_cons_self _ _)
          · exact k4 m h8
        · intro m hmem
          exact k5 m (by rw [hfilms]; exact List.mem_cons_of_mem _ hmem)

theorem whileLoop_spec (db : imdb) (source target : Actor) (maxLength : Int) :
    ∀ (budget : Nat) (s : Search), AtTest db source s → target ∉ s.visited_actors →
      ∀ (found : Bool) (final : Search),
        whileLoop db target maxLength budget s = some (found, final) →
        (found = true → Found db source target maxLength final)
          ∧ (found = false → ∀ path : List (film × Actor), isPath db source path target →
              maxLength < path.length) := by
  intro budget
  induction budget with
  | zero =>
    intro s _ _ found final h
    simp [whileLoop] at h
  | succ budget ih =>
    intro s hs htarget found final h
    have hnone : ∀ path : List (film × Actor), isPath db source path target →
        (∀ q ∈ s.queue, maxLength ≤ s.dist q) → maxLength < path.length := by
      intro path hpath hqueue
      rcases hs.reach path.length target (Reach_of_isPath db path source target hpath) with
        ⟨hmem, _⟩ | ⟨q, hq, hdist⟩
      · exact absurd hmem htarget
      · exact lt_of_le_of_lt (hqueue q hq) hdist
    rw [whileLoop] at h
    cases hqueue : s.queue with
    | nil =>
      rw [hqueue] at h
      simp only [Option.some.injEq, Prod.mk.injEq] at h
      obtain ⟨h1, _⟩ := h
      refine ⟨fun h2 => by rw [← h1] at h2; exact absurd h2 (by decide), fun _ path hpath => ?_⟩
      exact hnone path hpath (fun q hq => by rw [hqueue] at hq; simp at hq)
    | cons u queue =>
      rw [hqueue] at h
      simp only at h
      by_cases hu : s.dist u < maxLength
      · rw [if_pos hu] at h
        have hexp := hs.to_expanding u queue hqueue
        obtain ⟨hfound, hcontinue⟩ :=
          creditsLoop_spec db source target u maxLength (db.getCredits u)
            { s with queue := queue } hexp (fun m hm => hm) htarget hu
        by_cases hreturned :
            (creditsLoop db target u (db.getCredits u) { s with queue := queue }).1 = true
        · simp only [hreturned, if_true, Option.some.injEq] at h
          have h1 : (creditsLoop db target u (db.getCredits u) { s with queue := queue }).1
              = found := by rw [h]
          have h2 : (creditsLoop db target u (db.getCredits u) { s with queue := queue }).2
              = final := by rw [h]
          rw [← h2]
          refine ⟨fun _ => hfound hreturned, fun h3 => ?_⟩
          rw [← h1, hreturned] at h3
          exact absurd h3 (by decide)
        · have hfalse :
              (creditsLoop db target u (db.getCredits u) { s with queue := queue }).1
                = false := by simpa using hreturned
          simp only [hfalse, Bool.false_eq_true, if_false] at h
          obtain ⟨h2, h3, h4, _⟩ := hcontinue hfalse
          exact ih _ (h2.to_atTest h4) h3 found final h
      · rw [if_neg hu] at h
        simp only [Option.some.injEq, Prod.mk.injEq] at h
        obtain ⟨h1, _⟩ := h
        refine ⟨fun h2 => by rw [← h1] at h2; exact absurd h2 (by decide),
          fun _ path hpath => ?_⟩
        apply hnone path hpath
        intro q hq
        have hsorted := hs.sorted
        rw [hqueue, List.pairwise_cons] at hsorted
        rw [hqueue] at hq
        rcases List.mem_cons.mp hq with h2 | h2
        · rw [h2]
          omega
        · have := hsorted.1 q h2
          omega

/-! ## Termination of the search -/

theorem Bounded.length_le {actors : List Actor} {s : Search} (h : Bounded actors s) :
    s.visited_actors.length ≤ actors.length :=
  (h.nodup.subperm h.sub).length_le

theorem castLoop_bounded (actors : List Actor) (target u : Actor) (movie : film) :
    ∀ (cast : List Actor) (s : Search), Bounded actors s → (∀ c ∈ cast, c ∈ actors) →
      Bounded actors (castLoop target u movie cast s).2
        ∧ potential actors (castLoop target u movie cast s).2 ≤ potential actors s := by
  intro cast
  induction cast with
  | nil =>
    intro s h _
    exact ⟨h, le_refl _⟩
  | cons costar cast ih =>
    intro s h hcast
    have hc := hcast costar (List.mem_cons_self _ _)
    have hrest : ∀ c ∈ cast, c ∈ actors := fun c hmem => hcast c (List.mem_cons_of_mem _ hmem)
    by_cases hvisited : costar ∈ s.visited_actors
    · rw [castLoop, if_neg (not_not.mpr hvisited)]
      exact ih s h hrest
    · have hnodup : (costar :: s.visited_actors).Nodup := List.nodup_cons.mpr ⟨hvisited, h.nodup⟩
      have hsub : ∀ v ∈ costar :: s.visited_actors, v ∈ actors := by
        intro v hv
        rcases List.mem_cons.mp hv with h1 | h1
        · rw [h1]
          exact hc
        · exact h.sub v h1
      have hlen : (costar :: s.visited_actors).length ≤ actors.length :=
        (hnodup.subperm hsub).length_le
      rw [List.length_cons] at hlen
      by_cases hfound : costar = target
      · rw [castLoop, if_pos hvisited]
        simp only [if_pos hfound]
        refine ⟨⟨hnodup, hsub, h.queue_sub⟩, ?_⟩
        show s.queue.length + (actors.length - (costar :: s.visited_actors).length)
          ≤ s.queue.length + (actors.length - s.visited_actors.length)
        rw [List.length_cons]
        omega
      · rw [castLoop, if_pos hvisited]
        simp only [if_neg hfound]
        have hnext : Bounded actors
            { record s u movie costar with queue := s.queue ++ [costar] } := by
          refine ⟨hnodup, hsub, ?_⟩
          intro q hq
          rcases List.mem_append.mp hq with h1 | h1
          · exact h.queue_sub q h1
          · rw [List.mem_singleton.mp h1]
            exact hc
        obtain ⟨h1, h2⟩ := ih _ hnext hrest
        refine ⟨h1, le_trans h2 ?_⟩
        show (s.queue ++ [costar]).length + (actors.length - (costar :: s.visited_actors).length)
          ≤ s.queue.length + (actors.length - s.visited_actors.length)
        rw [List.length_cons, List.length_append, List.length_singleton]
        omega

theorem creditsLoop_bounded (db : imdb) (actors : List Actor) (target u : Actor) :
    ∀ (credits : List film) (s : Search), Bounded actors s →
      (∀ movie ∈ credits, ∀ c ∈ db.getCast movie, c ∈ actors) →
      Bounded actors (creditsLoop db target u credits s).2
        ∧ potential actors (creditsLoop db target u credits s).2 ≤ potential actors s := by
  intro credits
  induction credits with
  | nil =>
    intro s h _
    exact ⟨h, le_refl _⟩
  | cons movie credits ih =>
    intro s h hcredits
    have hrest : ∀ m ∈ credits, ∀ c ∈ db.getCast m, c ∈ actors :=
      fun m hmem => hcredits m (List.mem_cons_of_mem _ hmem)
    by_cases hvisited : movie ∈ s.visited_films
    · rw [creditsLoop, if_neg (not_not.mpr hvisited)]
      exact ih s h hrest
    · have hstart : Bounded actors { s with visited_films := movie :: s.visited_films } :=
        ⟨h.nodup, h.sub, h.queue_sub⟩
      obtain ⟨h1, h2⟩ := castLoop_bounded actors target u movie (db.getCast movie) _ hstart
        (hcredits movie (List.mem_cons_self _ _))
      have h3 : potential actors { s with visited_films := movie :: s.visited_films }
          = potential actors s := rfl
      rw [h3] at h2
      rw [creditsLoop, if_pos hvisited]
      by_cases hreturned : (castLoop target u movie (db.getCast movie)
          { s with visited_films := movie :: s.visited_films }).1 = true
      · simp only [hreturned, if_true]
        exact ⟨h1, h2⟩
      · simp only [hreturned, if_false]
        obtain ⟨h4, h5⟩ := ih _ h1 hrest
        exact ⟨h4, le_trans h5 h2⟩

theorem whileLoop_terminates (db : imdb) (actors : List Actor) (target : Actor)
    (maxLength : Int)
    (hclosed : ∀ u ∈ actors, ∀ movie ∈ db.getCredits u, ∀ c ∈ db.getCast movie, c ∈ actors) :
    ∀ (budget : Nat) (s : Search), Bounded actors s → potential actors s < budget →
      ∃ found final, whileLoop db target maxLength budget s = some (found, final) := by
  intro budget
  induction budget with
  | zero =>
    intro s _ h
    exact absurd h (Nat.not_lt_zero _)
  | succ budget ih =>
    intro s h hpotential
    rw [whileLoop]
    cases hqueue : s.queue with
    | nil => exact ⟨false, s, rfl⟩
    | cons u queue =>
      simp only
      by_cases hu : s.dist u < maxLength
      · rw [if_pos hu]
        have hmem : u ∈ actors := h.queue_sub u (by rw [hqueue]; exact List.mem_cons_self _ _)
        have hstart : Bounded actors { s with queue := queue } :=
          ⟨h.nodup, h.sub, fun q hq =>
            h.queue_sub q (by rw [hqueue]; exact List.mem_cons_of_mem _ hq)⟩
        have hless : potential actors { s with queue := queue } < budget := by
          have h1 : potential actors s
              = (u :: queue).length + (actors.length - s.visited_actors.length) := by
            unfold potential
            rw [hqueue]
          have h2 : potential actors { s with queue := queue }
              = queue.length + (actors.length - s.visited_actors.length) := rfl
          rw [List.length_cons] at h1
          omega
        obtain ⟨h1, h2⟩ := creditsLoop_bounded db actors target u (db.getCredits u) _ hstart
          (hclosed u hmem)
        by_cases hreturned :
            (creditsLoop db target u (db.getCredits u) { s with queue := queue }).1 = true
        · simp only [hreturned, if_true]
          exact ⟨_, _, rfl⟩
        · simp only [hreturned, if_false]
          exact ih _ h1 (lt_of_le_of_lt h2 hless)
      · rw [if_neg hu]
        exact ⟨false, s, rfl⟩

/-! ## A target that was visited is never found -/

theorem castLoop_visited_target (target u : Actor) (movie : film) :
    ∀ (cast : List Actor) (s : Search), target ∈ s.visited_actors →
      (castLoop target u movie cast s).1 = false
        ∧ target ∈ (castLoop target u movie cast s).2.visited_actors := by
  intro cast
  induction cast with
  | nil =>
    intro s h
    exact ⟨rfl, h⟩
  | cons costar cast ih =>
    intro s h
    by_cases hvisited : costar ∈ s.visited_actors
    · rw [castLoop, if_neg (not_not.mpr hvisited)]
      exact ih s h
    · have hne : costar ≠ target := by
        intro h1
        rw [h1] at hvisited
        exact hvisited h
      rw [castLoop, if_pos hvisited]
      simp only [if_neg hne]
      exact ih _ (List.mem_cons_of_mem _ h)

theorem creditsLoop_visited_target (db : imdb) (target u : Actor) :
    ∀ (credits : List film) (s : Search), target ∈ s.visited_actors →
      (creditsLoop db target u credits s).1 = false
        ∧ target ∈ (creditsLoop db target u credits s).2.visited_actors := by
  intro credits
  induction credits with
  | nil =>
    intro s h
    exact ⟨rfl, h⟩
  | cons movie credits ih =>
    intro s h
    by_cases hvisited : movie ∈ s.visited_films
    · rw [creditsLoop, if_neg (not_not.mpr hvisited)]
      exact ih s h
    · obtain ⟨h1, h2⟩ := castLoop_visited_target target u movie (db.getCast movie)
        { s with visited_films := movie :: s.visited_films } h
      rw [creditsLoop, if_pos hvisited]
      simp only [h1, Bool.false_eq_true, if_false]
      exact ih _ h2

theorem whileLoop_visited_target (db : imdb) (target : Actor) (maxLength : Int) :
    ∀ (budget : Nat) (s : Search), target ∈ s.visited_actors →
      ∀ (found : Bool) (final : Search),
        whileLoop db target maxLength budget s = some (found, final) → found = false := by
  intro budget
  induction budget with
  | zero =>
    intro s _ found final h
    simp [whileLoop] at h
  | succ budget ih =>
    intro s hs found final h
    rw [whileLoop] at h
    cases hqueue : s.queue with
    | nil =>
      rw [hqueue] at h
      simp only [Option.some.injEq, Prod.mk.injEq] at h
      exact h.1.symm
    | cons u queue =>
      rw [hqueue] at h
      simp only at h
      by_cases hu : s.dist u < maxLength
      · rw [if_pos hu] at h
        obtain ⟨h1, h2⟩ := creditsLoop_visited_target db target u (db.getCredits u)
          { s with queue := queue } hs
        simp only [h1, Bool.false_eq_true, if_false] at h
        exact ih _ h2 found final h
      · rw [if_neg hu] at h
        simp only [Option.some.injEq, Prod.mk.injEq] at h
        exact h.1.symm

/-! ## Claims on the search -/

theorem atTest_start (db : imdb) (source : Actor) (pred_actor : Actor → Actor)
    (pred_film : Actor → film) (dist : Actor → Int) :
    AtTest db source
      { queue := [source], visited_actors := [source], visited_films := [],
        pred_actor := pred_actor, pred_film := pred_film,
        dist := Function.update dist source 0 } := by
  have hsource : ∀ v ∈ [source], v = source := fun v hv => List.mem_singleton.mp hv
  have hdist : (Function.update dist source 0) source = 0 := Function.update_same _ _ _
  refine
    { recorded := ⟨List.mem_singleton_self _, hdist, ?_, ?_⟩,
      queue_sub := fun q hq => hq,
      level := ?_,
      sorted := List.pairwise_singleton _ _,
      closed := fun v hv hnot => absurd hv hnot,
      films := fun m hm => absurd hm (List.not_mem_nil _) }
  · intro v hv
    show 0 ≤ (Function.update dist source 0) v
    rw [hsource v hv, hdist]
  · intro v hv hne
    exact absurd (hsource v hv) hne
  · intro v hv q hq
    show (Function.update dist source 0) v ≤ (Function.update dist source 0) q + 1
    rw [hsource v hv, hsource q hq]
    omega

theorem Found.chain {db : imdb} {source target : Actor} {maxLength : Int} {final : Search}
    (h : Found db source target maxLength final) :
    0 ≤ final.dist target
      ∧ isChain db target
          (connections final.pred_actor final.pred_film (final.dist target).toNat target)
          source
      ∧ ((connections final.pred_actor final.pred_film (final.dist target).toNat
            target).length : Int) = final.dist target := by
  have hnonneg := h.recorded.nonneg target h.target_mem
  refine ⟨hnonneg, ?_, ?_⟩
  · exact isChain_connections db source final h.recorded _ target h.target_mem
      (Int.toNat_of_nonneg hnonneg).symm
  · rw [length_connections]
    exact Int.toNat_of_nonneg hnonneg

theorem castsJoin_of_isChain (db : imdb) (source : Actor)
    (hcast : ∀ (u : Actor) (movie : film), movie ∈ db.getCredits u → u ∈ db.getCast movie) :
    ∀ (links : List (film × Actor)) (v : Actor), isChain db v links source →
      castsJoin db v links := by
  intro links
  induction links with
  | nil =>
    intro v _
    trivial
  | cons link links ih =>
    intro v h
    obtain ⟨movie, previous⟩ := link
    obtain ⟨hm, hc, hrest⟩ := h
    exact ⟨hc, hcast previous movie hm, ih previous hrest⟩

/-- C22: for a co-star graph whose actors, the source apart, all belong to a finite list
(the cast of every credit of the source and of every listed actor is listed), and distinct
source and target, `BFS` terminates: every budget of more than the number of listed actors
plus one loop tests is enough for it to return; and it returns `true` if and only if there
is a path of at most `maxLength` film links from source to target, for every `maxLength`
and whatever the three maps hold at the call. -/
theorem BFS_iff_path (db : imdb) (actors : List Actor) (source target : Actor)
    (hfinite : ∀ u ∈ source :: actors, ∀ movie ∈ db.getCredits u,
      ∀ costar ∈ db.getCast movie, costar ∈ source :: actors)
    (hdistinct : source ≠ target) (maxLength : Int) (pred_actor : Actor → Actor)
    (pred_film : Actor → film) (dist : Actor → Int) (budget : Nat)
    (hbudget : actors.length + 2 ≤ budget) :
    ∃ found final,
      BFS db source target maxLength pred_actor pred_film dist budget = some (found, final)
        ∧ (found = true ↔
            ∃ path : List (film × Actor),
              isPath db source path target ∧ (path.length : Int) ≤ maxLength) := by
  have hbounded : Bounded (source :: actors)
      { queue := [source], visited_actors := [source], visited_films := [],
        pred_actor := pred_actor, pred_film := pred_film,
        dist := Function.update dist source 0 } :=
    ⟨List.nodup_singleton _, fun v hv => by rw [List.mem_singleton.mp hv]; exact List.mem_cons_self _ _,
      fun v hv => by rw [List.mem_singleton.mp hv]; exact List.mem_cons_self _ _⟩
  have hpotential : potential (source :: actors)
      { queue := [source], visited_actors := [source], visited_films := [],
        pred_actor := pred_actor, pred_film := pred_film,
        dist := Function.update dist source 0 } < budget := by
    show [source].length + ((source :: actors).length - [source].length) < budget
    simp only [List.length_cons, List.length_nil]
    omega
  obtain ⟨found, final, hrun⟩ :=
    whileLoop_terminates db (source :: actors) target maxLength hfinite budget _ hbounded
      hpotential
  have htarget : target ∉ [source] := fun h => hdistinct (List.mem_singleton.mp h).symm
  obtain ⟨htrue, hfalse⟩ :=
    whileLoop_spec db source target maxLength budget _
      (atTest_start db source pred_actor pred_film dist) htarget found final hrun
  refine ⟨found, final, hrun, ?_, ?_⟩
  · intro hfound
    have h := htrue hfound
    obtain ⟨_, hchain, hlength⟩ := h.chain
    obtain ⟨path, hpath, hlen⟩ := isPath_of_isChain db source _ target hchain
    refine ⟨path, hpath, ?_⟩
    rw [hlen, hlength]
    exact h.dist_le
  · rintro ⟨path, hpath, hlen⟩
    cases found with
    | true => rfl
    | false =>
      have := hfalse rfl path hpath
      omega

theorem BFS_iff_path_witness :
    ∃ found final,
      BFS exampleDb "Ann".toList "Cy".toList 6 (fun _ => []) (fun _ => film.empty)
          (fun _ => 0) 6 = some (found, final)
        ∧ (found = true ↔
            ∃ path : List (film × Actor),
              isPath exampleDb "Ann".toList path "Cy".toList ∧ (path.length : Int) ≤ 6) :=
  BFS_iff_path exampleDb ["Bob".toList, "Cy".toList, "Dee".toList] "Ann".toList "Cy".toList
    (by decide) (by decide) 6 (fun _ => []) (fun _ => film.empty) (fun _ => 0) 6 (by decide)

/-- C29: whenever `BFS` returns `true`, whatever the three maps hold at the call,
`dist[target]` is not negative and is the length of a shortest path from source to target
in the co-star graph: a path of that many film links exists and none has fewer; following
`pred_actor` from the target for `dist[target]` steps, as the loop of `printShortestPath`
does, reaches the source, and each step goes from an actor in the cast of the recorded
`pred_film` to an actor who has that film among their credits, so that both appear in its
cast when every actor appears in the cast of each of their credits. When the `BFS` that
`printShortestPath` calls returns `true`, `printShortestPath` builds the path that starts at
the target and has these `dist[target]` connections, and when it returns `false`,
`printShortestPath` reports that there is no path. The path that `printShortestPath` builds
starts at the target, leads back to the source, and has as few connections as any path from
source to target has links. And it does build one: in a co-star graph whose actors, the
source apart, all belong to a finite list, for distinct source and target with a path of at
most `maxLength` links between them, every budget of more than the number of listed actors
plus one loop tests is enough for `printShortestPath` to build such a path. -/
theorem BFS_true_shortest_path (db : imdb) (source target : Actor) (maxLength : Int) :
    (∀ (pred_actor : Actor → Actor) (pred_film : Actor → film) (dist : Actor → Int)
        (budget : Nat) (final : Search),
        BFS db source target maxLength pred_actor pred_film dist budget = some (true, final) →
        0 ≤ final.dist target
          ∧ (∃ path : List (film × Actor),
              isPath db source path target ∧ (path.length : Int) = final.dist target)
          ∧ (∀ path : List (film × Actor), isPath db source path target →
              final.dist target ≤ path.length)
          ∧ ((connections final.pred_actor final.pred_film (final.dist target).toNat
                target).length : Int) = final.dist target
          ∧ isChain db target
              (connections final.pred_actor final.pred_film (final.dist target).toNat target)
              source
          ∧ ((∀ (u : Actor) (movie : film), movie ∈ db.getCredits u → u ∈ db.getCast movie) →
              castsJoin db target
                (connections final.pred_actor final.pred_film (final.dist target).toNat
                  target)))
      ∧ (∀ (budget : Nat) (final : Search),
          (BFS db source target maxLength (fun _ => []) (fun _ => film.empty) (fun _ => 0)
              budget = some (true, final) →
            printShortestPath db source target maxLength budget
              = some (some (target,
                  connections final.pred_actor final.pred_film (final.dist target).toNat
                    target)))
          ∧ (BFS db source target maxLength (fun _ => []) (fun _ => film.empty) (fun _ => 0)
              budget = some (false, final) →
            printShortestPath db source target maxLength budget = some none))
      ∧ (∀ (budget : Nat) (thisPath : Actor × List (film × Actor)),
          printShortestPath db source target maxLength budget = some (some thisPath) →
          thisPath.1 = target ∧ isChain db target thisPath.2 source
            ∧ (∀ path : List (film × Actor), isPath db source path target →
                thisPath.2.length ≤ path.length))
      ∧ (∀ (actors : List Actor) (budget : Nat),
          (∀ u ∈ source :: actors, ∀ movie ∈ db.getCredits u,
            ∀ costar ∈ db.getCast movie, costar ∈ source :: actors) →
          source ≠ target → actors.length + 2 ≤ budget →
          (∃ path : List (film × Actor),
            isPath db source path target ∧ (path.length : Int) ≤ maxLength) →
          ∃ links : List (film × Actor),
            printShortestPath db source target maxLength budget = some (some (target, links))
              ∧ isChain db target links source
              ∧ (∀ path : List (film × Actor), isPath db source path target →
                  links.length ≤ path.length)) := by
  have hmain : ∀ (pred_actor : Actor → Actor) (pred_film : Actor → film) (dist : Actor → Int)
      (budget : Nat) (final : Search),
      BFS db source target maxLength pred_actor pred_film dist budget = some (true, final) →
      Found db source target maxLength final := by
    intro pred_actor pred_film dist budget final hrun
    have htarget : target ∉ [source] := by
      intro h
      have hfalse := whileLoop_visited_target db target maxLength budget _ h true final hrun
      exact absurd hfalse (by decide)
    exact (whileLoop_spec db source target maxLength budget _
      (atTest_start db source pred_actor pred_film dist) htarget true final hrun).1 rfl
  have hbuilt : ∀ (budget : Nat) (final : Search),
      BFS db source target maxLength (fun _ => []) (fun _ => film.empty) (fun _ => 0)
          budget = some (true, final) →
      printShortestPath db source target maxLength budget
        = some (some (target,
            connections final.pred_actor final.pred_film (final.dist target).toNat
              target)) := by
    intro budget final hrun
    unfold printShortestPath
    rw [hrun]
  have hminimal : ∀ (budget : Nat) (final : Search),
      BFS db source target maxLength (fun _ => []) (fun _ => film.empty) (fun _ => 0)
          budget = some (true, final) →
      isChain db target
          (connections final.pred_actor final.pred_film (final.dist target).toNat target)
          source
        ∧ (∀ path : List (film × Actor), isPath db source path target →
            (connections final.pred_actor final.pred_film (final.dist target).toNat
              target).length ≤ path.length) := by
    intro budget final hrun
    have h := hmain _ _ _ budget final hrun
    obtain ⟨hnonneg, hchain, hlength⟩ := h.chain
    refine ⟨hchain, ?_⟩
    intro path hpath
    have h1 := h.shortest path hpath
    have h2 : ((connections final.pred_actor final.pred_film (final.dist target).toNat
        target).length : Int) ≤ (path.length : Int) := by
      rw [hlength]
      exact h1
    exact_mod_cast h2
  refine ⟨?_, ?_, ?_, ?_⟩
  · intro pred_actor pred_film dist budget final hrun
    have h := hmain pred_actor pred_film dist budget final hrun
    obtain ⟨hnonneg, hchain, hlength⟩ := h.chain
    obtain ⟨path, hpath, hlen⟩ := isPath_of_isChain db source _ target hchain
    refine ⟨hnonneg, ⟨path, hpath, by rw [hlen, hlength]⟩, h.shortest, hlength, hchain, ?_⟩
    intro hcast
    exact castsJoin_of_isChain db source hcast _ target hchain
  · intro budget final
    refine ⟨hbuilt budget final, ?_⟩
    intro hrun
    unfold printShortestPath
    rw [hrun]
  · intro budget thisPath hprint
    cases hrun : BFS db source target maxLength (fun _ => []) (fun _ => film.empty)
        (fun _ => 0) budget with
    | none =>
      unfold printShortestPath at hprint
      rw [hrun] at hprint
      simp at hprint
    | some result =>
      obtain ⟨found, final⟩ := result
      cases found with
      | false =>
        unfold printShortestPath at hprint
        rw [hrun] at hprint
        simp at hprint
      | true =>
        rw [hbuilt budget final hrun] at hprint
        simp only [Option.some.injEq] at hprint
        rw [← hprint]
        exact ⟨rfl, hminimal budget final hrun⟩
  · intro actors budget hfinite hdistinct hbudget hexists
    have hbounded : Bounded (source :: actors)
        { queue := [source], visited_actors := [source], visited_films := [],
          pred_actor := fun _ => [], pred_film := fun _ => film.empty,
          dist := Function.update (fun _ => (0 : Int)) source 0 } :=
      ⟨List.nodup_singleton _,
        fun v hv => by rw [List.mem_singleton.mp hv]; exact List.mem_cons_self _ _,
        fun v hv => by rw [List.mem_singleton.mp hv]; exact List.mem_cons_self _ _⟩
    have hpotential : potential (source :: actors)
        { queue := [source], visited_actors := [source], visited_films := [],
          pred_actor := fun _ => [], pred_film := fun _ => film.empty,
          dist := Function.update (fun _ => (0 : Int)) source 0 } < budget := by
      show [source].length + ((source :: actors).length - [source].length) < budget
      simp only [List.length_cons, List.length_nil]
      omega
    obtain ⟨found, final, hrun⟩ :=
      whileLoop_terminates db (source :: actors) target maxLength hfinite budget _ hbounded
        hpotential
    have htarget : target ∉ [source] := fun h => hdistinct (List.mem_singleton.mp h).symm
    obtain ⟨_, hfalse⟩ :=
      whileLoop_spec db source target maxLength budget _
        (atTest_start db source (fun _ => []) (fun _ => film.empty) (fun _ => 0)) htarget
        found final hrun
    have hfound : found = true := by
      cases found with
      | true => rfl
      | false =>
        obtain ⟨path, hpath, hlen⟩ := hexists
        have := hfalse rfl path hpath
        omega
    subst hfound
    exact ⟨_, hbuilt budget final hrun, hminimal budget final hrun⟩

theorem BFS_true_shortest_path_witness :
    (∃ final,
      BFS exampleDb "Ann".toList "Cy".toList 6 (fun _ => []) (fun _ => film.empty)
          (fun _ => 0) 6 = some (true, final)
        ∧ final.dist "Cy".toList = 2
        ∧ connections final.pred_actor final.pred_film (final.dist "Cy".toList).toNat
            "Cy".toList = [(filmTwo, "Bob".toList), (filmOne, "Ann".toList)]
        ∧ (∀ path : List (film × Actor), isPath exampleDb "Ann".toList path "Cy".toList →
            (2 : Int) ≤ path.length))
      ∧ printShortestPath exampleDb "Ann".toList "Cy".toList 6 6
          = some (some ("Cy".toList, [(filmTwo, "Bob".toList), (filmOne, "Ann".toList)]))
      ∧ (∀ path : List (film × Actor), isPath exampleDb "Ann".toList path "Cy".toList →
          [(filmTwo, "Bob".toList), (filmOne, "Ann".toList)].length ≤ path.length) :=
  ⟨⟨_, rfl, rfl, by decide,
      ((BFS_true_shortest_path exampleDb "Ann".toList "Cy".toList 6).1
        (fun _ => []) (fun _ => film.empty) (fun _ => 0) 6 _ rfl).2.2.1⟩,
    by decide,
    ((BFS_true_shortest_path exampleDb "Ann".toList "Cy".toList 6).2.2.1 6
      ("Cy".toList, [(filmTwo, "Bob".toList), (filmOne, "Ann".toList)]) (by decide)).2.2⟩

end SixDegrees
